import Mathlib

set_option maxHeartbeats 1000000

/-!
# Verification of the gitbook-to-mintlify reconciliation engine

Shallow embedding of the navigation-reconciliation code
(`src/transformer/block-converter.ts` merge half, `src/reconciler/*`,
and the slug disambiguator) together with proofs about the spec's
testable properties.
-/

/-! ## String primitives

JS string operations modelled on the character list underlying a
`String`, so that every definition evaluates by kernel reduction. -/

/-- JS `toLowerCase` (ASCII case folding). -/
def strToLower (s : String) : String := String.mk (s.data.map Char.toLower)

/-- JS `startsWith`. -/
def strStartsWith (s pre : String) : Bool := pre.data.isPrefixOf s.data

/-- JS `endsWith`. -/
def strEndsWith (s suf : String) : Bool := suf.data.isSuffixOf s.data

/-- Drop the last `n` characters. -/
def strDropRight (s : String) (n : Nat) : String :=
  String.mk (s.data.take (s.data.length - n))

/-- JS falsiness of a string: empty. -/
def strIsEmpty (s : String) : Bool := s.data.isEmpty

/-! ## Data model (src/types.ts) -/

structure NavPage where
  label : String
  path : String
  outputPath : Option String := none
deriving Repr, DecidableEq

inductive NavGroup : Type where
  | mk (label : String) (pages : List NavPage) (groups : Option (List NavGroup))
deriving Repr

def NavGroup.label : NavGroup → String
  | .mk l _ _ => l

def NavGroup.pages : NavGroup → List NavPage
  | .mk _ p _ => p

def NavGroup.groups : NavGroup → Option (List NavGroup)
  | .mk _ _ g => g

structure NavTab where
  label : String
  slug : String
  sourceFile : Option String := none
  groups : List NavGroup
deriving Repr

/-- A site space of the authoritative API structure; the merger reads only
its `path` (and `id` for identification). -/
structure GitBookSiteSpace where
  id : String
  path : String
deriving Repr, DecidableEq

structure GitBookSection where
  id : String
  title : String
  path : String
  siteSpaces : List GitBookSiteSpace
deriving Repr, DecidableEq

/-- Model of `GitBookSiteStructure`: either named sections of site spaces or a flat
list of site spaces (exactly one of the two shapes). -/
inductive GitBookSiteStructure : Type where
  | sections (struct : List GitBookSection)
  | siteSpaces (struct : List GitBookSiteSpace)
deriving Repr, DecidableEq

/-- One value of the `config.tabs` record: a label/slug override pair.
`Object.values(config.tabs)` is modelled as the list itself. -/
structure TabConfig where
  label : String
  slug : String
deriving Repr, DecidableEq

structure TransformsConfig where
  flattenSingleChildGroups : Bool
deriving Repr, DecidableEq

/-- The slice of `MigrationConfig` the reconciliation engine reads. -/
structure MigrationConfig where
  tabs : List TabConfig
  transforms : TransformsConfig
deriving Repr, DecidableEq

inductive DiscrepancyType : Type where
  | label_mismatch
  | orphan
  | missing_in_source
  | draft
deriving Repr, DecidableEq

structure Discrepancy where
  dtype : DiscrepancyType
  path : String
  details : String
deriving Repr, DecidableEq

structure Redirect where
  source : String
  destination : String
deriving Repr, DecidableEq

/-! ## Structural-validation passes (block-converter.ts, merge half) -/

namespace NavMerge

/-- Model of `pruneEmptyGroups` from block-converter.ts: remove groups that contain
zero pages and zero sub-groups, children pruned before the parent. -/
def pruneEmptyGroups : List NavGroup → List NavGroup
  | [] => []
  | NavGroup.mk label pages groups :: rest =>
    let subGroups : Option (List NavGroup) :=
      match groups with
      | none => none
      | some gs => some (pruneEmptyGroups gs)
    let hasPages := pages.length > 0
    let hasSubGroups := match subGroups with
      | some l => l.length > 0
      | none => false
    if !hasPages && !hasSubGroups then pruneEmptyGroups rest
    else NavGroup.mk label pages subGroups :: pruneEmptyGroups rest

/-- Model of `removeEmptyGroups` from block-converter.ts. -/
def removeEmptyGroups (tabs : List NavTab) : List NavTab :=
  tabs.map (fun tab => { tab with groups := pruneEmptyGroups tab.groups })

/-- Model of `normalizePath` local to the merge half of block-converter.ts:
`p.replace(/^\/+|\/+$/g, '').toLowerCase()`. -/
def normalizePath (p : String) : String :=
  strToLower (String.mk (((p.data.dropWhile (· = '/')).reverse.dropWhile (· = '/')).reverse))

/-- JS `Set.add`: insertion-ordered, keeps the first occurrence. -/
def setAdd (s : List String) (x : String) : List String :=
  if s.contains x then s else s ++ [x]

/-- Model of `collectApiPaths` from block-converter.ts: all page paths declared in
the API site structure, as an insertion-ordered set. -/
def collectApiPaths : GitBookSiteStructure → List String
  | .sections secs =>
    secs.foldl
      (fun acc sec =>
        sec.siteSpaces.foldl (fun a sp => setAdd a sp.path) (setAdd acc sec.path))
      []
  | .siteSpaces sps => sps.foldl (fun acc sp => setAdd acc sp.path) []

/-- The `orphan` discrepancy emitted by `detectOrphansInGroup`. -/
def orphanDiscrepancy (page : NavPage) : Discrepancy :=
  ⟨.orphan, page.path,
    "Page \"" ++ page.label ++ "\" found in SUMMARY.md but not in API structure"⟩

mutual

/-- Model of `detectOrphansInGroup` from block-converter.ts: flag every page whose
normalized path does not appear (normalized) in the API path set; the
discrepancy list is threaded as an accumulator. -/
def detectOrphansInGroup (apiPaths : List String) :
    NavGroup → List Discrepancy → List Discrepancy
  | NavGroup.mk _ pages groups, ds =>
    let ds1 := pages.foldl
      (fun acc page =>
        let normalized := normalizePath page.path
        let matched := apiPaths.any (fun p => normalizePath p == normalized)
        if !matched then acc ++ [orphanDiscrepancy page] else acc)
      ds
    match groups with
    | none => ds1
    | some subs => detectOrphansInGroupList apiPaths subs ds1

def detectOrphansInGroupList (apiPaths : List String) :
    List NavGroup → List Discrepancy → List Discrepancy
  | [], ds => ds
  | g :: rest, ds =>
    detectOrphansInGroupList apiPaths rest (detectOrphansInGroup apiPaths g ds)

end

/-- Model of `detectOrphans` from block-converter.ts: walk every tab's groups. -/
def detectOrphans (tabs : List NavTab) (apiPaths : List String)
    (ds : List Discrepancy) : List Discrepancy :=
  tabs.foldl (fun acc tab => detectOrphansInGroupList apiPaths tab.groups acc) ds

/-- The `label_mismatch` discrepancy emitted by `reconcileGroups`. -/
def labelMismatchDiscrepancy (page : NavPage) (apiMatch : String) : Discrepancy :=
  ⟨.label_mismatch, page.path,
    "SUMMARY label \"" ++ page.label ++ "\" differs from API path \"" ++ apiMatch ++ "\""⟩

/-- The discrepancies `reconcileGroups` emits for one page: a
`label_mismatch` when the first normalized API match differs verbatim. -/
def pageMismatch (apiPaths : List String) (page : NavPage) : List Discrepancy :=
  let normalized := normalizePath page.path
  match apiPaths.find? (fun p => normalizePath p == normalized) with
  | some m => if m ≠ page.path then [labelMismatchDiscrepancy page m] else []
  | none => []

mutual

/-- Model of `reconcileGroups` (single-group body) from block-converter.ts: pages
are kept verbatim (`{...page}` copies), label mismatches recorded. -/
def reconcileGroup (apiPaths : List String) :
    NavGroup → List Discrepancy → (NavGroup × List Discrepancy)
  | NavGroup.mk label pages groups, ds =>
    let ds1 := pages.foldl (fun acc page => acc ++ pageMismatch apiPaths page) ds
    match groups with
    | none => (NavGroup.mk label pages none, ds1)
    | some subs =>
      let r := reconcileGroupList apiPaths subs ds1
      (NavGroup.mk label pages (some r.1), r.2)

def reconcileGroupList (apiPaths : List String) :
    List NavGroup → List Discrepancy → (List NavGroup × List Discrepancy)
  | [], ds => ([], ds)
  | g :: rest, ds =>
    let r1 := reconcileGroup apiPaths g ds
    let r2 := reconcileGroupList apiPaths rest r1.2
    (r1.1 :: r2.1, r2.2)

end

/-- Model of `mergeWithApi` from block-converter.ts (the unused `summaryBySlug`
lookup of the source is dead code and omitted). -/
def mergeWithApi (apiStructure : GitBookSiteStructure) (summaryTabs : List NavTab)
    (ds : List Discrepancy) (config : MigrationConfig) :
    (List NavTab × List Discrepancy) :=
  let apiPaths := collectApiPaths apiStructure
  let step := summaryTabs.foldl
    (fun (acc : List NavTab × List Discrepancy) summaryTab =>
      let tabConfig := config.tabs.find? (fun t => t.slug == summaryTab.slug)
      let r := reconcileGroupList apiPaths summaryTab.groups acc.2
      (acc.1 ++
        [{ label := match tabConfig with | some t => t.label | none => summaryTab.label,
           slug := summaryTab.slug,
           sourceFile := summaryTab.sourceFile,
           groups := r.1 }],
       r.2))
    ([], ds)
  (step.1, detectOrphans summaryTabs apiPaths step.2)

/-- Model of `deduplicateTabGroupNames` from block-converter.ts: when a tab has a
single group carrying the tab's label, rebuild it (structurally a no-op). -/
def deduplicateTabGroupNames (tabs : List NavTab) : List NavTab :=
  tabs.map (fun tab =>
    match tab.groups with
    | [g] =>
      if strToLower g.label == strToLower tab.label then
        { tab with groups := [NavGroup.mk g.label g.pages g.groups] }
      else tab
    | _ => tab)

/-- Model of `flattenGroups` from block-converter.ts: a group with no direct pages
and exactly one (already recursively flattened) sub-group is replaced by
that sub-group. -/
def flattenGroups : List NavGroup → List NavGroup
  | [] => []
  | NavGroup.mk label pages groups :: rest =>
    let subGroups : Option (List NavGroup) :=
      match groups with
      | none => none
      | some gs => some (flattenGroups gs)
    let gNew :=
      match subGroups with
      | some [child] =>
        if pages.length == 0 then child else NavGroup.mk label pages subGroups
      | _ => NavGroup.mk label pages subGroups
    gNew :: flattenGroups rest

/-- Model of `flattenSingleChildGroups` from block-converter.ts. -/
def flattenSingleChildGroups (tabs : List NavTab) : List NavTab :=
  tabs.map (fun tab => { tab with groups := flattenGroups tab.groups })

/-- Model of `countPages` from block-converter.ts: recursive page count. -/
def countPages : List NavGroup → Nat
  | [] => 0
  | NavGroup.mk _ pages groups :: rest =>
    pages.length + (match groups with | none => 0 | some gs => countPages gs)
      + countPages rest

/-- Model of `flagSinglePageTabs` from block-converter.ts: advisory only. -/
def flagSinglePageTabs (tabs : List NavTab) (ds : List Discrepancy) :
    List Discrepancy :=
  tabs.foldl
    (fun acc tab =>
      if countPages tab.groups == 1 then
        acc ++ [⟨.orphan, tab.slug,
          "Tab \"" ++ tab.label ++ "\" has only one page -- flag for merge"⟩]
      else acc)
    ds

/-- Model of `structuredClone` on immutable values is the identity. -/
def structuredCloneTabs (tabs : List NavTab) : List NavTab := tabs

structure MergeResult where
  tabs : List NavTab
  discrepancies : List Discrepancy

/-- Model of `mergeNavTrees` from block-converter.ts: merge (or clone), then the
structural-validation passes, then the single-page-tab advisory. -/
def mergeNavTrees (apiStructure : Option GitBookSiteStructure)
    (summaryTabs : List NavTab) (config : MigrationConfig) : MergeResult :=
  let step0 :=
    match apiStructure with
    | some api => mergeWithApi api summaryTabs [] config
    | none => (structuredCloneTabs summaryTabs, ([] : List Discrepancy))
  let merged1 := removeEmptyGroups step0.1
  let merged2 := deduplicateTabGroupNames merged1
  let merged3 :=
    if config.transforms.flattenSingleChildGroups then
      flattenSingleChildGroups merged2
    else merged2
  ⟨merged3, flagSinglePageTabs merged3 step0.2⟩

end NavMerge

/-! ## Slug disambiguator (src/unnamed/part_005) -/

namespace Disambiguator

/-- Model of `stripMdExtension`: `p.replace(/\.mdx?$/, '')`. -/
def stripMdExtension (p : String) : String :=
  if strEndsWith p ".mdx" then strDropRight p 4
  else if strEndsWith p ".md" then strDropRight p 3
  else p

/-- Model of `ensureLeadingSlash`. -/
def ensureLeadingSlash (p : String) : String :=
  if strStartsWith p "/" then p else "/" ++ p

/-- Model of `replace(/\/+$/, '')`. -/
def dropTrailingSlashes (p : String) : String :=
  String.mk ((p.data.reverse.dropWhile (· = '/')).reverse)

/-- Model of `buildOverviewSlug`: strip the extension, trim trailing slashes,
append `/overview`. -/
def buildOverviewSlug (parentPath : String) : String :=
  dropTrailingSlashes (stripMdExtension parentPath) ++ "/overview"

/-- The synthetic overview page built for a parent page. -/
def overviewPageFor (parentPath : String) : NavPage :=
  ⟨"Overview", buildOverviewSlug parentPath, some (buildOverviewSlug parentPath)⟩

/-- The redirect emitted for a disambiguated parent page. -/
def redirectFor (parentPath : String) : Redirect :=
  ⟨ensureLeadingSlash parentPath, ensureLeadingSlash (buildOverviewSlug parentPath)⟩

/-- Model of `hasNestedContent`: some sub-group contains a page whose
extension-stripped lower-cased path extends this page's path prefix. -/
def hasNestedContent (page : NavPage) (subGroups : List NavGroup) : Bool :=
  let pre := strToLower (dropTrailingSlashes (stripMdExtension page.path))
  subGroups.any (fun g =>
    g.pages.any (fun p => strStartsWith (strToLower (stripMdExtension p.path)) (pre ++ "/")))

/-- Model of `extractChildPages`: the pages of a flat list nested under the parent. -/
def extractChildPages (parentPath : String) (pages : List NavPage) : List NavPage :=
  let pre := strToLower (dropTrailingSlashes (stripMdExtension parentPath))
  pages.filter (fun p => strStartsWith (strToLower (stripMdExtension p.path)) (pre ++ "/"))

/-- The `for (const page of group.pages)` loop body of
`disambiguateGroups`, as a recursion over the remaining pages.
`allPages` is the group's full original page list (the source passes
`group.pages` to `extractChildPages`), `ss` the mutable `newSubGroups`,
and the result is `(newPages, newSubGroups, redirects)`. -/
def processPages (allPages : List NavPage) :
    List NavPage → List NavGroup → List Redirect →
    (List NavPage × List NavGroup × List Redirect)
  | [], ss, reds => ([], ss, reds)
  | page :: ps, ss, reds =>
    match ss.findIdx? (fun g => strToLower g.label == strToLower page.label) with
    | some idx =>
      let childGroup := ss.getD idx (NavGroup.mk "" [] none)
      let updated := NavGroup.mk childGroup.label
        (overviewPageFor page.path :: childGroup.pages) childGroup.groups
      processPages allPages ps (ss.set idx updated) (reds ++ [redirectFor page.path])
    | none =>
      if hasNestedContent page ss then
        let childPages := extractChildPages page.path allPages
        if childPages.length > 0 then
          let subGroup :=
            NavGroup.mk page.label (overviewPageFor page.path :: childPages) none
          processPages allPages ps (ss ++ [subGroup]) (reds ++ [redirectFor page.path])
        else
          let r := processPages allPages ps ss reds
          (page :: r.1, r.2)
      else
        let r := processPages allPages ps ss reds
        (page :: r.1, r.2)

mutual

/-- Depth of a group: 1 + depth of its sub-group forest. -/
def groupDepth : NavGroup → Nat
  | NavGroup.mk _ _ none => 1
  | NavGroup.mk _ _ (some gs) => 1 + forestDepth gs

/-- Depth of a forest of groups. -/
def forestDepth : List NavGroup → Nat
  | [] => 0
  | g :: rest => max (groupDepth g) (forestDepth rest)

end

theorem groupDepth_pos (g : NavGroup) : 1 ≤ groupDepth g := by
  cases g with
  | mk l p gs => cases gs <;> simp [groupDepth]

theorem forestDepth_pos_of_ne_nil {gs : List NavGroup} (h : gs ≠ []) :
    1 ≤ forestDepth gs := by
  cases gs with
  | nil => exact absurd rfl h
  | cons g rest =>
    have := groupDepth_pos g
    simp only [forestDepth]
    omega

theorem groupDepth_le_forestDepth {g : NavGroup} {gs : List NavGroup}
    (h : g ∈ gs) : groupDepth g ≤ forestDepth gs := by
  induction gs with
  | nil => cases h
  | cons x rest ih =>
    rcases List.mem_cons.mp h with rfl | hmem
    · simp [forestDepth]
    · have := ih hmem
      simp only [forestDepth]
      omega

theorem forestDepth_append (a b : List NavGroup) :
    forestDepth (a ++ b) = max (forestDepth a) (forestDepth b) := by
  induction a with
  | nil => simp [forestDepth]
  | cons g rest ih =>
    simp only [List.cons_append, forestDepth, List.append_eq, ih]
    omega

theorem forestDepth_set_le {gs : List NavGroup} {idx : Nat} {v : NavGroup}
    (hv : groupDepth v ≤ forestDepth gs) :
    forestDepth (gs.set idx v) ≤ forestDepth gs := by
  induction gs generalizing idx with
  | nil => simp [List.set]
  | cons g rest ih =>
    cases idx with
    | zero =>
      simp only [List.set, forestDepth] at *
      omega
    | succ n =>
      simp only [List.set, forestDepth] at *
      have : groupDepth v ≤ forestDepth rest ∨ forestDepth rest < groupDepth v := by omega
      rcases le_or_lt (groupDepth v) (forestDepth rest) with h1 | h1
      · have := @ih n h1
        omega
      · -- v deeper than the rest: the set element is bounded by the head
        have hle : forestDepth (rest.set n v) ≤ max (forestDepth rest) (groupDepth v) := by
          clear ih hv h1 this
          induction rest generalizing n with
          | nil => simp [List.set, forestDepth]
          | cons r rs ih2 =>
            cases n with
            | zero => simp only [List.set, forestDepth]; omega
            | succ m =>
              simp only [List.set, forestDepth]
              have := ih2 (n := m)
              omega
        omega

theorem getD_mem_or {gs : List NavGroup} {idx : Nat} {d : NavGroup} :
    gs.getD idx d ∈ gs ∨ gs.getD idx d = d := by
  induction gs generalizing idx with
  | nil => right; simp [List.getD]
  | cons g rest ih =>
    cases idx with
    | zero => left; simp [List.getD]
    | succ n =>
      rcases @ih n with h | h
      · left
        simp only [List.getD] at h ⊢
        exact List.mem_cons_of_mem _ h
      · right
        simpa [List.getD] using h

/-- Model of `hasNestedContent` never holds against an empty sub-group list. -/
theorem hasNestedContent_nil (page : NavPage) : hasNestedContent page [] = false := by
  simp [hasNestedContent]

/-- Model of `findIdx?` on `[]` is `none`. -/
theorem findIdx?_nil_navgroup (p : NavGroup → Bool) :
    List.findIdx? p ([] : List NavGroup) = none := by
  simp

/-- With no sub-groups, the page loop keeps every page and changes nothing. -/
theorem processPages_nil_ss (allPages ps : List NavPage) (reds : List Redirect) :
    processPages allPages ps [] reds = (ps, [], reds) := by
  induction ps with
  | nil => simp [processPages]
  | cons page rest ih =>
    simp [processPages, hasNestedContent_nil, ih]

/-- The page loop never deepens the sub-group forest. -/
theorem processPages_forestDepth_le (allPages ps : List NavPage)
    (ss : List NavGroup) (reds : List Redirect) :
    forestDepth (processPages allPages ps ss reds).2.1 ≤ forestDepth ss := by
  induction ps generalizing ss reds with
  | nil => simp [processPages]
  | cons page rest ih =>
    by_cases hss : ss = []
    · subst hss
      rw [processPages_nil_ss]
    · simp only [processPages]
      cases hfind : ss.findIdx? (fun g => strToLower g.label == strToLower page.label) with
      | some idx =>
        simp only []
        have hset : forestDepth
            (ss.set idx (NavGroup.mk (ss.getD idx (NavGroup.mk "" [] none)).label
              (overviewPageFor page.path :: (ss.getD idx (NavGroup.mk "" [] none)).pages)
              (ss.getD idx (NavGroup.mk "" [] none)).groups)) ≤ forestDepth ss := by
          apply forestDepth_set_le
          have hdep : groupDepth (NavGroup.mk (ss.getD idx (NavGroup.mk "" [] none)).label
              (overviewPageFor page.path :: (ss.getD idx (NavGroup.mk "" [] none)).pages)
              (ss.getD idx (NavGroup.mk "" [] none)).groups)
              = groupDepth (ss.getD idx (NavGroup.mk "" [] none)) := by
            cases hgd : ss.getD idx (NavGroup.mk "" [] none) with
            | mk l p gsub => cases gsub <;> simp [groupDepth, NavGroup.label, NavGroup.pages, NavGroup.groups]
          rw [hdep]
          rcases @getD_mem_or ss idx (NavGroup.mk "" [] none) with hm | hd
          · exact groupDepth_le_forestDepth hm
          · rw [hd]
            have : groupDepth (NavGroup.mk "" [] none) = 1 := by simp [groupDepth]
            rw [this]
            exact forestDepth_pos_of_ne_nil hss
        exact le_trans (ih _ _) hset
      | none =>
        simp only []
        by_cases hn : hasNestedContent page ss
        · simp only [hn, if_true]
          by_cases hc : (extractChildPages page.path allPages).length > 0
          · simp only [hc, if_true]
            have happ : forestDepth (ss ++ [NavGroup.mk page.label
                (overviewPageFor page.path :: extractChildPages page.path allPages) none])
                ≤ forestDepth ss := by
              rw [forestDepth_append]
              have h1 : forestDepth [NavGroup.mk page.label
                  (overviewPageFor page.path :: extractChildPages page.path allPages) none] = 1 := by
                simp [forestDepth, groupDepth]
              rw [h1]
              have := forestDepth_pos_of_ne_nil hss
              omega
            exact le_trans (ih _ _) happ
          · simp only [hc, if_false]
            exact ih _ _
        · simp only [hn, if_false]
          exact ih _ _

/-- Model of `disambiguateGroups` from part_005: run the page loop on each group,
then recursively disambiguate the (possibly updated and extended)
sub-group list; sub-groups become `none` when the list ends up empty.
Terminates because the page loop never deepens the sub-group forest,
which sits strictly below the group that owns it. -/
def disambiguateGroups : List NavGroup → List Redirect → (List NavGroup × List Redirect)
  | [], reds => ([], reds)
  | NavGroup.mk label pages groups :: rest, reds =>
    let r := processPages pages pages (groups.getD []) reds
    let r2 := disambiguateGroups r.2.1 r.2.2
    let g' := NavGroup.mk label r.1 (if r2.1.length > 0 then some r2.1 else none)
    let r3 := disambiguateGroups rest r2.2
    (g' :: r3.1, r3.2)
termination_by gs _ => (forestDepth gs, gs.length)
decreasing_by
· apply Prod.Lex.left
  have hle := processPages_forestDepth_le pages pages (groups.getD []) reds
  have hinit : forestDepth (groups.getD [])
      < groupDepth (NavGroup.mk label pages groups) := by
    cases groups with
    | none => simp [groupDepth, forestDepth]
    | some gs => simp [groupDepth]
  have hhead : groupDepth (NavGroup.mk label pages groups)
      ≤ forestDepth (NavGroup.mk label pages groups :: rest) := by
    simp only [forestDepth]; omega
  omega
· have hrest : forestDepth rest ≤ forestDepth (NavGroup.mk label pages groups :: rest) := by
    simp only [forestDepth]; omega
  rcases lt_or_eq_of_le hrest with h | h
  · exact Prod.Lex.left _ _ h
  · rw [h]
    apply Prod.Lex.right
    simp

/-- The result record of `disambiguateSlugs`. -/
structure DisambigResult where
  tabs : List NavTab
  redirects : List Redirect

/-- Model of `disambiguateSlugs` from part_005: map over the tabs, replacing each
tab's groups and accumulating redirects in traversal order. -/
def disambiguateSlugs (tabs : List NavTab) : DisambigResult :=
  let step := tabs.foldl
    (fun (acc : List NavTab × List Redirect) tab =>
      let r := disambiguateGroups tab.groups acc.2
      (acc.1 ++ [{ tab with groups := r.1 }], r.2))
    ([], [])
  ⟨step.1, step.2⟩

end Disambiguator

/-! ## Link mapper (src/reconciler/link-mapper.ts) -/

namespace LinkMapper

/-- Model of `stripMdExtension`: `p.replace(/\.mdx?$/, '')`. -/
def stripMdExtension (p : String) : String :=
  if strEndsWith p ".mdx" then strDropRight p 4
  else if strEndsWith p ".md" then strDropRight p 3
  else p

/-- Model of `replace(/^\/+/, '')`. -/
def dropLeadingSlashes (p : String) : String :=
  String.mk (p.data.dropWhile (· = '/'))

/-- JS `Map` modelled as an insertion-ordered association list. -/
abbrev LinkMap := List (String × String)

def mapHas (m : LinkMap) (k : String) : Bool := m.any (·.1 == k)

/-- Model of `Map.set`: overwrite in place when present, append otherwise. -/
def mapSet (m : LinkMap) (k v : String) : LinkMap :=
  if mapHas m k then m.map (fun e => if e.1 == k then (k, v) else e)
  else m ++ [(k, v)]

def mapGet? (m : LinkMap) (k : String) : Option String :=
  (m.find? (·.1 == k)).map (·.2)

/-- Model of `buildNewPath` from link-mapper.ts: strip the extension, drop leading
slashes, prepend the section prefix unless already present
(case-insensitively), and force a leading slash. -/
def buildNewPath (outputPath sectionPrefix : String) : String :=
  let cleaned := dropLeadingSlashes (stripMdExtension outputPath)
  let prefixLower := dropLeadingSlashes (strToLower sectionPrefix)
  let cleaned2 :=
    if !(strIsEmpty prefixLower) && !(strStartsWith (strToLower cleaned) (prefixLower ++ "/")) then
      dropLeadingSlashes sectionPrefix ++ "/" ++ cleaned
    else cleaned
  "/" ++ cleaned2

/-- Model of `addPageMappings` from link-mapper.ts: the four key variants.  The
verbatim and extension-stripped keys are written unconditionally; the two
leading-slash variants only when absent. -/
def addPageMappings (page : NavPage) (sectionPrefix : String) (m : LinkMap) :
    LinkMap :=
  let outputPath := page.outputPath.getD page.path
  let newPath := buildNewPath outputPath sectionPrefix
  let m1 := mapSet m page.path newPath
  let stripped := stripMdExtension page.path
  let m2 := if stripped ≠ page.path then mapSet m1 stripped newPath else m1
  let withSlash := "/" ++ dropLeadingSlashes page.path
  let m3 := if ¬ mapHas m2 withSlash then mapSet m2 withSlash newPath else m2
  let strippedWithSlash := "/" ++ dropLeadingSlashes stripped
  if ¬ mapHas m3 strippedWithSlash then mapSet m3 strippedWithSlash newPath else m3

mutual

/-- Model of `collectPageMappings` from link-mapper.ts: walk a group recursively. -/
def collectPageMappings (sectionPrefix : String) :
    NavGroup → LinkMap → LinkMap
  | NavGroup.mk _ pages groups, m =>
    let m1 := pages.foldl (fun acc p => addPageMappings p sectionPrefix acc) m
    match groups with
    | none => m1
    | some subs => collectPageMappingsList sectionPrefix subs m1

def collectPageMappingsList (sectionPrefix : String) :
    List NavGroup → LinkMap → LinkMap
  | [], m => m
  | g :: rest, m =>
    collectPageMappingsList sectionPrefix rest (collectPageMappings sectionPrefix g m)

end

/-- Model of `buildLinkMap` from link-mapper.ts. -/
def buildLinkMap (tabs : List NavTab) (sectionPaths : List (String × String)) :
    LinkMap :=
  tabs.foldl
    (fun acc tab =>
      let sectionPrefix := (mapGet? sectionPaths tab.slug).getD tab.slug
      collectPageMappingsList sectionPrefix tab.groups acc)
    []

end LinkMapper

/-! ## Asset inventory (src/reconciler/asset-inventory.ts) -/

structure ImageAsset where
  sourcePath : String
  referencedIn : List String
  foundInRepo : Bool
  foundInApi : Bool
  apiDownloadUrl : Option String := none
  targetPath : String
deriving Repr, DecidableEq

namespace AssetInventory

structure CategorizedAssets where
  toDownload : List ImageAsset
  toCopy : List ImageAsset
  orphaned : List ImageAsset
  missing : List ImageAsset
deriving Repr, DecidableEq

/-- JS truthiness of `asset.apiDownloadUrl`: present and non-empty. -/
def hasDownloadUrl (a : ImageAsset) : Bool :=
  match a.apiDownloadUrl with
  | some s => !(strIsEmpty s)
  | none => false

/-- Model of `categorizeAssets` from asset-inventory.ts: the if/else chain placing
each asset in one bucket, in input order. -/
def categorizeAssets (assets : List ImageAsset) : CategorizedAssets :=
  assets.foldl
    (fun acc asset =>
      let isReferenced := asset.referencedIn.length > 0
      if !isReferenced then
        { acc with orphaned := acc.orphaned ++ [asset] }
      else if !asset.foundInRepo && !asset.foundInApi then
        { acc with missing := acc.missing ++ [asset] }
      else if asset.foundInRepo then
        { acc with toCopy := acc.toCopy ++ [asset] }
      else if asset.foundInApi && hasDownloadUrl asset then
        { acc with toDownload := acc.toDownload ++ [asset] }
      else
        { acc with missing := acc.missing ++ [asset] })
    ⟨[], [], [], []⟩

/-! ### `normalizePath` (asset-inventory.ts): decodeURIComponent with
fallback, then slash canonicalization, modelled at character level. -/

/-- Model of `replace(/\\/g, '/')`. -/
def replaceBackslashes (l : List Char) : List Char :=
  l.map (fun c => if c = '\\' then '/' else c)

mutual

/-- Model of `replace(/\/+/g, '/')`: collapse every run of slashes to one
(state machine: outside a slash run). -/
def collapseSlashes : List Char → List Char
  | [] => []
  | c :: rest =>
    if c = '/' then '/' :: collapseAfterSlash rest else c :: collapseSlashes rest

/-- Inside a slash run: the `+` of the regex swallows further slashes. -/
def collapseAfterSlash : List Char → List Char
  | [] => []
  | c :: rest =>
    if c = '/' then collapseAfterSlash rest else c :: collapseSlashes rest

end

/-- Model of `replace(/^\.\//, '')`: strip one leading `./`. -/
def stripDotSlashPrefix : List Char → List Char
  | '.' :: '/' :: rest => rest
  | l => l

/-- Model of `replace(/^\/+/, '')`. -/
def stripLeadingSlashes (l : List Char) : List Char := l.dropWhile (· = '/')

/-- Model of `replace(/\/+$/, '')`. -/
def stripTrailingSlashes (l : List Char) : List Char :=
  (l.reverse.dropWhile (· = '/')).reverse

/-- The five chained replacements of `normalizePath`. -/
def normalizeChars (l : List Char) : List Char :=
  stripTrailingSlashes (stripLeadingSlashes (stripDotSlashPrefix
    (collapseSlashes (replaceBackslashes l))))

/-- Value of a hexadecimal digit character. -/
def hexVal? (c : Char) : Option Nat :=
  if '0' ≤ c ∧ c ≤ '9' then some (c.toNat - '0'.toNat)
  else if 'a' ≤ c ∧ c ≤ 'f' then some (c.toNat - 'a'.toNat + 10)
  else if 'A' ≤ c ∧ c ≤ 'F' then some (c.toNat - 'A'.toNat + 10)
  else none

/-- The byte encoded by a `%XX` escape. -/
def pctByte? (c1 c2 : Char) : Option Nat :=
  match hexVal? c1, hexVal? c2 with
  | some h, some l => some (16 * h + l)
  | _, _ => none

/-- ECMAScript `decodeURIComponent` on a character list: `%XX` escape
runs are decoded as strict UTF-8; any malformed escape or invalid byte
sequence makes the whole decode fail (the JS function throws). -/
def decodeChars : List Char → Option (List Char)
  | [] => some []
  | '%' :: c1 :: c2 :: rest =>
    match pctByte? c1 c2 with
    | none => none
    | some b =>
      if b < 0x80 then
        (decodeChars rest).map (fun tl => Char.ofNat b :: tl)
      else if b < 0xC2 then none
      else if b < 0xE0 then
        match rest with
        | '%' :: d1 :: d2 :: rest2 =>
          match pctByte? d1 d2 with
          | some b2 =>
            if 0x80 ≤ b2 ∧ b2 < 0xC0 then
              (decodeChars rest2).map
                (fun tl => Char.ofNat ((b - 0xC0) * 0x40 + (b2 - 0x80)) :: tl)
            else none
          | none => none
        | _ => none
      else if b < 0xF0 then
        match rest with
        | '%' :: d1 :: d2 :: '%' :: e1 :: e2 :: rest2 =>
          match pctByte? d1 d2, pctByte? e1 e2 with
          | some b2, some b3 =>
            if (if b = 0xE0 then 0xA0 else 0x80) ≤ b2 ∧
               b2 ≤ (if b = 0xED then 0x9F else 0xBF) ∧
               0x80 ≤ b3 ∧ b3 < 0xC0 then
              (decodeChars rest2).map (fun tl =>
                Char.ofNat ((b - 0xE0) * 0x1000 + (b2 - 0x80) * 0x40 + (b3 - 0x80)) :: tl)
            else none
          | _, _ => none
        | _ => none
      else if b < 0xF5 then
        match rest with
        | '%' :: d1 :: d2 :: '%' :: e1 :: e2 :: '%' :: f1 :: f2 :: rest2 =>
          match pctByte? d1 d2, pctByte? e1 e2, pctByte? f1 f2 with
          | some b2, some b3, some b4 =>
            if (if b = 0xF0 then 0x90 else 0x80) ≤ b2 ∧
               b2 ≤ (if b = 0xF4 then 0x8F else 0xBF) ∧
               0x80 ≤ b3 ∧ b3 < 0xC0 ∧ 0x80 ≤ b4 ∧ b4 < 0xC0 then
              (decodeChars rest2).map (fun tl =>
                Char.ofNat ((b - 0xF0) * 0x40000 + (b2 - 0x80) * 0x1000 +
                  (b3 - 0x80) * 0x40 + (b4 - 0x80)) :: tl)
            else none
          | _, _, _ => none
        | _ => none
      else none
  | '%' :: _ => none
  | c :: rest => (decodeChars rest).map (fun tl => c :: tl)

/-- Model of `decodeURIComponent` on strings, `none` when it would throw. -/
def decodeURIComponentOpt (s : String) : Option String :=
  (decodeChars s.data).map String.mk

/-- Model of `normalizePath` from asset-inventory.ts: try to percent-decode
(falling back to the raw string on failure), then canonicalize slashes. -/
def normalizePath (p : String) : String :=
  let decoded := (decodeURIComponentOpt p).getD p
  String.mk (normalizeChars decoded.data)

end AssetInventory

/-! ## Classification predicates read off the `categorizeAssets` chain -/

namespace AssetInventory

/-- Referenced by at least one page. -/
def assetIsReferenced (a : ImageAsset) : Bool := a.referencedIn.length > 0

/-- Bucket rule: referenced by no page. -/
def assetIsOrphaned (a : ImageAsset) : Bool := !(assetIsReferenced a)

/-- Bucket rule: referenced, present in the local repo scan. -/
def assetIsToCopy (a : ImageAsset) : Bool := assetIsReferenced a && a.foundInRepo

/-- Bucket rule: referenced, present only in the API, with a usable URL. -/
def assetIsToDownload (a : ImageAsset) : Bool :=
  assetIsReferenced a && !a.foundInRepo && a.foundInApi && hasDownloadUrl a

/-- Bucket rule: referenced, not in the repo, and either absent from the
API as well or lacking a usable download URL. -/
def assetIsMissing (a : ImageAsset) : Bool :=
  assetIsReferenced a && !a.foundInRepo && (!a.foundInApi || !(hasDownloadUrl a))

/-- One step of the `categorizeAssets` fold. -/
def categorizeStep (acc : CategorizedAssets) (asset : ImageAsset) :
    CategorizedAssets :=
  let isReferenced := asset.referencedIn.length > 0
  if !isReferenced then
    { acc with orphaned := acc.orphaned ++ [asset] }
  else if !asset.foundInRepo && !asset.foundInApi then
    { acc with missing := acc.missing ++ [asset] }
  else if asset.foundInRepo then
    { acc with toCopy := acc.toCopy ++ [asset] }
  else if asset.foundInApi && hasDownloadUrl asset then
    { acc with toDownload := acc.toDownload ++ [asset] }
  else
    { acc with missing := acc.missing ++ [asset] }

theorem categorizeAssets_eq_foldl (assets : List ImageAsset) :
    categorizeAssets assets = assets.foldl categorizeStep ⟨[], [], [], []⟩ := rfl

theorem categorizeStep_spec (acc : CategorizedAssets) (a : ImageAsset) :
    categorizeStep acc a =
      ⟨acc.toDownload ++ (if assetIsToDownload a then [a] else []),
       acc.toCopy ++ (if assetIsToCopy a then [a] else []),
       acc.orphaned ++ (if assetIsOrphaned a then [a] else []),
       acc.missing ++ (if assetIsMissing a then [a] else [])⟩ := by
  rcases acc with ⟨d, c, o, m⟩
  by_cases hr : assetIsReferenced a
  · by_cases hrepo : a.foundInRepo
    · simp [categorizeStep, assetIsToDownload, assetIsToCopy, assetIsOrphaned,
        assetIsMissing, assetIsReferenced, hrepo] at hr ⊢
      simp [List.length_pos.mp hr, hr]
    · by_cases hapi : a.foundInApi
      · by_cases hurl : hasDownloadUrl a
        · simp [categorizeStep, assetIsToDownload, assetIsToCopy, assetIsOrphaned,
            assetIsMissing, assetIsReferenced, hrepo, hapi, hurl] at hr ⊢
          simp [List.length_pos.mp hr, hr]
        · simp only [Bool.not_eq_true] at hurl
          simp [categorizeStep, assetIsToDownload, assetIsToCopy, assetIsOrphaned,
            assetIsMissing, assetIsReferenced, hrepo, hapi, hurl] at hr ⊢
          simp [List.length_pos.mp hr, hr]
      · simp only [Bool.not_eq_true] at hapi
        simp [categorizeStep, assetIsToDownload, assetIsToCopy, assetIsOrphaned,
          assetIsMissing, assetIsReferenced, hrepo, hapi] at hr ⊢
        simp [List.length_pos.mp hr, hr]
  · simp only [assetIsReferenced, Bool.not_eq_true] at hr
    simp [categorizeStep, assetIsToDownload, assetIsToCopy, assetIsOrphaned,
      assetIsMissing, assetIsReferenced, hr]

theorem categorizeAssets_go (assets : List ImageAsset) (acc : CategorizedAssets) :
    assets.foldl categorizeStep acc =
      ⟨acc.toDownload ++ assets.filter assetIsToDownload,
       acc.toCopy ++ assets.filter assetIsToCopy,
       acc.orphaned ++ assets.filter assetIsOrphaned,
       acc.missing ++ assets.filter assetIsMissing⟩ := by
  induction assets generalizing acc with
  | nil => rcases acc with ⟨d, c, o, m⟩; simp
  | cons a rest ih =>
    simp only [List.foldl_cons, ih, categorizeStep_spec]
    rcases acc with ⟨d, c, o, m⟩
    simp only [List.filter_cons]
    by_cases h1 : assetIsToDownload a <;>
      by_cases h2 : assetIsToCopy a <;>
        by_cases h3 : assetIsOrphaned a <;>
          by_cases h4 : assetIsMissing a <;>
            simp [h1, h2, h3, h4]

end AssetInventory

/-! ## Tree observations shared by several claims -/

mutual

/-- All pages of a group, own pages first, then sub-groups, in order. -/
def groupPagesRec : NavGroup → List NavPage
  | NavGroup.mk _ pages none => pages
  | NavGroup.mk _ pages (some gs) => pages ++ forestPagesRec gs

/-- All pages of a forest of groups, in traversal order. -/
def forestPagesRec : List NavGroup → List NavPage
  | [] => []
  | g :: rest => groupPagesRec g ++ forestPagesRec rest

end

/-- All page source paths of a forest. -/
def forestPagePaths (gs : List NavGroup) : List String :=
  (forestPagesRec gs).map NavPage.path

/-- All page source paths of a tab list. -/
def tabsPagePaths (tabs : List NavTab) : List String :=
  tabs.foldl (fun acc tab => acc ++ forestPagePaths tab.groups) []

/-- The full reconciliation pipeline: merge + validation, then slug
disambiguation. -/
def fullPipeline (apiStructure : Option GitBookSiteStructure)
    (summaryTabs : List NavTab) (config : MigrationConfig) :
    Disambiguator.DisambigResult :=
  Disambiguator.disambiguateSlugs
    (NavMerge.mergeNavTrees apiStructure summaryTabs config).tabs

/-- Equality of string lists viewed as sets. -/
def sameStringSet (l1 l2 : List String) : Bool :=
  l1.all (l2.contains ·) && l2.all (l1.contains ·)

/-! ## C6: asset classification is a partition obeying the stated rules -/

/-- C6: `categorizeAssets` places every `ImageAsset` into exactly one of
the four buckets, and the buckets are exactly the assets satisfying the
stated rules: unreferenced → orphaned; referenced but found nowhere →
missing; referenced and in the repo → toCopy; referenced, only in the API,
with a download URL → toDownload; referenced, only in the API, without a
download URL → missing. -/
theorem categorizeAssets_partition (assets : List ImageAsset) :
    (AssetInventory.categorizeAssets assets).toDownload
      = assets.filter AssetInventory.assetIsToDownload ∧
    (AssetInventory.categorizeAssets assets).toCopy
      = assets.filter AssetInventory.assetIsToCopy ∧
    (AssetInventory.categorizeAssets assets).orphaned
      = assets.filter AssetInventory.assetIsOrphaned ∧
    (AssetInventory.categorizeAssets assets).missing
      = assets.filter AssetInventory.assetIsMissing ∧
    ∀ a : ImageAsset,
      (AssetInventory.assetIsToDownload a || AssetInventory.assetIsToCopy a ||
        AssetInventory.assetIsOrphaned a || AssetInventory.assetIsMissing a) = true ∧
      (AssetInventory.assetIsToDownload a && AssetInventory.assetIsToCopy a) = false ∧
      (AssetInventory.assetIsToDownload a && AssetInventory.assetIsOrphaned a) = false ∧
      (AssetInventory.assetIsToDownload a && AssetInventory.assetIsMissing a) = false ∧
      (AssetInventory.assetIsToCopy a && AssetInventory.assetIsOrphaned a) = false ∧
      (AssetInventory.assetIsToCopy a && AssetInventory.assetIsMissing a) = false ∧
      (AssetInventory.assetIsOrphaned a && AssetInventory.assetIsMissing a) = false := by
  rw [AssetInventory.categorizeAssets_eq_foldl, AssetInventory.categorizeAssets_go]
  refine ⟨by simp, by simp, by simp, by simp, ?_⟩
  intro a
  simp only [AssetInventory.assetIsToDownload, AssetInventory.assetIsToCopy,
    AssetInventory.assetIsOrphaned, AssetInventory.assetIsMissing,
    AssetInventory.assetIsReferenced]
  by_cases hr : 0 < a.referencedIn.length <;>
    cases hrepo : a.foundInRepo <;>
      cases hapi : a.foundInApi <;>
        cases hurl : AssetInventory.hasDownloadUrl a <;>
          simp [hr, hrepo, hapi, hurl]

/-! ## C10: disambiguation frame property on tabs -/

theorem disambig_foldl_proj {α : Type} (f : NavTab → α)
    (hf : ∀ (tab : NavTab) (gs : List NavGroup), f { tab with groups := gs } = f tab)
    (tabs : List NavTab) (accT : List NavTab) (accR : List Redirect) :
    ((tabs.foldl
        (fun (acc : List NavTab × List Redirect) tab =>
          let r := Disambiguator.disambiguateGroups tab.groups acc.2
          (acc.1 ++ [{ tab with groups := r.1 }], r.2))
        (accT, accR)).1).map f
      = accT.map f ++ tabs.map f := by
  induction tabs generalizing accT accR with
  | nil => simp
  | cons t rest ih =>
    simp only [List.foldl_cons, ih, List.map_append, List.map_cons, List.map_nil, hf]
    simp

/-- C10: every tab in the output of `disambiguateSlugs` keeps its label,
slug and source-file identifier; only the groups field is replaced (and
the redirect list is returned alongside). -/
theorem disambiguateSlugs_frame (tabs : List NavTab) :
    ((Disambiguator.disambiguateSlugs tabs).tabs).map NavTab.label
        = tabs.map NavTab.label ∧
    ((Disambiguator.disambiguateSlugs tabs).tabs).map NavTab.slug
        = tabs.map NavTab.slug ∧
    ((Disambiguator.disambiguateSlugs tabs).tabs).map NavTab.sourceFile
        = tabs.map NavTab.sourceFile ∧
    ((Disambiguator.disambiguateSlugs tabs).tabs).length = tabs.length := by
  have h1 := disambig_foldl_proj NavTab.label (by intro t gs; rfl) tabs [] []
  have h2 := disambig_foldl_proj NavTab.slug (by intro t gs; rfl) tabs [] []
  have h3 := disambig_foldl_proj NavTab.sourceFile (by intro t gs; rfl) tabs [] []
  refine ⟨?_, ?_, ?_, ?_⟩
  · simpa [Disambiguator.disambiguateSlugs] using h1
  · simpa [Disambiguator.disambiguateSlugs] using h2
  · simpa [Disambiguator.disambiguateSlugs] using h3
  · have := congrArg List.length h1
    simpa [Disambiguator.disambiguateSlugs] using this

/-! ## C8: group non-emptiness after validation -/

mutual

/-- A group is well-formed when it has a page or a sub-group, and all its
sub-groups are recursively well-formed (hence themselves non-empty). -/
def groupOK : NavGroup → Bool
  | NavGroup.mk _ pages groups =>
    (pages.length > 0 || (match groups with | some gs => gs.length > 0 | none => false))
      && (match groups with | none => true | some gs => forestOK gs)

/-- All groups of a forest are well-formed. -/
def forestOK : List NavGroup → Bool
  | [] => true
  | g :: rest => groupOK g && forestOK rest

end

theorem forestOK_prune : ∀ gs : List NavGroup,
    forestOK (NavMerge.pruneEmptyGroups gs) = true
  | [] => by simp [NavMerge.pruneEmptyGroups, forestOK]
  | NavGroup.mk label pages groups :: rest => by
    have ihRest := forestOK_prune rest
    cases groups with
    | none =>
      rw [NavMerge.pruneEmptyGroups.eq_def]
      dsimp only
      split
      · exact ihRest
      · rename_i hcond
        simp only [Bool.not_false, Bool.and_true, Bool.not_eq_true',
          decide_eq_false_iff_not, Nat.not_lt, Nat.le_zero] at hcond
        simp only [forestOK, groupOK, Bool.and_eq_true, Bool.or_eq_true]
        refine ⟨⟨?_, trivial⟩, ihRest⟩
        left
        simp only [decide_eq_true_eq]
        omega
    | some inner =>
      have ihSub := forestOK_prune inner
      rw [NavMerge.pruneEmptyGroups.eq_def]
      dsimp only
      split
      · exact ihRest
      · rename_i hcond
        simp only [Bool.and_eq_true, Bool.not_eq_true', decide_eq_false_iff_not,
          not_and, Nat.not_lt, Nat.le_zero] at hcond
        simp only [forestOK, groupOK, Bool.and_eq_true, Bool.or_eq_true]
        refine ⟨⟨?_, ihSub⟩, ihRest⟩
        by_cases hp : pages.length > 0
        · left; simpa using hp
        · right
          simp only [decide_eq_true_eq]
          have := hcond (by omega)
          omega

theorem flattenGroups_length : ∀ gs : List NavGroup,
    (NavMerge.flattenGroups gs).length = gs.length
  | [] => by simp [NavMerge.flattenGroups]
  | NavGroup.mk label pages groups :: rest => by
    have ih := flattenGroups_length rest
    rw [NavMerge.flattenGroups.eq_def]
    dsimp only
    simp [ih]

theorem forestOK_flatten : ∀ gs : List NavGroup,
    forestOK gs = true → forestOK (NavMerge.flattenGroups gs) = true
  | [] => by simp [NavMerge.flattenGroups]
  | NavGroup.mk label pages groups :: rest => by
    intro h
    simp only [forestOK, Bool.and_eq_true] at h
    have ihRest := forestOK_flatten rest h.2
    cases groups with
    | none =>
      rw [NavMerge.flattenGroups.eq_def]
      dsimp only
      simp only [forestOK, Bool.and_eq_true]
      exact ⟨h.1, ihRest⟩
    | some inner =>
      have hGroup := h.1
      simp only [groupOK, Bool.and_eq_true, Bool.or_eq_true] at hGroup
      have hInner : forestOK inner = true := hGroup.2
      have ihSub := forestOK_flatten inner hInner
      rw [NavMerge.flattenGroups.eq_def]
      dsimp only
      rcases hfi : NavMerge.flattenGroups inner with _ | ⟨child, rest2⟩
      · have hlen : inner.length = 0 := by
          have hx := flattenGroups_length inner
          rw [hfi] at hx
          simpa using hx.symm
        dsimp only
        simp only [forestOK, groupOK, Bool.and_eq_true, Bool.or_eq_true]
        refine ⟨⟨?_, trivial⟩, ihRest⟩
        rcases hGroup.1 with hp | hl
        · exact Or.inl hp
        · exfalso
          simp only [decide_eq_true_eq] at hl
          omega
      · rcases rest2 with _ | ⟨c2, r2⟩
        · dsimp only
          have hone : forestOK [child] = true := by rw [← hfi]; exact ihSub
          simp only [forestOK, Bool.and_eq_true, Bool.and_true] at hone
          by_cases hp : (pages.length == 0) = true
          · rw [if_pos hp]
            simp only [forestOK, Bool.and_eq_true]
            exact ⟨hone, ihRest⟩
          · rw [if_neg hp]
            simp only [forestOK, groupOK, Bool.and_eq_true, Bool.or_eq_true]
            refine ⟨⟨?_, by simp [forestOK, hone]⟩, ihRest⟩
            left
            simp only [beq_iff_eq] at hp
            simp only [decide_eq_true_eq]
            omega
        · dsimp only
          have hmany : forestOK (child :: c2 :: r2) = true := by rw [← hfi]; exact ihSub
          simp only [forestOK, Bool.and_eq_true] at hmany
          simp only [forestOK, groupOK, Bool.and_eq_true, Bool.or_eq_true]
          refine ⟨⟨?_, ⟨hmany.1, hmany.2⟩⟩, ihRest⟩
          right
          simp

/-- The name-deduplication pass is structurally the identity (both labels
are kept, matching the source comment "both labels are kept"). -/
theorem dedupe_id : ∀ tabs : List NavTab,
    NavMerge.deduplicateTabGroupNames tabs = tabs
  | [] => rfl
  | t :: rest => by
    have ih := dedupe_id rest
    simp only [NavMerge.deduplicateTabGroupNames, List.map_cons] at ih ⊢
    rw [ih]
    rcases t with ⟨tl, ts, tf, tg⟩
    rcases tg with _ | ⟨g, gr⟩
    · rfl
    · rcases gr with _ | ⟨g2, gr2⟩
      · rcases g with ⟨gl, gp, gg⟩
        dsimp only
        split
        · rfl
        · rfl
      · rfl

/-- C8: after the structural-validation passes inside the merge (and hence
after the full merge), every group in every output tab has at least one
page or at least one (recursively non-empty) sub-group. -/
theorem mergeNavTrees_group_nonempty (api : Option GitBookSiteStructure)
    (tabs : List NavTab) (config : MigrationConfig) :
    ((NavMerge.mergeNavTrees api tabs config).tabs).all
      (fun t => forestOK t.groups) = true := by
  have hbase : ∀ ts : List NavTab,
      (NavMerge.removeEmptyGroups ts).all (fun t => forestOK t.groups) = true := by
    intro ts
    simp only [NavMerge.removeEmptyGroups, List.all_map, Function.comp]
    apply List.all_eq_true.mpr
    intro t _
    exact forestOK_prune t.groups
  have hflat : ∀ ts : List NavTab,
      ts.all (fun t => forestOK t.groups) = true →
      (NavMerge.flattenSingleChildGroups ts).all (fun t => forestOK t.groups) = true := by
    intro ts hts
    simp only [NavMerge.flattenSingleChildGroups, List.all_map, Function.comp]
    apply List.all_eq_true.mpr
    intro t ht
    exact forestOK_flatten t.groups (List.all_eq_true.mp hts t ht)
  simp only [NavMerge.mergeNavTrees, dedupe_id]
  split
  · exact hflat _ (hbase _)
  · exact hbase _

/-! ## C9: passthrough without authoritative structure -/

theorem prune_id : ∀ gs : List NavGroup,
    forestOK gs = true → NavMerge.pruneEmptyGroups gs = gs
  | [] => by intro _; simp [NavMerge.pruneEmptyGroups]
  | NavGroup.mk label pages groups :: rest => by
    intro h
    simp only [forestOK, Bool.and_eq_true] at h
    have ihRest := prune_id rest h.2
    cases groups with
    | none =>
      have hG := h.1
      simp only [groupOK, Bool.and_eq_true, Bool.or_eq_true] at hG
      rw [NavMerge.pruneEmptyGroups.eq_def]
      dsimp only
      split
      · rename_i hcond
        exfalso
        simp only [Bool.not_false, Bool.and_true, Bool.not_eq_true',
          decide_eq_false_iff_not, Nat.not_lt, Nat.le_zero] at hcond
        rcases hG.1 with hp | hp
        · simp only [decide_eq_true_eq] at hp
          omega
        · simp at hp
      · rw [ihRest]
    | some inner =>
      have hG := h.1
      simp only [groupOK, Bool.and_eq_true, Bool.or_eq_true] at hG
      have ihSub := prune_id inner hG.2
      rw [NavMerge.pruneEmptyGroups.eq_def]
      dsimp only
      rw [ihSub]
      split
      · rename_i hcond
        exfalso
        simp only [Bool.and_eq_true, Bool.not_eq_true', decide_eq_false_iff_not,
          Nat.not_lt, Nat.le_zero] at hcond
        rcases hG.1 with hp | hp
        · simp only [decide_eq_true_eq] at hp
          omega
        · simp only [decide_eq_true_eq] at hp
          omega
      · rw [ihRest]

/-- No group of the forest is a flattening candidate (pageless with a
single sub-group), recursively. -/
def flattenFree : List NavGroup → Bool
  | [] => true
  | NavGroup.mk _ pages groups :: rest =>
    (match groups with
     | none => true
     | some gs => (!(pages.length == 0 && gs.length == 1)) && flattenFree gs)
      && flattenFree rest

theorem flatten_id : ∀ gs : List NavGroup,
    flattenFree gs = true → NavMerge.flattenGroups gs = gs
  | [] => by intro _; simp [NavMerge.flattenGroups]
  | NavGroup.mk label pages groups :: rest => by
    intro h
    rw [flattenFree.eq_def] at h
    dsimp only at h
    simp only [Bool.and_eq_true] at h
    have ihRest := flatten_id rest h.2
    cases groups with
    | none =>
      rw [NavMerge.flattenGroups.eq_def]
      dsimp only
      rw [ihRest]
    | some inner =>
      simp only [Bool.and_eq_true] at h
      have hfree := h.1
      simp only [Bool.and_eq_true] at hfree
      have ihSub := flatten_id inner hfree.2
      rw [NavMerge.flattenGroups.eq_def]
      dsimp only
      rw [ihSub, ihRest]
      rcases inner with _ | ⟨child, rest2⟩
      · rfl
      · rcases rest2 with _ | ⟨c2, r2⟩
        · dsimp only
          have hnp : (pages.length == 0) = false := by
            have := hfree.1
            simp only [Bool.not_eq_true', Bool.and_eq_false_iff] at this
            rcases this with hp | hl
            · exact hp
            · exfalso; simp at hl
          rw [if_neg (by simp [hnp])]
        · rfl

/-- C9 counterexample: with no authoritative structure the result is not
a structural copy of the input — a pageless, sub-group-less group is
pruned away, so the output tab has zero groups where the input had one. -/
theorem mergeNavTrees_passthrough_cex :
    ((NavMerge.mergeNavTrees none [⟨"T", "t", none, [NavGroup.mk "Empty" [] none]⟩]
        ⟨[], ⟨true⟩⟩).tabs).map (fun t => t.groups.length) = [0] ∧
    ([⟨"T", "t", none, [NavGroup.mk "Empty" [] none]⟩] : List NavTab).map
        (fun t => t.groups.length) = [1] := by
  constructor
  · simp [NavMerge.mergeNavTrees, NavMerge.structuredCloneTabs,
      NavMerge.removeEmptyGroups, NavMerge.pruneEmptyGroups,
      NavMerge.deduplicateTabGroupNames, NavMerge.flattenSingleChildGroups,
      NavMerge.flattenGroups]
  · rfl

/-- C9 (amended): with no authoritative structure, `mergeNavTrees` deep
copies the local tabs and then runs the structural-validation passes on
the copy; when the input has no empty groups and (if flattening is
enabled) no pageless single-child groups, the output equals the input
exactly; the input itself is never mutated (the model is pure). -/
theorem mergeNavTrees_passthrough (tabs : List NavTab) (config : MigrationConfig)
    (h1 : tabs.all (fun t => forestOK t.groups) = true)
    (h2 : config.transforms.flattenSingleChildGroups = true →
          tabs.all (fun t => flattenFree t.groups) = true) :
    (NavMerge.mergeNavTrees none tabs config).tabs = tabs := by
  have hre : NavMerge.removeEmptyGroups tabs = tabs := by
    simp only [NavMerge.removeEmptyGroups]
    conv_rhs => rw [show tabs = tabs.map id from (List.map_id tabs).symm]
    apply List.map_congr_left
    intro t ht
    have hp := prune_id t.groups (List.all_eq_true.mp h1 t ht)
    cases t
    simp [hp]
  simp only [NavMerge.mergeNavTrees, NavMerge.structuredCloneTabs, dedupe_id, hre]
  split
  · rename_i hflag
    have hfl : NavMerge.flattenSingleChildGroups tabs = tabs := by
      simp only [NavMerge.flattenSingleChildGroups]
      conv_rhs => rw [show tabs = tabs.map id from (List.map_id tabs).symm]
      apply List.map_congr_left
      intro t ht
      have hf := flatten_id t.groups (List.all_eq_true.mp (h2 hflag) t ht)
      cases t
      simp [hf]
    exact hfl
  · rfl

/-- C9 witness: a concrete already-validated input passes through. -/
theorem mergeNavTrees_passthrough_witness :
    (NavMerge.mergeNavTrees none
        [⟨"T", "t", none, [NavGroup.mk "G" [⟨"A", "a.md", none⟩] none]⟩]
        ⟨[], ⟨true⟩⟩).tabs
      = [⟨"T", "t", none, [NavGroup.mk "G" [⟨"A", "a.md", none⟩] none]⟩] :=
  mergeNavTrees_passthrough _ _
    (by simp [forestOK, groupOK])
    (fun _ => by simp [flattenFree])

/-! ## C1: idempotence of asset-inventory path normalization -/

namespace AssetInventory

/-- Adjacent double slash detector. -/
def hasDoubleSlash : List Char → Bool
  | '/' :: '/' :: _ => true
  | _ :: rest => hasDoubleSlash rest
  | [] => false

theorem hasDoubleSlash_cons (a : Char) (l : List Char) :
    hasDoubleSlash (a :: l)
      = ((decide (a = '/') && (l.head? == some '/')) || hasDoubleSlash l) := by
  by_cases ha : a = '/'
  · subst ha
    cases l with
    | nil => simp [hasDoubleSlash]
    | cons b t =>
      by_cases hb : b = '/'
      · subst hb; simp [hasDoubleSlash]
      · have : hasDoubleSlash ('/' :: b :: t) = hasDoubleSlash (b :: t) := by
          rw [hasDoubleSlash.eq_def]
          split
          · rename_i heq
            injection heq with h1 h2
            injection h2 with h2a
            exact absurd h2a hb
          · rename_i x rest heq
            injection heq with h1 h2
            rw [h2]
          · rename_i heq
            cases heq
        rw [this]
        simp [hb]
  · have : hasDoubleSlash (a :: l) = hasDoubleSlash l := by
      rw [hasDoubleSlash.eq_def]
      split
      · rename_i heq
        injection heq with h1 _
        exact absurd h1 ha
      · rename_i x rest heq
        injection heq with h1 h2
        rw [h2]
      · rename_i heq
        cases heq
    rw [this]
    simp [ha]

theorem head_collapseAfterSlash : ∀ l : List Char,
    (collapseAfterSlash l).head? ≠ some '/'
  | [] => by simp [collapseAfterSlash]
  | c :: rest => by
    rw [collapseAfterSlash.eq_def]
    dsimp only
    split
    · exact head_collapseAfterSlash rest
    · rename_i hc
      simp only [List.head?_cons, ne_eq, Option.some.injEq]
      exact hc

mutual

theorem hasDD_collapse : ∀ l : List Char,
    hasDoubleSlash (collapseSlashes l) = false
  | [] => by simp [collapseSlashes, hasDoubleSlash]
  | c :: rest => by
    rw [collapseSlashes.eq_def]
    dsimp only
    split
    · rw [hasDoubleSlash_cons]
      have h1 := head_collapseAfterSlash rest
      have h2 := hasDD_collapseAfter rest
      simp only [h2, Bool.or_false, Bool.and_eq_false_iff]
      right
      simpa using h1
    · rename_i hc
      rw [hasDoubleSlash_cons]
      have h2 := hasDD_collapse rest
      simp [hc, h2]

theorem hasDD_collapseAfter : ∀ l : List Char,
    hasDoubleSlash (collapseAfterSlash l) = false
  | [] => by simp [collapseAfterSlash, hasDoubleSlash]
  | c :: rest => by
    rw [collapseAfterSlash.eq_def]
    dsimp only
    split
    · exact hasDD_collapseAfter rest
    · rename_i hc
      rw [hasDoubleSlash_cons]
      have h2 := hasDD_collapse rest
      simp [hc, h2]

end

theorem hasDD_append_right {a b : List Char}
    (h : hasDoubleSlash (a ++ b) = false) : hasDoubleSlash b = false := by
  induction a with
  | nil => simpa using h
  | cons x a' ih =>
    rw [List.cons_append, hasDoubleSlash_cons] at h
    simp only [Bool.or_eq_false_iff] at h
    exact ih h.2

theorem hasDD_append_left {a b : List Char}
    (h : hasDoubleSlash (a ++ b) = false) : hasDoubleSlash a = false := by
  induction a with
  | nil => simp [hasDoubleSlash]
  | cons x a' ih =>
    rw [List.cons_append, hasDoubleSlash_cons] at h
    simp only [Bool.or_eq_false_iff] at h
    rw [hasDoubleSlash_cons]
    simp only [Bool.or_eq_false_iff]
    refine ⟨?_, ih h.2⟩
    rcases h.1 |>.symm with _
    have h1 := h.1
    cases a' with
    | nil => simp
    | cons y t =>
      simpa using h1

theorem hasDD_dropWhile {p : Char → Bool} {l : List Char}
    (h : hasDoubleSlash l = false) :
    hasDoubleSlash (l.dropWhile p) = false := by
  induction l with
  | nil => simpa using h
  | cons c rest ih =>
    rw [List.dropWhile_cons]
    rw [hasDoubleSlash_cons] at h
    simp only [Bool.or_eq_false_iff] at h
    split
    · exact ih h.2
    · rw [hasDoubleSlash_cons]
      simp [h.1, h.2]

theorem head_dropWhile_ne (p : Char → Bool) : ∀ (l : List Char) (c : Char),
    (l.dropWhile p).head? = some c → p c = false
  | [], c => by simp
  | a :: rest, c => by
    rw [List.dropWhile_cons]
    split
    · exact head_dropWhile_ne p rest c
    · rename_i hpa
      intro h
      simp only [List.head?_cons, Option.some.injEq] at h
      subst h
      simpa using hpa

theorem not_backslash_replaceBackslashes (l : List Char) :
    '\\' ∉ replaceBackslashes l := by
  intro hmem
  simp only [replaceBackslashes, List.mem_map] at hmem
  rcases hmem with ⟨c, _, hc⟩
  by_cases h : c = '\\' <;> simp [h] at hc

mutual

theorem mem_collapseSlashes : ∀ (l : List Char) (c : Char),
    c ∈ collapseSlashes l → c ∈ l
  | [], c => by simp [collapseSlashes]
  | a :: rest, c => by
    rw [collapseSlashes.eq_def]
    dsimp only
    split
    · rename_i ha
      intro h
      rcases List.mem_cons.mp h with rfl | h2
      · simp [ha]
      · exact List.mem_cons_of_mem _ (mem_collapseAfterSlash rest c h2)
    · intro h
      rcases List.mem_cons.mp h with rfl | h2
      · simp
      · exact List.mem_cons_of_mem _ (mem_collapseSlashes rest c h2)

theorem mem_collapseAfterSlash : ∀ (l : List Char) (c : Char),
    c ∈ collapseAfterSlash l → c ∈ l
  | [], c => by simp [collapseAfterSlash]
  | a :: rest, c => by
    rw [collapseAfterSlash.eq_def]
    dsimp only
    split
    · intro h
      exact List.mem_cons_of_mem _ (mem_collapseAfterSlash rest c h)
    · intro h
      rcases List.mem_cons.mp h with rfl | h2
      · simp
      · exact List.mem_cons_of_mem _ (mem_collapseSlashes rest c h2)

end

theorem mem_stripDotSlashPrefix {l : List Char} {c : Char}
    (h : c ∈ stripDotSlashPrefix l) : c ∈ l := by
  rw [stripDotSlashPrefix.eq_def] at h
  split at h
  · exact List.mem_cons_of_mem _ (List.mem_cons_of_mem _ h)
  · exact h

theorem mem_stripLeadingSlashes {l : List Char} {c : Char}
    (h : c ∈ stripLeadingSlashes l) : c ∈ l :=
  List.dropWhile_sublist _ |>.mem h

theorem mem_stripTrailingSlashes {l : List Char} {c : Char}
    (h : c ∈ stripTrailingSlashes l) : c ∈ l := by
  simp only [stripTrailingSlashes, List.mem_reverse] at h
  have := List.dropWhile_sublist (l := l.reverse) (p := (· = '/')) |>.mem h
  simpa using this

/-- Every character of a normalized path occurs in the input
(after backslash replacement). -/
theorem mem_normalizeChars {l : List Char} {c : Char}
    (h : c ∈ normalizeChars l) : c ∈ replaceBackslashes l := by
  simp only [normalizeChars] at h
  exact mem_collapseSlashes _ _
    (mem_stripDotSlashPrefix (mem_stripLeadingSlashes (mem_stripTrailingSlashes h)))

theorem not_backslash_normalizeChars (l : List Char) :
    '\\' ∉ normalizeChars l := fun h =>
  not_backslash_replaceBackslashes l (mem_normalizeChars h)

theorem hasDD_stripDotSlashPrefix {l : List Char}
    (h : hasDoubleSlash l = false) :
    hasDoubleSlash (stripDotSlashPrefix l) = false := by
  rw [stripDotSlashPrefix.eq_def]
  split
  · rw [hasDoubleSlash_cons, hasDoubleSlash_cons] at h
    simp only [Bool.or_eq_false_iff] at h
    exact h.2.2
  · exact h

theorem stripTrailing_append (l : List Char) :
    stripTrailingSlashes l ++ ((l.reverse.takeWhile (· = '/')).reverse) = l := by
  simp only [stripTrailingSlashes]
  rw [← List.reverse_append]
  rw [List.takeWhile_append_dropWhile]
  exact List.reverse_reverse l

theorem hasDD_stripTrailing {l : List Char} (h : hasDoubleSlash l = false) :
    hasDoubleSlash (stripTrailingSlashes l) = false := by
  have happ := stripTrailing_append l
  apply hasDD_append_left (b := (l.reverse.takeWhile (· = '/')).reverse)
  rw [happ]
  exact h

theorem hasDD_normalizeChars (l : List Char) :
    hasDoubleSlash (normalizeChars l) = false := by
  simp only [normalizeChars]
  exact hasDD_stripTrailing (hasDD_dropWhile
    (hasDD_stripDotSlashPrefix (hasDD_collapse _)))

theorem head_stripTrailing {l : List Char} {c : Char}
    (h : (stripTrailingSlashes l).head? = some c) : l.head? = some c := by
  have happ := stripTrailing_append l
  rcases he : stripTrailingSlashes l with _ | ⟨x, t⟩
  · rw [he] at h; cases h
  · rw [he] at h happ
    simp only [List.head?_cons, Option.some.injEq] at h
    subst h
    rw [← happ]
    rfl

theorem head_normalizeChars {l : List Char} {c : Char}
    (h : (normalizeChars l).head? = some c) : c ≠ '/' := by
  simp only [normalizeChars] at h
  have h2 := head_stripTrailing h
  have h3 := head_dropWhile_ne (· = '/') _ _ h2
  simpa using h3

theorem getLast_normalizeChars {l : List Char} {c : Char}
    (h : (normalizeChars l).getLast? = some c) : c ≠ '/' := by
  simp only [normalizeChars, stripTrailingSlashes] at h
  rw [← List.head?_reverse, List.reverse_reverse] at h
  have h3 := head_dropWhile_ne (· = '/') _ _ h
  simpa using h3

theorem replaceBackslashes_id {l : List Char} (h : '\\' ∉ l) :
    replaceBackslashes l = l := by
  simp only [replaceBackslashes]
  conv_rhs => rw [← List.map_id l]
  apply List.map_congr_left
  intro c hc
  have : c ≠ '\\' := fun hcc => h (hcc ▸ hc)
  simp [this]

mutual

theorem collapseSlashes_id : ∀ l : List Char,
    hasDoubleSlash l = false → collapseSlashes l = l
  | [], _ => by simp [collapseSlashes]
  | c :: rest, h => by
    rw [hasDoubleSlash_cons] at h
    simp only [Bool.or_eq_false_iff] at h
    rw [collapseSlashes.eq_def]
    dsimp only
    split
    · rename_i hc
      subst hc
      rw [collapseAfterSlash_id rest h.2 ?hh]
      case hh =>
        have h1 := h.1
        simp at h1
        simpa using h1
    · rw [collapseSlashes_id rest h.2]

theorem collapseAfterSlash_id : ∀ l : List Char,
    hasDoubleSlash l = false → l.head? ≠ some '/' → collapseAfterSlash l = l
  | [], _, _ => by simp [collapseAfterSlash]
  | c :: rest, h, hhead => by
    rw [hasDoubleSlash_cons] at h
    simp only [Bool.or_eq_false_iff] at h
    rw [collapseAfterSlash.eq_def]
    dsimp only
    split
    · rename_i hc
      exfalso
      exact hhead (by simp [hc])
    · rw [collapseSlashes_id rest h.2]

end

theorem stripLeadingSlashes_id {l : List Char} (h : l.head? ≠ some '/') :
    stripLeadingSlashes l = l := by
  simp only [stripLeadingSlashes]
  cases l with
  | nil => rfl
  | cons c rest =>
    rw [List.dropWhile_cons_of_neg]
    simp only [List.head?_cons, ne_eq, Option.some.injEq] at h
    simpa using h

theorem stripTrailingSlashes_id {l : List Char} (h : l.getLast? ≠ some '/') :
    stripTrailingSlashes l = l := by
  simp only [stripTrailingSlashes]
  rw [← List.head?_reverse] at h
  cases hr : l.reverse with
  | nil =>
    have : l = [] := by simpa using congrArg List.reverse hr
    simp [this]
  | cons c rest =>
    rw [hr] at h
    rw [List.dropWhile_cons_of_neg]
    · rw [← hr, List.reverse_reverse]
    · simp only [List.head?_cons, ne_eq, Option.some.injEq] at h
      simpa using h

theorem stripDotSlashPrefix_id {l : List Char}
    (h : (['.', '/'] : List Char).isPrefixOf l = false) :
    stripDotSlashPrefix l = l := by
  rw [stripDotSlashPrefix.eq_def]
  split
  · exfalso
    simp [List.isPrefixOf] at h
  · rfl

theorem normalizeChars_id {x : List Char}
    (hbs : '\\' ∉ x) (hdd : hasDoubleSlash x = false)
    (hhead : x.head? ≠ some '/') (hlast : x.getLast? ≠ some '/')
    (hdot : (['.', '/'] : List Char).isPrefixOf x = false) :
    normalizeChars x = x := by
  simp only [normalizeChars]
  rw [replaceBackslashes_id hbs, collapseSlashes_id x hdd,
      stripDotSlashPrefix_id hdot, stripLeadingSlashes_id hhead,
      stripTrailingSlashes_id hlast]

end AssetInventory

/-- C1 counterexample: `normalizePath` is not idempotent — a second
application percent-decodes further: `"%2541"` normalizes to `"%41"`,
which a second application decodes to `"A"`. -/
theorem normalizePath_not_idempotent :
    AssetInventory.normalizePath "%2541" = "%41" ∧
    AssetInventory.normalizePath (AssetInventory.normalizePath "%2541") = "A" ∧
    AssetInventory.normalizePath (AssetInventory.normalizePath "%2541")
      ≠ AssetInventory.normalizePath "%2541" := by
  refine ⟨by decide, by decide, by decide⟩

/-- C1 (amended): `normalizePath` is idempotent at every string whose
normalized form percent-decodes to itself (or fails to decode, falling
back unchanged) and does not begin with `"./"`; in general a second
application can decode one more percent-encoding layer or strip one more
`"./"` prefix. -/
theorem normalizePath_idempotent_amended (s : String)
    (h1 : (AssetInventory.decodeURIComponentOpt (AssetInventory.normalizePath s)).getD
            (AssetInventory.normalizePath s) = AssetInventory.normalizePath s)
    (h2 : strStartsWith (AssetInventory.normalizePath s) "./" = false) :
    AssetInventory.normalizePath (AssetInventory.normalizePath s)
      = AssetInventory.normalizePath s := by
  have hx : AssetInventory.normalizePath s
      = String.mk (AssetInventory.normalizeChars
          (((AssetInventory.decodeURIComponentOpt s).getD s).data)) := rfl
  have hdata : (AssetInventory.normalizePath s).data
      = AssetInventory.normalizeChars
          (((AssetInventory.decodeURIComponentOpt s).getD s).data) := by
    rw [hx]
  simp only [AssetInventory.normalizePath]
  rw [← hx, h1, hdata]
  conv_rhs => rw [hx]
  apply congrArg String.mk
  apply AssetInventory.normalizeChars_id
  · exact AssetInventory.not_backslash_normalizeChars _
  · exact AssetInventory.hasDD_normalizeChars _
  · intro hh
    exact AssetInventory.head_normalizeChars hh rfl
  · intro hh
    exact AssetInventory.getLast_normalizeChars hh rfl
  · have h2' := h2
    rw [hx] at h2'
    simpa [strStartsWith] using h2'

/-- C1 witness: the amended idempotence applies to a typical path. -/
theorem normalizePath_idempotent_amended_witness :
    AssetInventory.normalizePath (AssetInventory.normalizePath "docs//guide/")
      = AssetInventory.normalizePath "docs//guide/" :=
  normalizePath_idempotent_amended "docs//guide/" (by decide) (by decide)

/-! ## C3: destination-path uniqueness -/

/-- A page's resolved output path (`page.outputPath ?? page.path`). -/
def resolvedPath (p : NavPage) : String := p.outputPath.getD p.path

/-- The extension-stripped, leading-slash-trimmed path `buildNewPath`
computes before prefixing. -/
def cleanedPath (p : NavPage) : String :=
  LinkMapper.dropLeadingSlashes (LinkMapper.stripMdExtension (resolvedPath p))

/-- The destination path a page resolves to under a section prefix. -/
def pageDestination (sectionPrefix : String) (p : NavPage) : String :=
  LinkMapper.buildNewPath (resolvedPath p) sectionPrefix

/-- The section prefix used for a tab (`sectionPaths.get(slug) ?? slug`). -/
def tabPrefix (sectionPaths : List (String × String)) (tab : NavTab) : String :=
  (LinkMapper.mapGet? sectionPaths tab.slug).getD tab.slug

/-- Every page destination of a tab list, in traversal order. -/
def allDestinations (sectionPaths : List (String × String))
    (tabs : List NavTab) : List String :=
  (tabs.map (fun t =>
    (forestPagesRec t.groups).map (pageDestination (tabPrefix sectionPaths t)))).flatten

/-- C3 counterexample: after the full pipeline, two distinct pages of one
tab resolve to the same destination: `"x.md"` and `"a/x.md"` under tab
slug `"a"` both map to `"/a/x"` (the second already starts with the
section prefix, so it is not prefixed again). -/
theorem dest_uniqueness_cex :
    ¬ (allDestinations [] (fullPipeline none
        [⟨"A", "a", none,
          [NavGroup.mk "G" [⟨"X", "x.md", none⟩, ⟨"X2", "a/x.md", none⟩] none]⟩]
        ⟨[], ⟨false⟩⟩).tabs).Nodup := by
  have hev : allDestinations [] (fullPipeline none
      [⟨"A", "a", none,
        [NavGroup.mk "G" [⟨"X", "x.md", none⟩, ⟨"X2", "a/x.md", none⟩] none]⟩]
      ⟨[], ⟨false⟩⟩).tabs = ["/a/x", "/a/x"] := by
    simp [allDestinations, fullPipeline, NavMerge.mergeNavTrees,
      NavMerge.structuredCloneTabs, NavMerge.removeEmptyGroups,
      NavMerge.pruneEmptyGroups, NavMerge.deduplicateTabGroupNames,
      NavMerge.flagSinglePageTabs, NavMerge.countPages,
      Disambiguator.disambiguateSlugs, Disambiguator.disambiguateGroups,
      Disambiguator.processPages, Disambiguator.hasNestedContent,
      forestPagesRec, groupPagesRec, pageDestination, tabPrefix,
      LinkMapper.mapGet?, LinkMapper.buildNewPath, LinkMapper.stripMdExtension,
      LinkMapper.dropLeadingSlashes, resolvedPath, strToLower, strStartsWith,
      strEndsWith, strDropRight, strIsEmpty, NavGroup.label, NavGroup.pages,
      NavGroup.groups]
    decide
  rw [hev]
  decide

theorem strAppend_left_cancel {a b c : String} (h : a ++ b = a ++ c) : b = c := by
  rcases a with ⟨la⟩
  rcases b with ⟨lb⟩
  rcases c with ⟨lc⟩
  have hd : la ++ lb = la ++ lc := congrArg String.data h
  have := List.append_cancel_left hd
  rw [this]

/-- C3 (amended): the pipeline enforces no global uniqueness; within one
tab whose section prefix is non-empty, destination paths are pairwise
distinct provided the pages' cleaned paths (extension-stripped,
leading-slash-trimmed) are pairwise distinct and none already starts
(case-insensitively) with the prefix followed by `/` — otherwise, as the
counterexample shows, distinct source paths can collide. -/
theorem dest_uniqueness_amended (pr : String) (pages : List NavPage)
    (hpr : strIsEmpty (LinkMapper.dropLeadingSlashes (strToLower pr)) = false)
    (hnp : ∀ p ∈ pages, strStartsWith (strToLower (cleanedPath p))
            (LinkMapper.dropLeadingSlashes (strToLower pr) ++ "/") = false)
    (hnd : (pages.map cleanedPath).Nodup) :
    (pages.map (pageDestination pr)).Nodup := by
  have heq : pages.map (pageDestination pr)
      = (pages.map cleanedPath).map
          (fun c => "/" ++ (LinkMapper.dropLeadingSlashes pr ++ "/" ++ c)) := by
    rw [List.map_map]
    apply List.map_congr_left
    intro p hp
    simp only [Function.comp, pageDestination, LinkMapper.buildNewPath]
    rw [if_pos]
    · rfl
    · simp only [hpr, Bool.not_false, Bool.true_and, Bool.not_eq_true']
      exact hnp p hp
  rw [heq]
  apply List.Nodup.map ?hinj hnd
  intro c1 c2 hcc
  have h1 := strAppend_left_cancel hcc
  exact strAppend_left_cancel h1

/-- C3 witness: distinct cleaned paths under prefix `docs` yield distinct
destinations. -/
theorem dest_uniqueness_amended_witness :
    ([⟨"Setup", "guides/setup.md", none⟩, ⟨"Intro", "intro.md", none⟩].map
        (pageDestination "docs")).Nodup :=
  dest_uniqueness_amended "docs"
    [⟨"Setup", "guides/setup.md", none⟩, ⟨"Intro", "intro.md", none⟩]
    (by decide)
    (by decide)
    (by decide)

/-! ## C4: primary-rule disambiguation -/

theorem strData_append (a b : String) : (a ++ b).data = a.data ++ b.data := by
  rcases a with ⟨la⟩
  rcases b with ⟨lb⟩
  rfl

theorem strEndsWith_append (a b : String) : strEndsWith (a ++ b) b = true := by
  simp only [strEndsWith, strData_append]
  rw [List.isSuffixOf_iff_suffix]
  exact List.suffix_append a.data b.data

theorem strAppend_assoc (a b c : String) : (a ++ b) ++ c = a ++ (b ++ c) := by
  rcases a with ⟨la⟩
  rcases b with ⟨lb⟩
  rcases c with ⟨lc⟩
  show String.mk ((la ++ lb) ++ lc) = String.mk (la ++ (lb ++ lc))
  rw [List.append_assoc]

theorem redirectFor_dest_overview (path : String) :
    strEndsWith (Disambiguator.redirectFor path).destination "/overview" = true := by
  simp only [Disambiguator.redirectFor, Disambiguator.ensureLeadingSlash,
    Disambiguator.buildOverviewSlug]
  split
  · exact strEndsWith_append _ _
  · rw [← strAppend_assoc]
    exact strEndsWith_append _ _

theorem disambiguateGroups_nil (reds : List Redirect) :
    Disambiguator.disambiguateGroups [] reds = ([], reds) := by
  rw [Disambiguator.disambiguateGroups.eq_def]

theorem disambiguateGroups_leaf (L : String) (ps : List NavPage)
    (reds : List Redirect) :
    Disambiguator.disambiguateGroups [NavGroup.mk L ps none] reds
      = ([NavGroup.mk L ps none], reds) := by
  rw [Disambiguator.disambiguateGroups.eq_def]
  dsimp only [Option.getD]
  rw [Disambiguator.processPages_nil_ss]
  rw [disambiguateGroups_nil, disambiguateGroups_nil]
  simp

theorem processPages_primary (P : NavPage) (G : NavGroup) (reds : List Redirect)
    (hlab : strToLower G.label = strToLower P.label) :
    Disambiguator.processPages [P] [P] [G] reds
      = ([], [NavGroup.mk G.label
            (Disambiguator.overviewPageFor P.path :: G.pages) G.groups],
         reds ++ [Disambiguator.redirectFor P.path]) := by
  simp [Disambiguator.processPages, List.findIdx?, hlab,
    Disambiguator.overviewPageFor, Disambiguator.redirectFor]

theorem disambiguateGroups_primary (gl : String) (P : NavPage) (G : NavGroup)
    (reds : List Redirect)
    (hlab : strToLower G.label = strToLower P.label)
    (hGg : G.groups = none) :
    Disambiguator.disambiguateGroups [NavGroup.mk gl [P] (some [G])] reds
      = ([NavGroup.mk gl []
            (some [NavGroup.mk G.label
              (Disambiguator.overviewPageFor P.path :: G.pages) none])],
         reds ++ [Disambiguator.redirectFor P.path]) := by
  rw [Disambiguator.disambiguateGroups.eq_def]
  dsimp only [Option.getD]
  rw [processPages_primary P G reds hlab, hGg]
  rw [disambiguateGroups_leaf, disambiguateGroups_nil]
  simp


/-! ## C7: orphan detection during merging -/

/-- Last path component (`path.split('/').pop()`). -/
def lastPathComponent (p : String) : String :=
  String.mk ((p.data.reverse.takeWhile (· ≠ '/')).reverse)

/-- Modelled from the spec: the trailing-filename-only match the spec
says the merger also attempts ("match also attempted by trailing
filename alone"); `detectOrphansInGroup` in block-converter.ts has no
such fallback — this definition captures the spec's version (in the
style of `findApiMatch` in asset-inventory.ts) for comparison. -/
def trailingFilenameMatch (apiPaths : List String) (path : String) : Bool :=
  let basename := lastPathComponent (NavMerge.normalizePath path)
  apiPaths.any (fun p =>
    strEndsWith (NavMerge.normalizePath p) ("/" ++ basename) ||
      (NavMerge.normalizePath p == basename))

/-- C7 counterexample: a page whose trailing filename matches an
authoritative path is still flagged as an orphan — the merger tests only
full normalized-path equality, with no filename fallback. -/
theorem orphan_detection_cex :
    NavMerge.detectOrphansInGroup ["other/page"]
        (NavGroup.mk "G" [⟨"P", "sub/page", none⟩] none) []
      = [NavMerge.orphanDiscrepancy ⟨"P", "sub/page", none⟩] ∧
    trailingFilenameMatch ["other/page"] "sub/page" = true := by
  constructor
  · simp [NavMerge.detectOrphansInGroup, NavMerge.normalizePath, strToLower]
  · decide

theorem detect_fold_spec (apiPaths : List String) :
    ∀ (pages : List NavPage) (ds : List Discrepancy),
    pages.foldl
      (fun acc page =>
        let normalized := NavMerge.normalizePath page.path
        let matched := apiPaths.any (fun p => NavMerge.normalizePath p == normalized)
        if !matched then acc ++ [NavMerge.orphanDiscrepancy page] else acc)
      ds
      = ds ++ (pages.filter
          (fun page => !(apiPaths.any (fun p =>
            NavMerge.normalizePath p == NavMerge.normalizePath page.path)))).map
          NavMerge.orphanDiscrepancy
  | [], ds => by simp
  | page :: rest, ds => by
    simp only [List.foldl_cons, List.filter_cons]
    rw [detect_fold_spec apiPaths rest]
    by_cases hm : (apiPaths.any (fun p =>
        NavMerge.normalizePath p == NavMerge.normalizePath page.path)) = true
    · simp [hm]
    · simp only [Bool.not_eq_true] at hm
      simp [hm]

mutual

theorem detectOrphansInGroup_spec : ∀ (apiPaths : List String) (g : NavGroup)
    (ds : List Discrepancy),
    NavMerge.detectOrphansInGroup apiPaths g ds
      = ds ++ ((groupPagesRec g).filter
          (fun page => !(apiPaths.any (fun p =>
            NavMerge.normalizePath p == NavMerge.normalizePath page.path)))).map
          NavMerge.orphanDiscrepancy
  | apiPaths, NavGroup.mk label pages groups, ds => by
    rw [NavMerge.detectOrphansInGroup.eq_def]
    dsimp only
    rw [detect_fold_spec apiPaths pages ds]
    cases groups with
    | none =>
      dsimp only
      rw [groupPagesRec]
    | some subs =>
      dsimp only
      rw [detectOrphansInGroupList_spec apiPaths subs _]
      rw [groupPagesRec]
      simp [List.filter_append]

theorem detectOrphansInGroupList_spec : ∀ (apiPaths : List String)
    (gs : List NavGroup) (ds : List Discrepancy),
    NavMerge.detectOrphansInGroupList apiPaths gs ds
      = ds ++ ((forestPagesRec gs).filter
          (fun page => !(apiPaths.any (fun p =>
            NavMerge.normalizePath p == NavMerge.normalizePath page.path)))).map
          NavMerge.orphanDiscrepancy
  | apiPaths, [], ds => by
    rw [NavMerge.detectOrphansInGroupList.eq_def]
    simp [forestPagesRec]
  | apiPaths, g :: rest, ds => by
    rw [NavMerge.detectOrphansInGroupList.eq_def]
    dsimp only
    rw [detectOrphansInGroup_spec apiPaths g ds]
    rw [detectOrphansInGroupList_spec apiPaths rest _]
    rw [forestPagesRec]
    simp [List.filter_append]

end

mutual

theorem reconcileGroup_fst : ∀ (apiPaths : List String) (g : NavGroup)
    (ds : List Discrepancy),
    (NavMerge.reconcileGroup apiPaths g ds).1 = g
  | apiPaths, NavGroup.mk label pages groups, ds => by
    rw [NavMerge.reconcileGroup.eq_def]
    dsimp only
    cases groups with
    | none => rfl
    | some subs =>
      dsimp only
      rw [reconcileGroupList_fst apiPaths subs _]

theorem reconcileGroupList_fst : ∀ (apiPaths : List String)
    (gs : List NavGroup) (ds : List Discrepancy),
    (NavMerge.reconcileGroupList apiPaths gs ds).1 = gs
  | apiPaths, [], ds => by rw [NavMerge.reconcileGroupList.eq_def]
  | apiPaths, g :: rest, ds => by
    rw [NavMerge.reconcileGroupList.eq_def]
    dsimp only
    rw [reconcileGroup_fst apiPaths g ds]
    rw [reconcileGroupList_fst apiPaths rest _]

end

theorem mergeWithApi_groups_foldl (apiPaths : List String)
    (config : MigrationConfig) :
    ∀ (tabs : List NavTab) (accT : List NavTab) (accD : List Discrepancy),
    ((tabs.foldl
        (fun (acc : List NavTab × List Discrepancy) summaryTab =>
          let tabConfig := config.tabs.find? (fun t => t.slug == summaryTab.slug)
          let r := NavMerge.reconcileGroupList apiPaths summaryTab.groups acc.2
          (acc.1 ++
            [{ label := match tabConfig with
                 | some t => t.label
                 | none => summaryTab.label,
               slug := summaryTab.slug,
               sourceFile := summaryTab.sourceFile,
               groups := r.1 }],
           r.2))
        (accT, accD)).1).map NavTab.groups
      = accT.map NavTab.groups ++ tabs.map NavTab.groups
  | [], accT, accD => by simp
  | t :: rest, accT, accD => by
    simp only [List.foldl_cons]
    rw [mergeWithApi_groups_foldl apiPaths config rest]
    simp [reconcileGroupList_fst]

/-- C7 (amended): the merger's orphan test is full normalized-path
membership only (no trailing-filename fallback): the discrepancies
appended by the walk are exactly the pages whose normalized path matches
no normalized authoritative path, in traversal order — and every page is
kept: the merged tabs carry the input groups unchanged. -/
theorem orphan_detection_amended :
    (∀ (apiPaths : List String) (gs : List NavGroup) (ds : List Discrepancy),
      NavMerge.detectOrphansInGroupList apiPaths gs ds
        = ds ++ ((forestPagesRec gs).filter
            (fun page => !(apiPaths.any (fun p =>
              NavMerge.normalizePath p == NavMerge.normalizePath page.path)))).map
            NavMerge.orphanDiscrepancy) ∧
    (∀ (api : GitBookSiteStructure) (tabs : List NavTab)
       (ds : List Discrepancy) (config : MigrationConfig),
      ((NavMerge.mergeWithApi api tabs ds config).1).map NavTab.groups
        = tabs.map NavTab.groups) := by
  constructor
  · exact detectOrphansInGroupList_spec
  · intro api tabs ds config
    simp only [NavMerge.mergeWithApi]
    rw [mergeWithApi_groups_foldl (NavMerge.collectApiPaths api) config tabs [] ds]
    simp

/-! ## C5: link-map key registration -/

namespace LinkMapper

theorem mapGet?_isSome_of_mapHas {m : LinkMap} {k : String}
    (h : mapHas m k = true) : ∃ v, mapGet? m k = some v := by
  induction m with
  | nil => simp [mapHas] at h
  | cons a m' ih =>
    by_cases ha : a.1 == k
    · exact ⟨a.2, by simp [mapGet?, List.find?, ha]⟩
    · simp only [mapHas, List.any_cons, Bool.or_eq_true] at h
      rcases h with h | h
    

      · exact absurd h ha
      · rcases ih h with ⟨v, hv⟩
        refine ⟨v, ?_⟩
        simp only [mapGet?, List.find?, ha] at hv ⊢
        exact hv

theorem mapHas_of_mapGet? {m : LinkMap} {k : String} {v : String}
    (h : mapGet? m k = some v) : mapHas m k = true := by
  induction m with
  | nil => simp [mapGet?] at h
  | cons a m' ih =>
    by_cases ha : a.1 == k
    · simp [mapHas, ha]
    · simp only [mapGet?, List.find?, ha] at h
      simp only [mapHas, List.any_cons, Bool.or_eq_true]
      exact Or.inr (ih h)

theorem mapGet?_replace_self {m : LinkMap} {k v : String}
    (h : mapHas m k = true) :
    mapGet? (m.map (fun e => if e.1 == k then (k, v) else e)) k = some v := by
  induction m with
  | nil => simp [mapHas] at h
  | cons a m' ih =>
    by_cases ha : (a.1 == k) = true
    · simp [mapGet?, List.find?, ha]
    · simp only [mapHas, List.any_cons, Bool.or_eq_true] at h
      rcases h with h | h
      · exact absurd h ha
      · simp only [Bool.not_eq_true] at ha
        simp only [List.map_cons, ha, Bool.false_eq_true, if_false, mapGet?,
          List.find?, ha]
        exact ih h

theorem mapGet?_append_self {m : LinkMap} {k : String} (v : String)
    (h : mapHas m k = false) :
    mapGet? (m ++ [(k, v)]) k = some v := by
  induction m with
  | nil => simp [mapGet?, List.find?]
  | cons a m' ih =>
    simp only [mapHas, List.any_cons, Bool.or_eq_false_iff] at h
    simp only [List.cons_append, mapGet?, List.find?, h.1]
    exact ih h.2

theorem mapGet?_mapSet_self (m : LinkMap) (k v : String) :
    mapGet? (mapSet m k v) k = some v := by
  simp only [mapSet]
  split
  · exact mapGet?_replace_self (by assumption)
  · exact mapGet?_append_self v (by simp_all)

theorem mapGet?_replace_other {m : LinkMap} {k k' : String} (v : String)
    (hk : k' ≠ k) :
    mapGet? (m.map (fun e => if e.1 == k then (k, v) else e)) k'
      = mapGet? m k' := by
  induction m with
  | nil => simp
  | cons a m' ih =>
    by_cases ha : (a.1 == k) = true
    · have hk2 : ((k, v).1 == k') = false := by
        simp only [beq_eq_false_iff_ne, ne_eq]
        exact fun hc => hk hc.symm
      have ha2 : (a.1 == k') = false := by
        simp only [beq_iff_eq] at ha
        simp only [beq_eq_false_iff_ne, ne_eq, ha]
        exact fun hc => hk hc.symm
      simp only [List.map_cons, ha, if_true, mapGet?, List.find?, hk2, ha2]
      exact ih
    · simp only [Bool.not_eq_true] at ha
      simp only [List.map_cons, ha, Bool.false_eq_true, if_false, mapGet?,
        List.find?]
      cases hx : (a.1 == k')
      · exact ih
      · rfl

theorem mapGet?_append_other {m : LinkMap} {k k' : String} (v : String)
    (hk : k' ≠ k) :
    mapGet? (m ++ [(k, v)]) k' = mapGet? m k' := by
  induction m with
  | nil =>
    have : ((k, v).1 == k') = false := by
      simp only [beq_eq_false_iff_ne, ne_eq]
      exact fun hc => hk hc.symm
    simp [mapGet?, List.find?, this]
  | cons a m' ih =>
    simp only [List.cons_append, mapGet?, List.find?]
    cases hx : (a.1 == k')
    · exact ih
    · rfl

theorem mapGet?_mapSet_other {m : LinkMap} {k k' : String} (v : String)
    (hk : k' ≠ k) :
    mapGet? (mapSet m k v) k' = mapGet? m k' := by
  simp only [mapSet]
  split
  · exact mapGet?_replace_other v hk
  · exact mapGet?_append_other v hk

theorem mapHas_mapSet_self (m : LinkMap) (k v : String) :
    mapHas (mapSet m k v) k = true :=
  mapHas_of_mapGet? (mapGet?_mapSet_self m k v)

theorem mapHas_mapSet_mono {m : LinkMap} {k' : String} (k v : String)
    (h : mapHas m k' = true) :
    mapHas (mapSet m k v) k' = true := by
  by_cases hk : k' = k
  · subst hk
    exact mapHas_mapSet_self m k' v
  · rcases mapGet?_isSome_of_mapHas h with ⟨w, hw⟩
    apply mapHas_of_mapGet?
    rw [mapGet?_mapSet_other v hk]
    exact hw

end LinkMapper

namespace LinkMapper

theorem condWrite_get (m : LinkMap) (k v k' : String) (h : mapHas m k' = true) :
    mapGet? (if ¬ mapHas m k then mapSet m k v else m) k' = mapGet? m k' := by
  split
  · rename_i hn
    exact mapGet?_mapSet_other v (fun he => hn (he ▸ h))
  · rfl

theorem condWrite_has (m : LinkMap) (k v k' : String) (h : mapHas m k' = true) :
    mapHas (if ¬ mapHas m k then mapSet m k v else m) k' = true := by
  split
  · exact mapHas_mapSet_mono _ _ h
  · exact h

theorem condWrite_has_self (m : LinkMap) (k v : String) :
    mapHas (if ¬ mapHas m k then mapSet m k v else m) k = true := by
  split
  · exact mapHas_mapSet_self m k v
  · rename_i hn
    simpa using hn

theorem neWrite_get_base (m : LinkMap) (k v a : String) :
    mapGet? (if k ≠ a then mapSet m k v else m) a = mapGet? m a := by
  split
  · rename_i hne
    exact mapGet?_mapSet_other v (fun he => hne he.symm)
  · rfl

theorem neWrite_get_self (m : LinkMap) (k v a : String)
    (h : k = a → mapGet? m k = some v) :
    mapGet? (if k ≠ a then mapSet m k v else m) k = some v := by
  split
  · exact mapGet?_mapSet_self m k v
  · rename_i hne
    push_neg at hne
    exact h hne

theorem neWrite_get_other (m : LinkMap) (k v a k' : String) (hk : k' ≠ k) :
    mapGet? (if k ≠ a then mapSet m k v else m) k' = mapGet? m k' := by
  split
  · exact mapGet?_mapSet_other v hk
  · rfl

theorem neWrite_has (m : LinkMap) (k v a k' : String) (h : mapHas m k' = true) :
    mapHas (if k ≠ a then mapSet m k v else m) k' = true := by
  split
  · exact mapHas_mapSet_mono _ _ h
  · exact h

end LinkMapper

namespace LinkMapper

theorem addPageMappings_verbatim (page : NavPage) (pr : String) (m : LinkMap) :
    mapGet? (addPageMappings page pr m) page.path
      = some (buildNewPath (page.outputPath.getD page.path) pr) := by
  simp only [addPageMappings]
  set NP := buildNewPath (page.outputPath.getD page.path) pr with hNP
  set M1 := mapSet m page.path NP with hM1
  set M2 := if stripMdExtension page.path ≠ page.path then
      mapSet M1 (stripMdExtension page.path) NP else M1 with hM2
  set M3 := if ¬ mapHas M2 ("/" ++ dropLeadingSlashes page.path) then
      mapSet M2 ("/" ++ dropLeadingSlashes page.path) NP else M2 with hM3
  have hM1get : mapGet? M1 page.path = some NP := mapGet?_mapSet_self _ _ _
  have hM2get : mapGet? M2 page.path = some NP := by
    rw [hM2, neWrite_get_base]
    exact hM1get
  have hM2has : mapHas M2 page.path = true := mapHas_of_mapGet? hM2get
  have hM3get : mapGet? M3 page.path = some NP := by
    rw [hM3, condWrite_get _ _ _ _ hM2has]
    exact hM2get
  have hM3has : mapHas M3 page.path = true := mapHas_of_mapGet? hM3get
  rw [condWrite_get _ _ _ _ hM3has]
  exact hM3get

theorem addPageMappings_stripped (page : NavPage) (pr : String) (m : LinkMap) :
    mapGet? (addPageMappings page pr m) (stripMdExtension page.path)
      = some (buildNewPath (page.outputPath.getD page.path) pr) := by
  simp only [addPageMappings]
  set NP := buildNewPath (page.outputPath.getD page.path) pr with hNP
  set M1 := mapSet m page.path NP with hM1
  set M2 := if stripMdExtension page.path ≠ page.path then
      mapSet M1 (stripMdExtension page.path) NP else M1 with hM2
  set M3 := if ¬ mapHas M2 ("/" ++ dropLeadingSlashes page.path) then
      mapSet M2 ("/" ++ dropLeadingSlashes page.path) NP else M2 with hM3
  have hM1get : mapGet? M1 page.path = some NP := mapGet?_mapSet_self _ _ _
  have hM2get : mapGet? M2 (stripMdExtension page.path) = some NP := by
    rw [hM2]
    apply neWrite_get_self
    intro he
    rw [he]
    exact hM1get
  have hM2has : mapHas M2 (stripMdExtension page.path) = true :=
    mapHas_of_mapGet? hM2get
  have hM3get : mapGet? M3 (stripMdExtension page.path) = some NP := by
    rw [hM3, condWrite_get _ _ _ _ hM2has]
    exact hM2get
  have hM3has : mapHas M3 (stripMdExtension page.path) = true :=
    mapHas_of_mapGet? hM3get
  rw [condWrite_get _ _ _ _ hM3has]
  exact hM3get

theorem addPageMappings_slash_present (page : NavPage) (pr : String) (m : LinkMap) :
    mapHas (addPageMappings page pr m) ("/" ++ dropLeadingSlashes page.path) = true ∧
    mapHas (addPageMappings page pr m)
      ("/" ++ dropLeadingSlashes (stripMdExtension page.path)) = true := by
  simp only [addPageMappings]
  constructor
  · apply condWrite_has
    apply condWrite_has_self
  · apply condWrite_has_self

theorem addPageMappings_slash_preserved (page : NavPage) (pr : String)
    (m : LinkMap)
    (h0 : mapHas m ("/" ++ dropLeadingSlashes page.path) = true)
    (hne1 : ("/" ++ dropLeadingSlashes page.path) ≠ page.path)
    (hne2 : ("/" ++ dropLeadingSlashes page.path) ≠ stripMdExtension page.path) :
    mapGet? (addPageMappings page pr m) ("/" ++ dropLeadingSlashes page.path)
      = mapGet? m ("/" ++ dropLeadingSlashes page.path) := by
  simp only [addPageMappings]
  set WS := "/" ++ dropLeadingSlashes page.path with hWS
  set NP := buildNewPath (page.outputPath.getD page.path) pr with hNP
  set M1 := mapSet m page.path NP with hM1
  set M2 := if stripMdExtension page.path ≠ page.path then
      mapSet M1 (stripMdExtension page.path) NP else M1 with hM2
  set M3 := if ¬ mapHas M2 WS then mapSet M2 WS NP else M2 with hM3
  have hM1eq : mapGet? M1 WS = mapGet? m WS := mapGet?_mapSet_other NP hne1
  have hM1has : mapHas M1 WS = true := mapHas_mapSet_mono _ _ h0
  have hM2eq : mapGet? M2 WS = mapGet? m WS := by
    rw [hM2, neWrite_get_other _ _ _ _ _ hne2]
    exact hM1eq
  have hM2has : mapHas M2 WS = true := by
    rw [hM2]
    exact neWrite_has _ _ _ _ _ hM1has
  have hM3eq : mapGet? M3 WS = mapGet? m WS := by
    rw [hM3, condWrite_get _ _ _ _ hM2has]
    exact hM2eq
  have hM3has : mapHas M3 WS = true := by
    rw [hM3]
    exact condWrite_has _ _ _ _ hM2has
  rw [condWrite_get _ _ _ _ hM3has]
  exact hM3eq

theorem addPageMappings_strippedSlash_preserved (page : NavPage) (pr : String)
    (m : LinkMap)
    (h0 : mapHas m ("/" ++ dropLeadingSlashes (stripMdExtension page.path)) = true)
    (hne1 : ("/" ++ dropLeadingSlashes (stripMdExtension page.path)) ≠ page.path)
    (hne2 : ("/" ++ dropLeadingSlashes (stripMdExtension page.path))
              ≠ stripMdExtension page.path) :
    mapGet? (addPageMappings page pr m)
        ("/" ++ dropLeadingSlashes (stripMdExtension page.path))
      = mapGet? m ("/" ++ dropLeadingSlashes (stripMdExtension page.path)) := by
  simp only [addPageMappings]
  set SWS := "/" ++ dropLeadingSlashes (stripMdExtension page.path) with hSWS
  set NP := buildNewPath (page.outputPath.getD page.path) pr with hNP
  set M1 := mapSet m page.path NP with hM1
  set M2 := if stripMdExtension page.path ≠ page.path then
      mapSet M1 (stripMdExtension page.path) NP else M1 with hM2
  set M3 := if ¬ mapHas M2 ("/" ++ dropLeadingSlashes page.path) then
      mapSet M2 ("/" ++ dropLeadingSlashes page.path) NP else M2 with hM3
  have hM1eq : mapGet? M1 SWS = mapGet? m SWS := mapGet?_mapSet_other NP hne1
  have hM1has : mapHas M1 SWS = true := mapHas_mapSet_mono _ _ h0
  have hM2eq : mapGet? M2 SWS = mapGet? m SWS := by
    rw [hM2, neWrite_get_other _ _ _ _ _ hne2]
    exact hM1eq
  have hM2has : mapHas M2 SWS = true := by
    rw [hM2]
    exact neWrite_has _ _ _ _ _ hM1has
  have hM3eq : mapGet? M3 SWS = mapGet? m SWS := by
    rw [hM3]
    exact condWrite_get _ _ _ _ hM2has ▸ hM2eq
  have hM3has : mapHas M3 SWS = true := by
    rw [hM3]
    exact condWrite_has _ _ _ _ hM2has
  rw [condWrite_get _ _ _ _ hM3has]
  exact hM3eq

theorem addPageMappings_has_mono (page : NavPage) (pr : String) (m : LinkMap)
    (k : String) (h : mapHas m k = true) :
    mapHas (addPageMappings page pr m) k = true := by
  simp only [addPageMappings]
  apply condWrite_has
  apply condWrite_has
  apply neWrite_has
  exact mapHas_mapSet_mono _ _ h

end LinkMapper

/-- The four key variants of a page all appear in the map. -/
def fourKeysPresent (m : LinkMapper.LinkMap) (page : NavPage) : Prop :=
  LinkMapper.mapHas m page.path = true ∧
  LinkMapper.mapHas m (LinkMapper.stripMdExtension page.path) = true ∧
  LinkMapper.mapHas m ("/" ++ LinkMapper.dropLeadingSlashes page.path) = true ∧
  LinkMapper.mapHas m
    ("/" ++ LinkMapper.dropLeadingSlashes
      (LinkMapper.stripMdExtension page.path)) = true

namespace LinkMapper

theorem foldl_add_has_mono : ∀ (pages : List NavPage) (pr : String)
    (m : LinkMap) (k : String), mapHas m k = true →
    mapHas (pages.foldl (fun acc p => addPageMappings p pr acc) m) k = true
  | [], pr, m, k, h => h
  | p :: rest, pr, m, k, h => by
    simp only [List.foldl_cons]
    exact foldl_add_has_mono rest pr _ k (addPageMappings_has_mono p pr m k h)

theorem fourKeys_mono {m m' : LinkMap} {page : NavPage}
    (hmono : ∀ k, mapHas m k = true → mapHas m' k = true)
    (h : fourKeysPresent m page) : fourKeysPresent m' page :=
  ⟨hmono _ h.1, hmono _ h.2.1, hmono _ h.2.2.1, hmono _ h.2.2.2⟩

theorem addPageMappings_fourKeys (page : NavPage) (pr : String) (m : LinkMap) :
    fourKeysPresent (addPageMappings page pr m) page := by
  refine ⟨mapHas_of_mapGet? (addPageMappings_verbatim page pr m),
          mapHas_of_mapGet? (addPageMappings_stripped page pr m),
          (addPageMappings_slash_present page pr m).1,
          (addPageMappings_slash_present page pr m).2⟩

theorem foldl_add_fourKeys : ∀ (pages : List NavPage) (pr : String)
    (m : LinkMap) (p : NavPage), p ∈ pages →
    fourKeysPresent (pages.foldl (fun acc q => addPageMappings q pr acc) m) p
  | [], pr, m, p, h => absurd h (List.not_mem_nil p)
  | q :: rest, pr, m, p, h => by
    simp only [List.foldl_cons]
    rcases List.mem_cons.mp h with rfl | hmem
    · exact fourKeys_mono (fun k hk => foldl_add_has_mono rest pr _ k hk)
        (addPageMappings_fourKeys p pr m)
    · exact foldl_add_fourKeys rest pr _ p hmem

mutual

theorem collectPageMappings_has_mono : ∀ (pr : String) (g : NavGroup)
    (m : LinkMap) (k : String), mapHas m k = true →
    mapHas (collectPageMappings pr g m) k = true
  | pr, NavGroup.mk label pages groups, m, k, h => by
    rw [collectPageMappings.eq_def]
    dsimp only
    cases groups with
    | none => exact foldl_add_has_mono pages pr m k h
    | some subs =>
      exact collectPageMappingsList_has_mono pr subs _ k
        (foldl_add_has_mono pages pr m k h)

theorem collectPageMappingsList_has_mono : ∀ (pr : String) (gs : List NavGroup)
    (m : LinkMap) (k : String), mapHas m k = true →
    mapHas (collectPageMappingsList pr gs m) k = true
  | pr, [], m, k, h => by
    rw [collectPageMappingsList.eq_def]
    exact h
  | pr, g :: rest, m, k, h => by
    rw [collectPageMappingsList.eq_def]
    dsimp only
    exact collectPageMappingsList_has_mono pr rest _ k
      (collectPageMappings_has_mono pr g m k h)

end

mutual

theorem collectPageMappings_fourKeys : ∀ (pr : String) (g : NavGroup)
    (m : LinkMap) (p : NavPage), p ∈ groupPagesRec g →
    fourKeysPresent (collectPageMappings pr g m) p
  | pr, NavGroup.mk label pages groups, m, p, h => by
    rw [collectPageMappings.eq_def]
    dsimp only
    cases groups with
    | none =>
      rw [groupPagesRec] at h
      exact foldl_add_fourKeys pages pr m p h
    | some subs =>
      rw [groupPagesRec] at h
      rcases List.mem_append.mp h with hmem | hmem
      · exact fourKeys_mono
          (fun k hk => collectPageMappingsList_has_mono pr subs _ k hk)
          (foldl_add_fourKeys pages pr m p hmem)
      · exact collectPageMappingsList_fourKeys pr subs _ p hmem

theorem collectPageMappingsList_fourKeys : ∀ (pr : String) (gs : List NavGroup)
    (m : LinkMap) (p : NavPage), p ∈ forestPagesRec gs →
    fourKeysPresent (collectPageMappingsList pr gs m) p
  | pr, [], m, p, h => by
    rw [forestPagesRec] at h
    exact absurd h (List.not_mem_nil p)
  | pr, g :: rest, m, p, h => by
    rw [collectPageMappingsList.eq_def]
    dsimp only
    rw [forestPagesRec] at h
    rcases List.mem_append.mp h with hmem | hmem
    · exact fourKeys_mono
        (fun k hk => collectPageMappingsList_has_mono pr rest _ k hk)
        (collectPageMappings_fourKeys pr g m p hmem)
    · exact collectPageMappingsList_fourKeys pr rest _ p hmem

end

theorem tabs_foldl_has_mono (sectionPaths : List (String × String)) :
    ∀ (tabs : List NavTab) (m : LinkMap) (k : String), mapHas m k = true →
    mapHas
      (tabs.foldl
        (fun acc tab =>
          collectPageMappingsList ((mapGet? sectionPaths tab.slug).getD tab.slug)
            tab.groups acc)
        m) k = true
  | [], m, k, h => h
  | tab :: rest, m, k, h => by
    simp only [List.foldl_cons]
    exact tabs_foldl_has_mono sectionPaths rest _ k
      (collectPageMappingsList_has_mono _ tab.groups m k h)

theorem buildLinkMap_foldl_fourKeys (sectionPaths : List (String × String)) :
    ∀ (tabs : List NavTab) (m : LinkMap) (t : NavTab), t ∈ tabs →
    ∀ p ∈ forestPagesRec t.groups,
    fourKeysPresent
      (tabs.foldl
        (fun acc tab =>
          collectPageMappingsList ((mapGet? sectionPaths tab.slug).getD tab.slug)
            tab.groups acc)
        m) p
  | [], m, t, ht, p, hp => absurd ht (List.not_mem_nil t)
  | tab :: rest, m, t, ht, p, hp => by
    simp only [List.foldl_cons]
    rcases List.mem_cons.mp ht with rfl | hmem
    · exact fourKeys_mono
        (fun k hk => tabs_foldl_has_mono sectionPaths rest _ k hk)
        (collectPageMappingsList_fourKeys
          ((mapGet? sectionPaths t.slug).getD t.slug) t.groups m p hp)
    · exact buildLinkMap_foldl_fourKeys sectionPaths rest _ t hmem p hp

theorem collectList_single (pr L : String) (pages : List NavPage)
    (m : LinkMap) :
    collectPageMappingsList pr [NavGroup.mk L pages none] m
      = pages.foldl (fun acc p => addPageMappings p pr acc) m := by
  rw [collectPageMappingsList.eq_def]
  dsimp only
  rw [collectPageMappings.eq_def]
  dsimp only
  rw [collectPageMappingsList.eq_def]

end LinkMapper

/-- C5 counterexample: the verbatim key is overwritten by a later page —
two tabs (slugs `a` and `b`) each contain a page at `p.md`; the final map
sends `"p.md"` to the second tab's destination `"/b/p"`, not the first
writer's `"/a/p"`. -/
theorem linkmap_first_writer_cex :
    LinkMapper.mapGet? (LinkMapper.buildLinkMap
        [⟨"A", "a", none, [NavGroup.mk "G" [⟨"X", "p.md", none⟩] none]⟩,
         ⟨"B", "b", none, [NavGroup.mk "H" [⟨"X", "p.md", none⟩] none]⟩] [])
      "p.md" = some "/b/p" ∧ ("/b/p" : String) ≠ "/a/p" := by
  constructor
  · simp only [LinkMapper.buildLinkMap, List.foldl_cons, List.foldl_nil]
    rw [LinkMapper.collectList_single, LinkMapper.collectList_single]
    decide
  · decide

/-- C5 (amended): `addPageMappings` registers the page's destination under
the four key variants (source path verbatim, extension-stripped, and both
with a leading slash forced — variants may coincide).  The verbatim and
extension-stripped keys always end up at this page's destination, so a
later page overwrites earlier entries under those keys (last-writer-wins,
refuting the claim's first-writer-wins); only the two leading-slash-forced
keys keep an existing entry (first-writer-wins, when those keys are not
also the page's verbatim or stripped key).  After `buildLinkMap`, every
page of every tab has all four of its key variants present in the map. -/
theorem linkmap_registration :
    (∀ (page : NavPage) (pr : String) (m : LinkMapper.LinkMap),
      LinkMapper.mapGet? (LinkMapper.addPageMappings page pr m) page.path
        = some (LinkMapper.buildNewPath (page.outputPath.getD page.path) pr)) ∧
    (∀ (page : NavPage) (pr : String) (m : LinkMapper.LinkMap),
      LinkMapper.mapGet? (LinkMapper.addPageMappings page pr m)
          (LinkMapper.stripMdExtension page.path)
        = some (LinkMapper.buildNewPath (page.outputPath.getD page.path) pr)) ∧
    (∀ (page : NavPage) (pr : String) (m : LinkMapper.LinkMap),
      LinkMapper.mapHas m ("/" ++ LinkMapper.dropLeadingSlashes page.path) = true →
      ("/" ++ LinkMapper.dropLeadingSlashes page.path) ≠ page.path →
      ("/" ++ LinkMapper.dropLeadingSlashes page.path)
          ≠ LinkMapper.stripMdExtension page.path →
      LinkMapper.mapGet? (LinkMapper.addPageMappings page pr m)
          ("/" ++ LinkMapper.dropLeadingSlashes page.path)
        = LinkMapper.mapGet? m ("/" ++ LinkMapper.dropLeadingSlashes page.path)) ∧
    (∀ (page : NavPage) (pr : String) (m : LinkMapper.LinkMap),
      LinkMapper.mapHas m ("/" ++ LinkMapper.dropLeadingSlashes
          (LinkMapper.stripMdExtension page.path)) = true →
      ("/" ++ LinkMapper.dropLeadingSlashes (LinkMapper.stripMdExtension page.path))
          ≠ page.path →
      ("/" ++ LinkMapper.dropLeadingSlashes (LinkMapper.stripMdExtension page.path))
          ≠ LinkMapper.stripMdExtension page.path →
      LinkMapper.mapGet? (LinkMapper.addPageMappings page pr m)
          ("/" ++ LinkMapper.dropLeadingSlashes (LinkMapper.stripMdExtension page.path))
        = LinkMapper.mapGet? m
          ("/" ++ LinkMapper.dropLeadingSlashes (LinkMapper.stripMdExtension page.path))) ∧
    (∀ (tabs : List NavTab) (sectionPaths : List (String × String))
       (t : NavTab), t ∈ tabs → ∀ p ∈ forestPagesRec t.groups,
      fourKeysPresent (LinkMapper.buildLinkMap tabs sectionPaths) p) := by
  refine ⟨LinkMapper.addPageMappings_verbatim, LinkMapper.addPageMappings_stripped,
    LinkMapper.addPageMappings_slash_preserved,
    LinkMapper.addPageMappings_strippedSlash_preserved, ?_⟩
  intro tabs sectionPaths t ht p hp
  exact LinkMapper.buildLinkMap_foldl_fourKeys sectionPaths tabs [] t ht p hp

/-- C5 witness: the registration facts at concrete inputs — an existing
slash-variant entry is kept, and a page's four keys are present after
`buildLinkMap`. -/
theorem linkmap_registration_witness :
    LinkMapper.mapGet?
        (LinkMapper.addPageMappings ⟨"X", "a.md", none⟩ "t" [("/a.md", "/keep")])
        "/a.md" = LinkMapper.mapGet? [("/a.md", "/keep")] "/a.md" ∧
    fourKeysPresent
      (LinkMapper.buildLinkMap
        [⟨"T", "t", none, [NavGroup.mk "G" [⟨"X", "a.md", none⟩] none]⟩] [])
      ⟨"X", "a.md", none⟩ := by
  constructor
  · exact linkmap_registration.2.2.1 ⟨"X", "a.md", none⟩ "t" [("/a.md", "/keep")]
      (by decide) (by decide) (by decide)
  · exact linkmap_registration.2.2.2.2
      [⟨"T", "t", none, [NavGroup.mk "G" [⟨"X", "a.md", none⟩] none]⟩] []
      ⟨"T", "t", none, [NavGroup.mk "G" [⟨"X", "a.md", none⟩] none]⟩
      (by simp)
      ⟨"X", "a.md", none⟩
      (by simp [forestPagesRec, groupPagesRec])

/-! ## C2: no content loss through the pipeline -/

theorem groupPagesRec_none (l : String) (ps : List NavPage) :
    groupPagesRec (NavGroup.mk l ps none) = ps := by
  rw [groupPagesRec.eq_def]

theorem groupPagesRec_some (l : String) (ps : List NavPage)
    (gs : List NavGroup) :
    groupPagesRec (NavGroup.mk l ps (some gs)) = ps ++ forestPagesRec gs := by
  rw [groupPagesRec.eq_def]

theorem forestPagesRec_nil : forestPagesRec [] = [] := by
  rw [forestPagesRec.eq_def]

theorem forestPagesRec_cons (g : NavGroup) (rest : List NavGroup) :
    forestPagesRec (g :: rest) = groupPagesRec g ++ forestPagesRec rest := by
  rw [forestPagesRec.eq_def]

theorem groupPagesRec_opt (l : String) (ps : List NavPage)
    (go : Option (List NavGroup)) :
    groupPagesRec (NavGroup.mk l ps go)
      = ps ++ (match go with | none => [] | some gs => forestPagesRec gs) := by
  cases go with
  | none => simp [groupPagesRec_none]
  | some gs => simp [groupPagesRec_some]

theorem pages_prune : ∀ gs : List NavGroup,
    forestPagesRec (NavMerge.pruneEmptyGroups gs) = forestPagesRec gs
  | [] => by simp [NavMerge.pruneEmptyGroups]
  | NavGroup.mk label pages groups :: rest => by
    have ihRest := pages_prune rest
    cases groups with
    | none =>
      rw [NavMerge.pruneEmptyGroups.eq_def]
      dsimp only
      split
      · rename_i hcond
        simp only [Bool.not_false, Bool.and_true, Bool.not_eq_true',
          decide_eq_false_iff_not, Nat.not_lt, Nat.le_zero,
          List.length_eq_zero] at hcond
        rw [forestPagesRec_cons, groupPagesRec_none, hcond, ihRest]
        rfl
      · rw [forestPagesRec_cons, forestPagesRec_cons, groupPagesRec_none,
          ihRest]
    | some inner =>
      have ihSub := pages_prune inner
      rw [NavMerge.pruneEmptyGroups.eq_def]
      dsimp only
      split
      · rename_i hcond
        simp only [Bool.and_eq_true, Bool.not_eq_true', decide_eq_false_iff_not,
          Nat.not_lt, Nat.le_zero, List.length_eq_zero] at hcond
        have hpe : pages = [] := hcond.1
        have hpi : NavMerge.pruneEmptyGroups inner = [] := hcond.2
        have hie : forestPagesRec inner = [] := by
          rw [← ihSub, hpi, forestPagesRec_nil]
        rw [forestPagesRec_cons, groupPagesRec_some, hpe, hie, ihRest]
        rfl
      · rw [forestPagesRec_cons, forestPagesRec_cons, groupPagesRec_some,
          groupPagesRec_some, ihSub, ihRest]

theorem pages_flatten : ∀ gs : List NavGroup,
    forestPagesRec (NavMerge.flattenGroups gs) = forestPagesRec gs
  | [] => by simp [NavMerge.flattenGroups]
  | NavGroup.mk label pages groups :: rest => by
    have ihRest := pages_flatten rest
    cases groups with
    | none =>
      rw [NavMerge.flattenGroups.eq_def]
      dsimp only
      rw [forestPagesRec_cons, forestPagesRec_cons, groupPagesRec_none,
        ihRest]
    | some inner =>
      have ihSub := pages_flatten inner
      rw [NavMerge.flattenGroups.eq_def]
      dsimp only
      rcases hfi : NavMerge.flattenGroups inner with _ | ⟨child, rest2⟩
      · have hie : forestPagesRec inner = [] := by
          rw [← ihSub, hfi, forestPagesRec_nil]
        dsimp only
        rw [forestPagesRec_cons, forestPagesRec_cons, groupPagesRec_some,
          groupPagesRec_some, hie, ihRest, forestPagesRec_nil]
      · rcases rest2 with _ | ⟨c2, r2⟩
        · dsimp only
          split
          · rename_i hp
            simp only [beq_iff_eq, List.length_eq_zero] at hp
            have hin : forestPagesRec inner = groupPagesRec child := by
              rw [← ihSub, hfi, forestPagesRec_cons, forestPagesRec_nil,
                List.append_nil]
            rw [forestPagesRec_cons, forestPagesRec_cons, groupPagesRec_some,
              ihRest, hp, hin]
            rfl
          · rw [forestPagesRec_cons, forestPagesRec_cons, groupPagesRec_some,
              groupPagesRec_some, ← ihSub, hfi, ihRest]
        · dsimp only
          rw [forestPagesRec_cons, forestPagesRec_cons, groupPagesRec_some,
            groupPagesRec_some, ← ihSub, hfi, ihRest]

/-- Page source paths of a page list. -/
def pagePathsOf (l : List NavPage) : List String := l.map NavPage.path

theorem processPages_reds_extend : ∀ (allPages ps : List NavPage)
    (ss : List NavGroup) (reds : List Redirect),
    reds <+: (Disambiguator.processPages allPages ps ss reds).2.2
  | allPages, [], ss, reds => by
    simp [Disambiguator.processPages]
  | allPages, page :: ps, ss, reds => by
    rw [Disambiguator.processPages.eq_def]
    dsimp only
    split
    · exact (List.prefix_append reds _).trans
        (processPages_reds_extend allPages ps _ _)
    · split
      · split
        · exact (List.prefix_append reds _).trans
            (processPages_reds_extend allPages ps _ _)
        · exact processPages_reds_extend allPages ps ss reds
      · exact processPages_reds_extend allPages ps ss reds

theorem processPages_page_covered : ∀ (allPages ps : List NavPage)
    (ss : List NavGroup) (reds : List Redirect) (p : NavPage), p ∈ ps →
    p.path ∈ pagePathsOf (Disambiguator.processPages allPages ps ss reds).1 ∨
    Disambiguator.ensureLeadingSlash p.path ∈
      ((Disambiguator.processPages allPages ps ss reds).2.2.map Redirect.source)
  | allPages, [], ss, reds, p, hp => absurd hp (List.not_mem_nil p)
  | allPages, page :: ps, ss, reds, p, hp => by
    rw [Disambiguator.processPages.eq_def]
    dsimp only
    rcases List.mem_cons.mp hp with rfl | hmem
    · split
      · right
        refine List.mem_map.mpr ⟨Disambiguator.redirectFor p.path, ?_, rfl⟩
        refine (processPages_reds_extend allPages ps _ _).subset ?_
        simp
      · split
        · split
          · right
            refine List.mem_map.mpr ⟨Disambiguator.redirectFor p.path, ?_, rfl⟩
            refine (processPages_reds_extend allPages ps _ _).subset ?_
            simp
          · left
            simp [pagePathsOf]
        · left
          simp [pagePathsOf]
    · split
      · rcases processPages_page_covered allPages ps _ _ p hmem with h | h
        · exact Or.inl h
        · exact Or.inr h
      · split
        · split
          · rcases processPages_page_covered allPages ps _ _ p hmem with h | h
            · exact Or.inl h
            · exact Or.inr h
          · rcases processPages_page_covered allPages ps ss reds p hmem with h | h
            · left
              simp only [pagePathsOf, List.map_cons]
              exact List.mem_cons_of_mem _ h
            · exact Or.inr h
        · rcases processPages_page_covered allPages ps ss reds p hmem with h | h
          · left
            simp only [pagePathsOf, List.map_cons]
            exact List.mem_cons_of_mem _ h
          · exact Or.inr h

theorem forestPagesRec_append : ∀ a b : List NavGroup,
    forestPagesRec (a ++ b) = forestPagesRec a ++ forestPagesRec b
  | [], b => by rw [forestPagesRec_nil]; rfl
  | g :: rest, b => by
    rw [List.cons_append, forestPagesRec_cons, forestPagesRec_cons,
      forestPagesRec_append rest b, List.append_assoc]

theorem forestPagePaths_cons (g : NavGroup) (rest : List NavGroup) :
    forestPagePaths (g :: rest)
      = (groupPagesRec g).map NavPage.path ++ forestPagePaths rest := by
  simp [forestPagePaths, forestPagesRec_cons]

theorem forestPagePaths_set_superset : ∀ (ss : List NavGroup) (idx : Nat)
    (ovw : NavPage) (path : String), path ∈ forestPagePaths ss →
    path ∈ forestPagePaths (ss.set idx
      (NavGroup.mk (ss.getD idx (NavGroup.mk "" [] none)).label
        (ovw :: (ss.getD idx (NavGroup.mk "" [] none)).pages)
        (ss.getD idx (NavGroup.mk "" [] none)).groups))
  | [], idx, ovw, path, h => by simpa using h
  | g :: rest, 0, ovw, path, h => by
    simp only [List.getD_cons_zero, List.set_cons_zero]
    rw [forestPagePaths_cons] at h ⊢
    rcases List.mem_append.mp h with hl | hr
    · apply List.mem_append_left
      cases g with
      | mk gl gp gg =>
        cases gg with
        | none =>
          simp only [NavGroup.label, NavGroup.pages, NavGroup.groups,
            groupPagesRec_none, List.map_cons] at hl ⊢
          exact List.mem_cons_of_mem _ hl
        | some gsub =>
          simp only [NavGroup.label, NavGroup.pages, NavGroup.groups,
            groupPagesRec_some, List.map_cons, List.map_append] at hl ⊢
          rcases List.mem_append.mp hl with h1 | h2
          · exact List.mem_cons_of_mem _ (List.mem_append_left _ h1)
          · exact List.mem_cons_of_mem _ (List.mem_append_right _ h2)
    · exact List.mem_append_right _ hr
  | g :: rest, n + 1, ovw, path, h => by
    simp only [List.getD_cons_succ, List.set_cons_succ]
    rw [forestPagePaths_cons] at h ⊢
    rcases List.mem_append.mp h with hl | hr
    · exact List.mem_append_left _ hl
    · exact List.mem_append_right _
        (forestPagePaths_set_superset rest n ovw path hr)

theorem processPages_ss_covered : ∀ (allPages ps : List NavPage)
    (ss : List NavGroup) (reds : List Redirect) (path : String),
    path ∈ forestPagePaths ss →
    path ∈ forestPagePaths (Disambiguator.processPages allPages ps ss reds).2.1
  | allPages, [], ss, reds, path, h => by
    simpa [Disambiguator.processPages] using h
  | allPages, page :: ps, ss, reds, path, h => by
    rw [Disambiguator.processPages.eq_def]
    dsimp only
    split
    · exact processPages_ss_covered allPages ps _ _ path
        (forestPagePaths_set_superset ss _ _ path h)
    · split
      · split
        · refine processPages_ss_covered allPages ps _ _ path ?_
          simp only [forestPagePaths, forestPagesRec_append, List.map_append]
          exact List.mem_append_left _ h
        · exact processPages_ss_covered allPages ps ss reds path h
      · exact processPages_ss_covered allPages ps ss reds path h

theorem mem_map_source_mono {l1 l2 : List Redirect} (h : l1 <+: l2) {s : String}
    (hm : s ∈ l1.map Redirect.source) : s ∈ l2.map Redirect.source := by
  rcases List.mem_map.mp hm with ⟨r, hr, rfl⟩
  exact List.mem_map.mpr ⟨r, h.subset hr, rfl⟩

theorem disambig_reds_extend : ∀ (gs : List NavGroup) (reds : List Redirect),
    reds <+: (Disambiguator.disambiguateGroups gs reds).2 := by
  intro gs reds
  induction gs, reds using Disambiguator.disambiguateGroups.induct with
  | case1 reds =>
    rw [Disambiguator.disambiguateGroups.eq_def]
  | case2 label pages groups rest reds a b ih1 ih2 ih3 =>
    rw [Disambiguator.disambiguateGroups.eq_def]
    dsimp only
    exact ((processPages_reds_extend pages pages (groups.getD []) reds).trans
      ih2).trans ih3

theorem disambig_no_loss : ∀ (gs : List NavGroup) (reds : List Redirect)
    (path : String), path ∈ forestPagePaths gs →
    path ∈ forestPagePaths (Disambiguator.disambiguateGroups gs reds).1 ∨
    Disambiguator.ensureLeadingSlash path ∈
      ((Disambiguator.disambiguateGroups gs reds).2.map Redirect.source) := by
  intro gs reds
  induction gs, reds using Disambiguator.disambiguateGroups.induct with
  | case1 reds =>
    intro path hpath
    rw [forestPagePaths] at hpath
    rw [forestPagesRec_nil] at hpath
    simp at hpath
  | case2 label pages groups rest reds a b ih1 ih2 ih3 =>
    intro path hpath
    rw [forestPagePaths_cons, groupPagesRec_opt] at hpath
    rw [Disambiguator.disambiguateGroups.eq_def]
    dsimp only
    have hpre1 : (Disambiguator.processPages pages pages (groups.getD []) reds).2.2
        <+: (Disambiguator.disambiguateGroups
              (Disambiguator.processPages pages pages (groups.getD []) reds).2.1
              (Disambiguator.processPages pages pages (groups.getD []) reds).2.2).2 :=
      disambig_reds_extend _ _
    have hpre2 : (Disambiguator.disambiguateGroups
          (Disambiguator.processPages pages pages (groups.getD []) reds).2.1
          (Disambiguator.processPages pages pages (groups.getD []) reds).2.2).2
        <+: (Disambiguator.disambiguateGroups rest
              (Disambiguator.disambiguateGroups
                (Disambiguator.processPages pages pages (groups.getD []) reds).2.1
                (Disambiguator.processPages pages pages (groups.getD []) reds).2.2).2).2 :=
      disambig_reds_extend _ _
    rw [List.map_append, List.mem_append] at hpath
    rcases hpath with hA | hC
    · rcases List.mem_append.mp hA with hA1 | hA2
      · -- from the group's direct pages
        rcases List.mem_map.mp hA1 with ⟨p, hpmem, rfl⟩
        rcases processPages_page_covered pages pages (groups.getD []) reds p
            hpmem with h | h
        · left
          rw [forestPagePaths_cons, groupPagesRec_opt]
          apply List.mem_append_left
          rw [List.map_append]
          apply List.mem_append_left
          exact h
        · right
          exact mem_map_source_mono hpre2 (mem_map_source_mono hpre1 h)
      · -- from the original sub-groups
        have hsub : NavPage.path ∘ id = NavPage.path := rfl
        have hmem0 : path ∈ forestPagePaths (groups.getD []) := by
          cases groups with
          | none => simp at hA2
          | some inner =>
            simpa [forestPagePaths] using hA2
        have hmem1 : path ∈ forestPagePaths
            (Disambiguator.processPages pages pages (groups.getD []) reds).2.1 :=
          processPages_ss_covered pages pages (groups.getD []) reds path hmem0
        rcases ih2 path hmem1 with h | h
        · left
          rw [forestPagePaths_cons, groupPagesRec_opt]
          apply List.mem_append_left
          rw [List.map_append]
          apply List.mem_append_right
          by_cases hlen : (Disambiguator.disambiguateGroups
              (Disambiguator.processPages pages pages (groups.getD []) reds).2.1
              (Disambiguator.processPages pages pages (groups.getD []) reds).2.2).1.length > 0
          · rw [if_pos hlen]
            simpa [forestPagePaths] using h
          · exfalso
            simp only [not_lt, Nat.le_zero, List.length_eq_zero] at hlen
            rw [hlen] at h
            rw [forestPagePaths] at h
            rw [forestPagesRec_nil] at h
            simp at h
        · right
          exact mem_map_source_mono hpre2 h
    · -- from the remaining groups
      rcases ih3 path hC with h | h
      · left
        rw [forestPagePaths_cons]
        exact List.mem_append_right _ h
      · exact Or.inr h

theorem tabsPagePaths_foldl : ∀ (tabs : List NavTab) (acc : List String),
    tabs.foldl (fun a tab => a ++ forestPagePaths tab.groups) acc
      = acc ++ (tabs.map (fun t => forestPagePaths t.groups)).flatten
  | [], acc => by simp
  | t :: rest, acc => by
    simp only [List.foldl_cons, List.map_cons, List.flatten_cons]
    rw [tabsPagePaths_foldl rest]
    simp [List.append_assoc]

theorem tabsPagePaths_eq (tabs : List NavTab) :
    tabsPagePaths tabs = (tabs.map (fun t => forestPagePaths t.groups)).flatten := by
  simp [tabsPagePaths, tabsPagePaths_foldl]

theorem tabsPagePaths_cons (t : NavTab) (rest : List NavTab) :
    tabsPagePaths (t :: rest)
      = forestPagePaths t.groups ++ tabsPagePaths rest := by
  rw [tabsPagePaths_eq, tabsPagePaths_eq]
  simp

theorem tabsPagePaths_of_groups_eq {t1 t2 : List NavTab}
    (h : t1.map NavTab.groups = t2.map NavTab.groups) :
    tabsPagePaths t1 = tabsPagePaths t2 := by
  rw [tabsPagePaths_eq, tabsPagePaths_eq]
  have : ∀ ts : List NavTab, ts.map (fun t => forestPagePaths t.groups)
      = (ts.map NavTab.groups).map forestPagePaths := by
    intro ts
    rw [List.map_map]
    rfl
  rw [this, this, h]

theorem mergeWithApi_groups (api : GitBookSiteStructure) (tabs : List NavTab)
    (ds : List Discrepancy) (config : MigrationConfig) :
    ((NavMerge.mergeWithApi api tabs ds config).1).map NavTab.groups
      = tabs.map NavTab.groups := by
  simp only [NavMerge.mergeWithApi]
  rw [mergeWithApi_groups_foldl (NavMerge.collectApiPaths api) config tabs [] ds]
  simp

theorem mergeNavTrees_pagePaths (api : Option GitBookSiteStructure)
    (tabs : List NavTab) (config : MigrationConfig) :
    tabsPagePaths (NavMerge.mergeNavTrees api tabs config).tabs
      = tabsPagePaths tabs := by
  have hstage : ∀ ts : List NavTab,
      tabsPagePaths (NavMerge.removeEmptyGroups ts) = tabsPagePaths ts := by
    intro ts
    rw [tabsPagePaths_eq, tabsPagePaths_eq]
    simp only [NavMerge.removeEmptyGroups, List.map_map]
    congr 1
    apply List.map_congr_left
    intro t _
    simp [Function.comp, forestPagePaths, pages_prune]
  have hflat : ∀ ts : List NavTab,
      tabsPagePaths (NavMerge.flattenSingleChildGroups ts) = tabsPagePaths ts := by
    intro ts
    rw [tabsPagePaths_eq, tabsPagePaths_eq]
    simp only [NavMerge.flattenSingleChildGroups, List.map_map]
    congr 1
    apply List.map_congr_left
    intro t _
    simp [Function.comp, forestPagePaths, pages_flatten]
  have hbase : tabsPagePaths
      (match api with
        | some a => NavMerge.mergeWithApi a tabs [] config
        | none => (NavMerge.structuredCloneTabs tabs, ([] : List Discrepancy))).1
      = tabsPagePaths tabs := by
    cases api with
    | none => rfl
    | some a => exact tabsPagePaths_of_groups_eq (mergeWithApi_groups a tabs [] config)
  simp only [NavMerge.mergeNavTrees, dedupe_id]
  split
  · rw [hflat, hstage]
    exact hbase
  · rw [hstage]
    exact hbase

theorem tabsPagePaths_append (a b : List NavTab) :
    tabsPagePaths (a ++ b) = tabsPagePaths a ++ tabsPagePaths b := by
  rw [tabsPagePaths_eq, tabsPagePaths_eq, tabsPagePaths_eq]
  simp

theorem disambigSlugs_fold_reds_extend : ∀ (tabs : List NavTab)
    (accT : List NavTab) (accR : List Redirect),
    accR <+: (tabs.foldl
      (fun (acc : List NavTab × List Redirect) tab =>
        let r := Disambiguator.disambiguateGroups tab.groups acc.2
        (acc.1 ++ [{ tab with groups := r.1 }], r.2))
      (accT, accR)).2
  | [], accT, accR => by simp
  | t :: rest, accT, accR => by
    simp only [List.foldl_cons]
    exact (disambig_reds_extend t.groups accR).trans
      (disambigSlugs_fold_reds_extend rest _ _)

theorem disambigSlugs_fold_acc : ∀ (tabs : List NavTab) (accT : List NavTab)
    (accR : List Redirect) (path : String), path ∈ tabsPagePaths accT →
    path ∈ tabsPagePaths (tabs.foldl
      (fun (acc : List NavTab × List Redirect) tab =>
        let r := Disambiguator.disambiguateGroups tab.groups acc.2
        (acc.1 ++ [{ tab with groups := r.1 }], r.2))
      (accT, accR)).1
  | [], accT, accR, path, h => h
  | t :: rest, accT, accR, path, h => by
    simp only [List.foldl_cons]
    refine disambigSlugs_fold_acc rest _ _ path ?_
    rw [tabsPagePaths_append]
    exact List.mem_append_left _ h

theorem disambigSlugs_fold_no_loss : ∀ (tabs : List NavTab)
    (accT : List NavTab) (accR : List Redirect) (path : String),
    path ∈ tabsPagePaths tabs →
    path ∈ tabsPagePaths (tabs.foldl
      (fun (acc : List NavTab × List Redirect) tab =>
        let r := Disambiguator.disambiguateGroups tab.groups acc.2
        (acc.1 ++ [{ tab with groups := r.1 }], r.2))
      (accT, accR)).1 ∨
    Disambiguator.ensureLeadingSlash path ∈
      ((tabs.foldl
        (fun (acc : List NavTab × List Redirect) tab =>
          let r := Disambiguator.disambiguateGroups tab.groups acc.2
          (acc.1 ++ [{ tab with groups := r.1 }], r.2))
        (accT, accR)).2.map Redirect.source)
  | [], accT, accR, path, h => by
    rw [tabsPagePaths_eq] at h
    simp at h
  | t :: rest, accT, accR, path, h => by
    rw [tabsPagePaths_cons] at h
    simp only [List.foldl_cons]
    rcases List.mem_append.mp h with hT | hR
    · rcases disambig_no_loss t.groups accR path hT with hL | hS
      · left
        refine disambigSlugs_fold_acc rest _ _ path ?_
        rw [tabsPagePaths_append]
        apply List.mem_append_right
        rw [tabsPagePaths_cons]
        apply List.mem_append_left
        exact hL
      · right
        exact mem_map_source_mono (disambigSlugs_fold_reds_extend rest _ _) hS
    · exact disambigSlugs_fold_no_loss rest _ _ path hR

/-- C2 (amended): no page is lost through the pipeline — every input page
source path either still appears among the final tree's page source
paths, or appears (with a leading slash forced) among the Redirect
sources.  The claim's exact set equality fails: disambiguation
introduces new overview page paths and forces a leading slash on
redirect sources, so the combined set is not equal to the input set. -/
theorem no_content_loss_amended (api : Option GitBookSiteStructure)
    (tabs : List NavTab) (config : MigrationConfig) (path : String)
    (h : path ∈ tabsPagePaths tabs) :
    path ∈ tabsPagePaths (fullPipeline api tabs config).tabs ∨
    Disambiguator.ensureLeadingSlash path ∈
      ((fullPipeline api tabs config).redirects.map Redirect.source) := by
  have h2 : path ∈ tabsPagePaths (NavMerge.mergeNavTrees api tabs config).tabs := by
    rw [mergeNavTrees_pagePaths]
    exact h
  simp only [fullPipeline, Disambiguator.disambiguateSlugs]
  exact disambigSlugs_fold_no_loss _ [] [] path h2

/-- C2 counterexample: for the billing example, the set of final page
paths plus redirect sources is not equal to the set of input page paths —
the overview page path `billing/overview` is new, and the redirect source
carries a forced leading slash (`/billing.md` ≠ `billing.md`). -/
theorem no_content_loss_cex :
    sameStringSet
      (tabsPagePaths (fullPipeline none
          [⟨"Docs", "docs", none,
            [NavGroup.mk "G" [⟨"Billing", "billing.md", none⟩]
              (some [NavGroup.mk "Billing" [⟨"Plans", "billing/plans.md", none⟩]
                none])]⟩] ⟨[], ⟨false⟩⟩).tabs ++
        ((fullPipeline none
          [⟨"Docs", "docs", none,
            [NavGroup.mk "G" [⟨"Billing", "billing.md", none⟩]
              (some [NavGroup.mk "Billing" [⟨"Plans", "billing/plans.md", none⟩]
                none])]⟩] ⟨[], ⟨false⟩⟩).redirects.map Redirect.source))
      (tabsPagePaths
        [⟨"Docs", "docs", none,
          [NavGroup.mk "G" [⟨"Billing", "billing.md", none⟩]
            (some [NavGroup.mk "Billing" [⟨"Plans", "billing/plans.md", none⟩]
              none])]⟩]) = false := by
  have hev : (fullPipeline none
      [⟨"Docs", "docs", none,
        [NavGroup.mk "G" [⟨"Billing", "billing.md", none⟩]
          (some [NavGroup.mk "Billing" [⟨"Plans", "billing/plans.md", none⟩]
            none])]⟩] ⟨[], ⟨false⟩⟩)
      = ⟨[⟨"Docs", "docs", none,
           [NavGroup.mk "G" []
             (some [NavGroup.mk "Billing"
               (⟨"Overview", "billing/overview", some "billing/overview"⟩ ::
                 [⟨"Plans", "billing/plans.md", none⟩]) none])]⟩],
         [⟨"/billing.md", "/billing/overview"⟩]⟩ := by
    simp only [fullPipeline]
    have hmerge : (NavMerge.mergeNavTrees none
        [⟨"Docs", "docs", none,
          [NavGroup.mk "G" [⟨"Billing", "billing.md", none⟩]
            (some [NavGroup.mk "Billing" [⟨"Plans", "billing/plans.md", none⟩]
              none])]⟩] ⟨[], ⟨false⟩⟩).tabs
        = [⟨"Docs", "docs", none,
            [NavGroup.mk "G" [⟨"Billing", "billing.md", none⟩]
              (some [NavGroup.mk "Billing" [⟨"Plans", "billing/plans.md", none⟩]
                none])]⟩] := by
      simp only [NavMerge.mergeNavTrees, NavMerge.structuredCloneTabs]
      simp [NavMerge.removeEmptyGroups, NavMerge.pruneEmptyGroups,
        NavMerge.deduplicateTabGroupNames, NavMerge.flagSinglePageTabs,
        NavGroup.label, NavGroup.pages, NavGroup.groups]
    rw [hmerge]
    simp only [Disambiguator.disambiguateSlugs, List.foldl_cons, List.foldl_nil]
    rw [disambiguateGroups_primary "G" ⟨"Billing", "billing.md", none⟩
      (NavGroup.mk "Billing" [⟨"Plans", "billing/plans.md", none⟩] none) []
      (by decide) rfl]
    simp [Disambiguator.overviewPageFor, Disambiguator.redirectFor,
      Disambiguator.buildOverviewSlug, Disambiguator.ensureLeadingSlash,
      Disambiguator.dropTrailingSlashes, Disambiguator.stripMdExtension,
      NavGroup.label, NavGroup.pages, NavGroup.groups,
      strEndsWith, strDropRight, strStartsWith]
    decide
  rw [hev]
  have h1 : tabsPagePaths
      [(⟨"Docs", "docs", none,
         [NavGroup.mk "G" []
           (some [NavGroup.mk "Billing"
             (⟨"Overview", "billing/overview", some "billing/overview"⟩ ::
               [⟨"Plans", "billing/plans.md", none⟩]) none])]⟩ : NavTab)]
      = ["billing/overview", "billing/plans.md"] := by
    simp [tabsPagePaths, forestPagePaths, forestPagesRec, groupPagesRec]
  have h2 : tabsPagePaths
      [(⟨"Docs", "docs", none,
         [NavGroup.mk "G" [⟨"Billing", "billing.md", none⟩]
           (some [NavGroup.mk "Billing" [⟨"Plans", "billing/plans.md", none⟩]
             none])]⟩ : NavTab)]
      = ["billing.md", "billing/plans.md"] := by
    simp [tabsPagePaths, forestPagePaths, forestPagesRec, groupPagesRec]
  rw [h1, h2]
  decide

/-- C2 witness: the billing example's disambiguated page is accounted for
as a redirect source (with the forced leading slash). -/
theorem no_content_loss_witness :
    ("billing.md" ∈ tabsPagePaths
        [⟨"Docs", "docs", none,
          [NavGroup.mk "G" [⟨"Billing", "billing.md", none⟩]
            (some [NavGroup.mk "Billing" [⟨"Plans", "billing/plans.md", none⟩]
              none])]⟩]) ∧
    ("billing.md" ∈ tabsPagePaths (fullPipeline none
        [⟨"Docs", "docs", none,
          [NavGroup.mk "G" [⟨"Billing", "billing.md", none⟩]
            (some [NavGroup.mk "Billing" [⟨"Plans", "billing/plans.md", none⟩]
              none])]⟩] ⟨[], ⟨false⟩⟩).tabs ∨
     Disambiguator.ensureLeadingSlash "billing.md" ∈
       ((fullPipeline none
        [⟨"Docs", "docs", none,
          [NavGroup.mk "G" [⟨"Billing", "billing.md", none⟩]
            (some [NavGroup.mk "Billing" [⟨"Plans", "billing/plans.md", none⟩]
              none])]⟩] ⟨[], ⟨false⟩⟩).redirects.map Redirect.source)) :=
  ⟨by simp [tabsPagePaths, forestPagePaths, forestPagesRec, groupPagesRec],
   no_content_loss_amended none _ _ "billing.md"
     (by simp [tabsPagePaths, forestPagePaths, forestPagesRec, groupPagesRec])⟩
/-! ## C4: deep navigation and the generalized primary disambiguation rule -/

/-- Navigate a group forest by a path of child indices: the head index picks a
group of the list, the remaining indices continue into its sub-group list. -/
def navGet : List Nat → List NavGroup → Option NavGroup
  | [], _ => none
  | [i], gs => gs[i]?
  | i :: j :: rest, gs =>
    match gs[i]? with
    | none => none
    | some g => navGet (j :: rest) (g.groups.getD [])

/-- A group covered by another: same label, same sub-groups, and the same pages
up to a prepended block — the shape produced on a sub-group by the primary
rule's overview insertions. -/
def coveredBy (g g' : NavGroup) : Prop :=
  g'.label = g.label ∧ (∃ pre, g'.pages = pre ++ g.pages) ∧ g'.groups = g.groups

/-- Positionwise covering of a group list by a possibly longer one. -/
def coversList (gs₀ gs : List NavGroup) : Prop :=
  ∀ (i : Nat) (g : NavGroup), gs₀[i]? = some g → ∃ g', gs[i]? = some g' ∧ coveredBy g g'

theorem coveredBy_refl (g : NavGroup) : coveredBy g g :=
  ⟨rfl, ⟨[], rfl⟩, rfl⟩

theorem coversList_refl (gs : List NavGroup) : coversList gs gs :=
  fun _ g hg => ⟨g, hg, coveredBy_refl g⟩

theorem navGet_nil (π : List Nat) : navGet π ([] : List NavGroup) = none := by
  match π with
  | [] => rfl
  | [i] => simp [navGet]
  | i :: j :: rest => simp [navGet]

theorem navGet_cons_succ (n : Nat) (π : List Nat) (x : NavGroup)
    (rest : List NavGroup) :
    navGet ((n + 1) :: π) (x :: rest) = navGet (n :: π) rest := by
  cases π <;> simp [navGet]

/-- The primary-rule update of the evolving sub-group list preserves covering. -/
theorem coversList_set_upd (gs₀ ss : List NavGroup) (idx : Nat) (ov : NavPage)
    (h : coversList gs₀ ss) :
    coversList gs₀ (ss.set idx
      (NavGroup.mk (ss.getD idx (NavGroup.mk "" [] none)).label
        (ov :: (ss.getD idx (NavGroup.mk "" [] none)).pages)
        (ss.getD idx (NavGroup.mk "" [] none)).groups)) := by
  intro i g hg
  rcases h i g hg with ⟨g', hget, hlab, ⟨pre, hpag⟩, hgr⟩
  by_cases hi : idx = i
  · subst hi
    obtain ⟨hlen, _⟩ := List.getElem?_eq_some.mp hget
    have hgetD : ss.getD idx (NavGroup.mk "" [] none) = g' := by
      rw [List.getD_eq_getElem?_getD, hget]
      rfl
    refine ⟨_, List.getElem?_set_self hlen, ?_, ⟨ov :: pre, ?_⟩, ?_⟩
    · rw [hgetD]
      exact hlab
    · rw [hgetD]
      show ov :: g'.pages = (ov :: pre) ++ g.pages
      rw [hpag]
      rfl
    · rw [hgetD]
      exact hgr
  · refine ⟨g', ?_, hlab, ⟨pre, hpag⟩, hgr⟩
    rw [List.getElem?_set_ne hi]
    exact hget

/-- Appending new sub-groups preserves covering. -/
theorem coversList_append (gs₀ ss l : List NavGroup) (h : coversList gs₀ ss) :
    coversList gs₀ (ss ++ l) := by
  intro i g hg
  rcases h i g hg with ⟨g', hget, hcov⟩
  obtain ⟨hlen, _⟩ := List.getElem?_eq_some.mp hget
  refine ⟨g', ?_, hcov⟩
  rw [List.getElem?_append_left hlen]
  exact hget

/-- The page loop only changes the evolving sub-group list in
covering-preserving ways. -/
theorem processPages_covers : ∀ (allPages ps : List NavPage) (ss : List NavGroup)
    (reds : List Redirect) (gs₀ : List NavGroup), coversList gs₀ ss →
    coversList gs₀ (Disambiguator.processPages allPages ps ss reds).2.1
  | allPages, [], ss, reds, gs₀, h => by
    simpa [Disambiguator.processPages] using h
  | allPages, page :: ps, ss, reds, gs₀, h => by
    rw [Disambiguator.processPages.eq_def]
    dsimp only
    split
    · exact processPages_covers allPages ps _ _ gs₀
        (coversList_set_upd gs₀ ss _ _ h)
    · split
      · split
        · exact processPages_covers allPages ps _ _ gs₀
            (coversList_append gs₀ ss _ h)
        · exact processPages_covers allPages ps ss reds gs₀ h
      · exact processPages_covers allPages ps ss reds gs₀ h

/-- Covering preserves successful navigation; only the endpoint of the path can
differ, and then only by covering. -/
theorem navGet_covers : ∀ (π : List Nat) (gs₀ gs : List NavGroup) (Γ : NavGroup),
    coversList gs₀ gs → navGet π gs₀ = some Γ →
    ∃ q, navGet π gs = some q ∧ coveredBy Γ q
  | [], _, _, _, _, h => by simp [navGet] at h
  | [i], gs₀, gs, Γ, hcov, h => by
    simp only [navGet] at h ⊢
    exact hcov i Γ h
  | i :: j :: rest, gs₀, gs, Γ, hcov, h => by
    simp only [navGet] at h ⊢
    cases hg0 : gs₀[i]? with
    | none => rw [hg0] at h; exact absurd h (by simp)
    | some g =>
      rw [hg0] at h
      rcases hcov i g hg0 with ⟨g', hg', _, _, hgr⟩
      rw [hg']
      dsimp only at h ⊢
      rw [hgr]
      exact ⟨Γ, h, coveredBy_refl Γ⟩

theorem findIdx?_some_of_first {α : Type} (pred : α → Bool) :
    ∀ (l : List α) (k s : Nat) (H : α),
    (∀ (j : Nat) (g : α), j < k → l[j]? = some g → pred g = false) →
    l[k]? = some H → pred H = true →
    List.findIdx? pred l s = some (s + k)
  | [], k, s, H, hlt, hk, hp => by simp at hk
  | x :: xs, 0, s, H, hlt, hk, hp => by
    simp only [List.getElem?_cons_zero, Option.some.injEq] at hk
    subst hk
    rw [List.findIdx?_cons, if_pos hp]
    simp
  | x :: xs, k + 1, s, H, hlt, hk, hp => by
    have hx : pred x = false := hlt 0 x (Nat.succ_pos k) (by simp)
    rw [List.findIdx?_cons, if_neg (by simp [hx])]
    have hrec := findIdx?_some_of_first pred xs k (s + 1) H
      (fun j g hj hg => hlt (j + 1) g (by omega) (by simpa using hg))
      (by simpa using hk) hp
    rw [hrec]
    congr 1
    omega

theorem findIdx?_some_pred {α : Type} (pred : α → Bool) :
    ∀ (l : List α) (s i : Nat), List.findIdx? pred l s = some i →
    s ≤ i ∧ ∃ g, l[i - s]? = some g ∧ pred g = true
  | [], s, i, h => by simp [List.findIdx?] at h
  | x :: xs, s, i, h => by
    rw [List.findIdx?_cons] at h
    by_cases hx : pred x = true
    · rw [if_pos hx] at h
      cases h
      exact ⟨le_refl s, x, by simp, hx⟩
    · rw [if_neg hx] at h
      rcases findIdx?_some_pred pred xs (s + 1) i h with ⟨hs, g, hg, hp⟩
      refine ⟨by omega, g, ?_, hp⟩
      have hsub : i - s = (i - (s + 1)) + 1 := by omega
      rw [hsub, List.getElem?_cons_succ]
      exact hg

/-- If some sub-group of the original sibling list label-matches a page of the
loop, the loop emits that page's redirect. -/
theorem processPages_emits : ∀ (allPages ps : List NavPage) (ss : List NavGroup)
    (reds : List Redirect) (gs₀ : List NavGroup) (P : NavPage) (G : NavGroup),
    coversList gs₀ ss → P ∈ ps → G ∈ gs₀ →
    strToLower G.label = strToLower P.label →
    Disambiguator.redirectFor P.path ∈
      (Disambiguator.processPages allPages ps ss reds).2.2
  | allPages, [], ss, reds, gs₀, P, G, hcov, hP, hG, hlab => by simp at hP
  | allPages, page :: ps, ss, reds, gs₀, P, G, hcov, hP, hG, hlab => by
    rw [Disambiguator.processPages.eq_def]
    dsimp only
    rcases List.mem_cons.mp hP with rfl | hPtail
    · obtain ⟨i₀, hidx⟩ := List.getElem?_of_mem hG
      rcases hcov i₀ G hidx with ⟨g', hg', hl', _, _⟩
      have hne : ss.findIdx?
          (fun g => strToLower g.label == strToLower P.label) ≠ none := by
        intro hnone
        have hfalse := (List.findIdx?_eq_none_iff.mp hnone) g' (List.getElem?_mem hg')
        rw [hl', hlab] at hfalse
        simp at hfalse
      cases hfind : ss.findIdx?
          (fun g => strToLower g.label == strToLower P.label) with
      | none => exact absurd hfind hne
      | some idx =>
        dsimp only
        refine (processPages_reds_extend allPages ps _ _).subset ?_
        simp
    · split
      · exact processPages_emits allPages ps _ _ gs₀ P G
          (coversList_set_upd gs₀ ss _ _ hcov) hPtail hG hlab
      · split
        · split
          · exact processPages_emits allPages ps _ _ gs₀ P G
              (coversList_append gs₀ ss _ hcov) hPtail hG hlab
          · exact processPages_emits allPages ps ss reds gs₀ P G hcov hPtail hG hlab
        · exact processPages_emits allPages ps ss reds gs₀ P G hcov hPtail hG hlab

/-- Any page with a label-matching sibling sub-group, anywhere in the forest,
gets its redirect emitted by the disambiguation walk. -/
theorem disambig_emits (gs : List NavGroup) (reds : List Redirect) :
    ∀ (π : List Nat) (Γ : NavGroup) (P : NavPage),
    navGet π gs = some Γ → P ∈ Γ.pages →
    (∃ G ∈ Γ.groups.getD [], strToLower G.label = strToLower P.label) →
    Disambiguator.redirectFor P.path ∈
      (Disambiguator.disambiguateGroups gs reds).2 := by
  induction gs, reds using Disambiguator.disambiguateGroups.induct with
  | case1 reds =>
    intro π Γ P hnav
    rw [navGet_nil] at hnav
    exact absurd hnav (by simp)
  | case2 label pages groups rest reds a b ih1 ih2 ih3 =>
    intro π Γ P hnav hP hm
    rw [Disambiguator.disambiguateGroups.eq_def]
    dsimp only
    match π with
    | [] => exact absurd hnav (by simp [navGet])
    | 0 :: π' =>
      match π' with
      | [] =>
        simp only [navGet, List.getElem?_cons_zero, Option.some.injEq] at hnav
        subst hnav
        simp only [NavGroup.pages] at hP
        simp only [NavGroup.groups] at hm
        obtain ⟨G, hGmem, hGlab⟩ := hm
        have h0 := processPages_emits pages pages (groups.getD []) reds
          (groups.getD []) P G (coversList_refl _) hP hGmem hGlab
        exact (disambig_reds_extend rest _).subset
          ((disambig_reds_extend _ _).subset h0)
      | j :: π'' =>
        simp only [navGet, List.getElem?_cons_zero, NavGroup.groups] at hnav
        have hcov := processPages_covers pages pages (groups.getD []) reds
          (groups.getD []) (coversList_refl _)
        obtain ⟨q, hq, hqlab, ⟨pre, hqpages⟩, hqgr⟩ :=
          navGet_covers (j :: π'') (groups.getD []) _ Γ hcov hnav
        refine (disambig_reds_extend rest _).subset (ih2 (j :: π'') q P hq ?_ ?_)
        · rw [hqpages]
          exact List.mem_append_right pre hP
        · rw [hqgr]
          exact hm
    | (n + 1) :: π' =>
      rw [navGet_cons_succ] at hnav
      exact ih3 (n :: π') Γ P hnav hP hm

/-- Every page the loop keeps in the direct page list failed its sub-group
lookup, so its label matches no original sibling sub-group's label. -/
theorem processPages_kept : ∀ (allPages ps : List NavPage) (ss : List NavGroup)
    (reds : List Redirect) (gs₀ : List NavGroup), coversList gs₀ ss →
    ∀ q ∈ (Disambiguator.processPages allPages ps ss reds).1, ∀ g ∈ gs₀,
      strToLower q.label ≠ strToLower g.label
  | allPages, [], ss, reds, gs₀, hcov, q, hq => by
    simp [Disambiguator.processPages] at hq
  | allPages, page :: ps, ss, reds, gs₀, hcov, q, hq => by
    rw [Disambiguator.processPages.eq_def] at hq
    dsimp only at hq
    revert hq
    split
    · intro hq
      exact processPages_kept allPages ps _ _ gs₀
        (coversList_set_upd gs₀ ss _ _ hcov) q hq
    · next hfind =>
      have hhead : ∀ g ∈ gs₀, strToLower page.label ≠ strToLower g.label := by
        intro g hg hEq
        obtain ⟨i₀, hidx⟩ := List.getElem?_of_mem hg
        rcases hcov i₀ g hidx with ⟨g', hg', hl', _, _⟩
        have hfalse := (List.findIdx?_eq_none_iff.mp hfind) g'
          (List.getElem?_mem hg')
        rw [hl', ← hEq] at hfalse
        simp at hfalse
      split
      · split
        · intro hq
          exact processPages_kept allPages ps _ _ gs₀
            (coversList_append gs₀ ss _ hcov) q hq
        · intro hq g hg
          rcases List.mem_cons.mp hq with rfl | hqtail
          · exact hhead g hg
          · exact processPages_kept allPages ps ss reds gs₀ hcov q hqtail g hg
      · intro hq g hg
        rcases List.mem_cons.mp hq with rfl | hqtail
        · exact hhead g hg
        · exact processPages_kept allPages ps ss reds gs₀ hcov q hqtail g hg

/-- The sub-group list stored by the disambiguation walk (empty list becomes
none) reads back as the same list. -/
theorem iteLen_getD (l : List NavGroup) :
    (if l.length > 0 then some l else none).getD [] = l := by
  cases l <;> simp

/-- Along any index path into the input forest, the disambiguated forest has a
group at the same position, and none of its direct pages label-matches any of
the input group's sub-groups. -/
theorem disambig_kept (gs : List NavGroup) (reds : List Redirect) :
    ∀ (π : List Nat) (Γ : NavGroup),
    navGet π gs = some Γ →
    ∃ Γ', navGet π (Disambiguator.disambiguateGroups gs reds).1 = some Γ' ∧
      ∀ q ∈ Γ'.pages, ∀ G ∈ Γ.groups.getD [],
        strToLower q.label ≠ strToLower G.label := by
  induction gs, reds using Disambiguator.disambiguateGroups.induct with
  | case1 reds =>
    intro π Γ hnav
    rw [navGet_nil] at hnav
    exact absurd hnav (by simp)
  | case2 label pages groups rest reds a b ih1 ih2 ih3 =>
    intro π Γ hnav
    rw [Disambiguator.disambiguateGroups.eq_def]
    dsimp only
    match π with
    | [] => exact absurd hnav (by simp [navGet])
    | 0 :: π' =>
      match π' with
      | [] =>
        simp only [navGet, List.getElem?_cons_zero, Option.some.injEq] at hnav
        subst hnav
        simp only [navGet, List.getElem?_cons_zero, Option.some.injEq]
        refine ⟨_, rfl, ?_⟩
        intro q hq G hG
        simp only [NavGroup.pages] at hq
        simp only [NavGroup.groups] at hG
        exact processPages_kept pages pages (groups.getD []) reds
          (groups.getD []) (coversList_refl _) q hq G hG
      | j :: π'' =>
        simp only [navGet, List.getElem?_cons_zero, NavGroup.groups] at hnav
        have hcov := processPages_covers pages pages (groups.getD []) reds
          (groups.getD []) (coversList_refl _)
        obtain ⟨q0, hq0, hq0lab, ⟨pre, hq0pages⟩, hq0gr⟩ :=
          navGet_covers (j :: π'') (groups.getD []) _ Γ hcov hnav
        obtain ⟨Γ', hnav', hΓ'⟩ := ih2 (j :: π'') q0 hq0
        refine ⟨Γ', ?_, ?_⟩
        · simp only [navGet, List.getElem?_cons_zero, NavGroup.groups]
          rw [iteLen_getD]
          exact hnav'
        · intro q hq G hG
          refine hΓ' q hq G ?_
          rw [hq0gr]
          exact hG
    | (n + 1) :: π' =>
      rw [navGet_cons_succ] at hnav
      obtain ⟨Γ', hnav', hΓ'⟩ := ih3 (n :: π') Γ hnav
      refine ⟨Γ', ?_, hΓ'⟩
      rw [navGet_cons_succ]
      exact hnav'

/-- A group with no sub-groups passes through the disambiguation walk verbatim
at its position (its pages are kept unchanged by the page loop). -/
theorem disambiguateGroups_getElem_leaf (gs : List NavGroup) (reds : List Redirect) :
    ∀ (k : Nat) (L : String) (ps : List NavPage),
    gs[k]? = some (NavGroup.mk L ps none) →
    (Disambiguator.disambiguateGroups gs reds).1[k]? = some (NavGroup.mk L ps none) := by
  induction gs, reds using Disambiguator.disambiguateGroups.induct with
  | case1 reds =>
    intro k L ps hk
    simp at hk
  | case2 label pages groups rest reds a b ih1 ih2 ih3 =>
    intro k L ps hk
    rw [Disambiguator.disambiguateGroups.eq_def]
    dsimp only
    match k with
    | 0 =>
      simp only [List.getElem?_cons_zero, Option.some.injEq] at hk
      cases hk
      simp only [Option.getD_none]
      rw [Disambiguator.processPages_nil_ss]
      rw [List.getElem?_cons_zero]
      rw [disambiguateGroups_nil]
      rfl
    | n + 1 =>
      simp only [List.getElem?_cons_succ] at hk ⊢
      exact ih3 n L ps hk

/-- Through the page loop, a sub-group at index k with no nested sub-groups of
its own, label-matching P with no earlier label match in the sibling list, ends
with P's overview page as its first page — provided every matcher from P onward
shares P's path (earlier matchers may prepend other overviews, which P's own
prepend then shadows). -/
theorem processPages_k_overview : ∀ (allPages ps : List NavPage) (ss : List NavGroup)
    (reds : List Redirect) (k : Nat) (H : NavGroup) (P : NavPage),
    ss[k]? = some H → H.groups = none →
    strToLower H.label = strToLower P.label →
    (∀ (j : Nat) (g : NavGroup), j < k → ss[j]? = some g →
      strToLower g.label ≠ strToLower P.label) →
    ((∃ l r, ps = l ++ r ∧ P ∈ r ∧
        (∀ q ∈ r, strToLower q.label = strToLower P.label → q.path = P.path)) ∨
      ((∃ tl0, H.pages = Disambiguator.overviewPageFor P.path :: tl0) ∧
        (∀ q ∈ ps, strToLower q.label = strToLower P.label → q.path = P.path))) →
    ∃ tl, ((Disambiguator.processPages allPages ps ss reds).2.1)[k]?
        = some (NavGroup.mk H.label (Disambiguator.overviewPageFor P.path :: tl) none)
  | allPages, [], ss, reds, k, H, P, hk, hgr, hlabH, hlt, hdisj => by
    rcases hdisj with ⟨l, r, hsplit, hPr, _⟩ | ⟨⟨tl0, hpag⟩, _⟩
    · rcases List.append_eq_nil.mp hsplit.symm with ⟨-, rfl⟩
      simp at hPr
    · refine ⟨tl0, ?_⟩
      have hH : H = NavGroup.mk H.label (Disambiguator.overviewPageFor P.path :: tl0) none := by
        cases H with
        | mk L pg gr =>
          simp only [NavGroup.pages] at hpag
          simp only [NavGroup.groups] at hgr
          subst hpag
          subst hgr
          rfl
      simp only [Disambiguator.processPages]
      rw [hk]
      exact congrArg some hH
  | allPages, page :: ps, ss, reds, k, H, P, hk, hgr, hlabH, hlt, hdisj => by
    obtain ⟨hlen, -⟩ := List.getElem?_eq_some.mp hk
    rw [Disambiguator.processPages.eq_def]
    dsimp only
    by_cases hm : strToLower page.label = strToLower P.label
    · have hfind : List.findIdx?
          (fun g => strToLower g.label == strToLower page.label) ss = some k := by
        have h0 := findIdx?_some_of_first
          (fun g => strToLower g.label == strToLower page.label) ss k 0 H
          (fun j g hj hg => by
            have hne := hlt j g hj hg
            simp only [hm]
            simpa using hne)
          hk (by simp only [hm]; simpa using hlabH)
        simpa using h0
      rw [hfind]
      dsimp only
      have hgetD : ss.getD k (NavGroup.mk "" [] none) = H := by
        rw [List.getD_eq_getElem?_getD, hk]
        rfl
      rw [hgetD, hgr]
      have hk' : (ss.set k (NavGroup.mk H.label
            (Disambiguator.overviewPageFor page.path :: H.pages) none))[k]?
          = some (NavGroup.mk H.label
            (Disambiguator.overviewPageFor page.path :: H.pages) none) :=
        List.getElem?_set_self hlen
      have hlt' : ∀ (j : Nat) (g : NavGroup), j < k →
          (ss.set k (NavGroup.mk H.label
            (Disambiguator.overviewPageFor page.path :: H.pages) none))[j]? = some g →
          strToLower g.label ≠ strToLower P.label := by
        intro j g hj hg
        rw [List.getElem?_set_ne (by omega)] at hg
        exact hlt j g hj hg
      rcases hdisj with ⟨l, r, hsplit, hPr, hpq⟩ | ⟨⟨tl0, hpag⟩, hall⟩
      · cases l with
        | nil =>
          simp only [List.nil_append] at hsplit
          subst hsplit
          have hpp : page.path = P.path := hpq page (List.mem_cons_self page ps) hm
          exact processPages_k_overview allPages ps _ _ k
            (NavGroup.mk H.label
              (Disambiguator.overviewPageFor page.path :: H.pages) none)
            P hk' rfl hlabH hlt'
            (Or.inr ⟨⟨H.pages, by
                show Disambiguator.overviewPageFor page.path :: H.pages
                  = Disambiguator.overviewPageFor P.path :: H.pages
                rw [hpp]⟩,
              fun q hq hql => hpq q (List.mem_cons_of_mem _ hq) hql⟩)
        | cons a l' =>
          simp only [List.cons_append, List.cons.injEq] at hsplit
          obtain ⟨rfl, hps⟩ := hsplit
          exact processPages_k_overview allPages ps _ _ k
            (NavGroup.mk H.label
              (Disambiguator.overviewPageFor page.path :: H.pages) none)
            P hk' rfl hlabH hlt'
            (Or.inl ⟨l', r, hps, hPr, hpq⟩)
      · have hpp : page.path = P.path := hall page (List.mem_cons_self page ps) hm
        exact processPages_k_overview allPages ps _ _ k
          (NavGroup.mk H.label
            (Disambiguator.overviewPageFor page.path :: H.pages) none)
          P hk' rfl hlabH hlt'
          (Or.inr ⟨⟨H.pages, by
              show Disambiguator.overviewPageFor page.path :: H.pages
                = Disambiguator.overviewPageFor P.path :: H.pages
              rw [hpp]⟩,
            fun q hq hql => hall q (List.mem_cons_of_mem _ hq) hql⟩)
    · have hdisj2 : (∃ l r, ps = l ++ r ∧ P ∈ r ∧
          (∀ q ∈ r, strToLower q.label = strToLower P.label → q.path = P.path)) ∨
          ((∃ tl0, H.pages = Disambiguator.overviewPageFor P.path :: tl0) ∧
            (∀ q ∈ ps, strToLower q.label = strToLower P.label → q.path = P.path)) := by
        rcases hdisj with ⟨l, r, hsplit, hPr, hpq⟩ | ⟨hh, hall⟩
        · cases l with
          | nil =>
            simp only [List.nil_append] at hsplit
            subst hsplit
            rcases List.mem_cons.mp hPr with rfl | hPs
            · exact absurd rfl hm
            · exact Or.inl ⟨[], ps, by simp, hPs,
                fun q hq hql => hpq q (List.mem_cons_of_mem _ hq) hql⟩
          | cons a l' =>
            simp only [List.cons_append, List.cons.injEq] at hsplit
            obtain ⟨rfl, hps⟩ := hsplit
            exact Or.inl ⟨l', r, hps, hPr, hpq⟩
        · exact Or.inr ⟨hh, fun q hq hql => hall q (List.mem_cons_of_mem _ hq) hql⟩
      cases hfind : List.findIdx?
          (fun g => strToLower g.label == strToLower page.label) ss with
      | some idx =>
        dsimp only
        obtain ⟨-, g, hgidx, hgpred⟩ := findIdx?_some_pred _ ss 0 idx hfind
        simp only [Nat.sub_zero] at hgidx
        obtain ⟨hlen2, -⟩ := List.getElem?_eq_some.mp hgidx
        have hidxk : idx ≠ k := by
          intro he
          subst he
          rw [hk] at hgidx
          cases hgidx
          have hHp : strToLower H.label = strToLower page.label := by simpa using hgpred
          rw [hlabH] at hHp
          exact hm hHp.symm
        have hgetD2 : ss.getD idx (NavGroup.mk "" [] none) = g := by
          rw [List.getD_eq_getElem?_getD, hgidx]
          rfl
        rw [hgetD2]
        have hk'' : (ss.set idx (NavGroup.mk g.label
              (Disambiguator.overviewPageFor page.path :: g.pages) g.groups))[k]?
            = some H := by
          rw [List.getElem?_set_ne hidxk]
          exact hk
        have hlt'' : ∀ (j : Nat) (g' : NavGroup), j < k →
            (ss.set idx (NavGroup.mk g.label
              (Disambiguator.overviewPageFor page.path :: g.pages) g.groups))[j]? = some g' →
            strToLower g'.label ≠ strToLower P.label := by
          intro j g' hj hg'
          by_cases hji : idx = j
          · subst hji
            rw [List.getElem?_set_self hlen2] at hg'
            cases hg'
            exact hlt idx g hj hgidx
          · rw [List.getElem?_set_ne hji] at hg'
            exact hlt j g' hj hg'
        exact processPages_k_overview allPages ps _ _ k H P hk'' hgr hlabH hlt'' hdisj2
      | none =>
        dsimp only
        split
        · split
          · have hk3 : (ss ++ [NavGroup.mk page.label
                  (Disambiguator.overviewPageFor page.path ::
                    Disambiguator.extractChildPages page.path allPages) none])[k]?
                = some H := by
              rw [List.getElem?_append_left hlen]
              exact hk
            have hlt3 : ∀ (j : Nat) (g' : NavGroup), j < k →
                (ss ++ [NavGroup.mk page.label
                  (Disambiguator.overviewPageFor page.path ::
                    Disambiguator.extractChildPages page.path allPages) none])[j]?
                  = some g' →
                strToLower g'.label ≠ strToLower P.label := by
              intro j g' hj hg'
              rw [List.getElem?_append_left (by omega)] at hg'
              exact hlt j g' hj hg'
            exact processPages_k_overview allPages ps _ _ k H P hk3 hgr hlabH hlt3 hdisj2
          · exact processPages_k_overview allPages ps ss reds k H P hk hgr hlabH hlt hdisj2
        · exact processPages_k_overview allPages ps ss reds k H P hk hgr hlabH hlt hdisj2

/-- Deep form of the primary rule's overview placement: at any position in the
forest, a first label-matching sub-group with no sub-groups of its own comes
out with the overview page first, provided matching pages of the group share
P's path (the split form tolerates overview pages prepended by the parent). -/
theorem disambig_overview (gs : List NavGroup) (reds : List Redirect) :
    ∀ (π : List Nat) (Γ G : NavGroup) (k : Nat) (P : NavPage),
    navGet π gs = some Γ →
    (Γ.groups.getD [])[k]? = some G →
    G.groups = none →
    strToLower G.label = strToLower P.label →
    (∀ (j : Nat) (g : NavGroup), j < k → (Γ.groups.getD [])[j]? = some g →
      strToLower g.label ≠ strToLower P.label) →
    (∃ l r, Γ.pages = l ++ r ∧ P ∈ r ∧
      (∀ q ∈ r, strToLower q.label = strToLower P.label → q.path = P.path)) →
    ∃ Γ' tl, navGet π (Disambiguator.disambiguateGroups gs reds).1 = some Γ' ∧
      (Γ'.groups.getD [])[k]? = some (NavGroup.mk G.label
        (Disambiguator.overviewPageFor P.path :: tl) none) := by
  induction gs, reds using Disambiguator.disambiguateGroups.induct with
  | case1 reds =>
    intro π Γ G k P hnav
    rw [navGet_nil] at hnav
    exact absurd hnav (by simp)
  | case2 label pages groups rest reds a b ih1 ih2 ih3 =>
    intro π Γ G k P hnav hG hGgr hlab hlt hsplit
    rw [Disambiguator.disambiguateGroups.eq_def]
    dsimp only
    match π with
    | [] => exact absurd hnav (by simp [navGet])
    | 0 :: π' =>
      match π' with
      | [] =>
        simp only [navGet, List.getElem?_cons_zero, Option.some.injEq] at hnav
        subst hnav
        simp only [NavGroup.pages] at hsplit
        simp only [NavGroup.groups] at hG hlt
        obtain ⟨tl, hres⟩ := processPages_k_overview pages pages (groups.getD [])
          reds k G P hG hGgr hlab hlt (Or.inl hsplit)
        have hleaf := disambiguateGroups_getElem_leaf
          (Disambiguator.processPages pages pages (groups.getD []) reds).2.1
          (Disambiguator.processPages pages pages (groups.getD []) reds).2.2
          k G.label (Disambiguator.overviewPageFor P.path :: tl) hres
        refine ⟨NavGroup.mk label
            (Disambiguator.processPages pages pages (groups.getD []) reds).1
            (if (Disambiguator.disambiguateGroups
                  (Disambiguator.processPages pages pages (groups.getD []) reds).2.1
                  (Disambiguator.processPages pages pages (groups.getD []) reds).2.2).1.length > 0
              then some (Disambiguator.disambiguateGroups
                  (Disambiguator.processPages pages pages (groups.getD []) reds).2.1
                  (Disambiguator.processPages pages pages (groups.getD []) reds).2.2).1
              else none),
          tl, ?_, ?_⟩
        · simp only [navGet, List.getElem?_cons_zero]
        · simp only [NavGroup.groups, iteLen_getD]
          exact hleaf
      | j :: π'' =>
        simp only [navGet, List.getElem?_cons_zero, NavGroup.groups] at hnav
        have hcov := processPages_covers pages pages (groups.getD []) reds
          (groups.getD []) (coversList_refl _)
        obtain ⟨q0, hq0, hq0lab, ⟨pre, hq0pages⟩, hq0gr⟩ :=
          navGet_covers (j :: π'') (groups.getD []) _ Γ hcov hnav
        obtain ⟨l, r, hlr, hPr, hpq⟩ := hsplit
        obtain ⟨Γ', tl, hnav', hres⟩ := ih2 (j :: π'') q0 G k P hq0
          (by rw [hq0gr]; exact hG) hGgr hlab
          (by rw [hq0gr]; exact hlt)
          ⟨pre ++ l, r, by rw [hq0pages, hlr, List.append_assoc], hPr, hpq⟩
        refine ⟨Γ', tl, ?_, hres⟩
        simp only [navGet, List.getElem?_cons_zero, NavGroup.groups]
        rw [iteLen_getD]
        exact hnav'
    | (n + 1) :: π' =>
      rw [navGet_cons_succ] at hnav
      obtain ⟨Γ', tl, hnav', hres⟩ := ih3 (n :: π') Γ G k P hnav hG hGgr hlab hlt hsplit
      refine ⟨Γ', tl, ?_, hres⟩
      rw [navGet_cons_succ]
      exact hnav'

/-- Unfolded one-step equation of the page loop on a non-empty page list. -/
theorem processPages_cons (allPages : List NavPage) (page : NavPage)
    (ps : List NavPage) (ss : List NavGroup) (reds : List Redirect) :
    Disambiguator.processPages allPages (page :: ps) ss reds
      = match ss.findIdx? (fun g => strToLower g.label == strToLower page.label) with
        | some idx =>
          Disambiguator.processPages allPages ps
            (ss.set idx (NavGroup.mk (ss.getD idx (NavGroup.mk "" [] none)).label
              (Disambiguator.overviewPageFor page.path
                :: (ss.getD idx (NavGroup.mk "" [] none)).pages)
              (ss.getD idx (NavGroup.mk "" [] none)).groups))
            (reds ++ [Disambiguator.redirectFor page.path])
        | none =>
          if Disambiguator.hasNestedContent page ss = true then
            if (Disambiguator.extractChildPages page.path allPages).length > 0 then
              Disambiguator.processPages allPages ps
                (ss ++ [NavGroup.mk page.label
                  (Disambiguator.overviewPageFor page.path
                    :: Disambiguator.extractChildPages page.path allPages) none])
                (reds ++ [Disambiguator.redirectFor page.path])
            else
              (page :: (Disambiguator.processPages allPages ps ss reds).1,
                (Disambiguator.processPages allPages ps ss reds).2)
          else
            (page :: (Disambiguator.processPages allPages ps ss reds).1,
              (Disambiguator.processPages allPages ps ss reds).2) := by
  rw [Disambiguator.processPages.eq_def]

/-- Unfolded one-step equation of the disambiguation walk on a non-empty list. -/
theorem disambiguateGroups_cons (label : String) (pages : List NavPage)
    (groups : Option (List NavGroup)) (rest : List NavGroup) (reds : List Redirect) :
    Disambiguator.disambiguateGroups (NavGroup.mk label pages groups :: rest) reds
      = (NavGroup.mk label
            (Disambiguator.processPages pages pages (groups.getD []) reds).1
            (if (Disambiguator.disambiguateGroups
                (Disambiguator.processPages pages pages (groups.getD []) reds).2.1
                (Disambiguator.processPages pages pages (groups.getD []) reds).2.2).1.length > 0
              then some (Disambiguator.disambiguateGroups
                (Disambiguator.processPages pages pages (groups.getD []) reds).2.1
                (Disambiguator.processPages pages pages (groups.getD []) reds).2.2).1
              else none)
          :: (Disambiguator.disambiguateGroups rest
              (Disambiguator.disambiguateGroups
                (Disambiguator.processPages pages pages (groups.getD []) reds).2.1
                (Disambiguator.processPages pages pages (groups.getD []) reds).2.2).2).1,
         (Disambiguator.disambiguateGroups rest
            (Disambiguator.disambiguateGroups
              (Disambiguator.processPages pages pages (groups.getD []) reds).2.1
              (Disambiguator.processPages pages pages (groups.getD []) reds).2.2).2).2) := by
  rw [Disambiguator.disambiguateGroups.eq_def]

/-- The kept pages and final sub-group list of the page loop do not depend on
the redirect accumulator. -/
theorem processPages_fst_indep : ∀ (allPages ps : List NavPage) (ss : List NavGroup)
    (reds reds' : List Redirect),
    (Disambiguator.processPages allPages ps ss reds).1
      = (Disambiguator.processPages allPages ps ss reds').1 ∧
    (Disambiguator.processPages allPages ps ss reds).2.1
      = (Disambiguator.processPages allPages ps ss reds').2.1
  | allPages, [], ss, reds, reds' => by simp [Disambiguator.processPages]
  | allPages, page :: ps, ss, reds, reds' => by
    rw [processPages_cons, processPages_cons]
    cases hfind : List.findIdx?
        (fun g => strToLower g.label == strToLower page.label) ss with
    | some idx =>
      dsimp only
      exact processPages_fst_indep allPages ps _ _ _
    | none =>
      dsimp only
      split
      · split
        · exact processPages_fst_indep allPages ps _ _ _
        · have h := processPages_fst_indep allPages ps ss reds reds'
          exact ⟨by rw [h.1], h.2⟩
      · have h := processPages_fst_indep allPages ps ss reds reds'
        exact ⟨by rw [h.1], h.2⟩

/-- The disambiguated forest does not depend on the redirect accumulator. -/
theorem disambig_fst_indep (gs : List NavGroup) (reds : List Redirect) :
    ∀ (reds' : List Redirect),
    (Disambiguator.disambiguateGroups gs reds).1
      = (Disambiguator.disambiguateGroups gs reds').1 := by
  induction gs, reds using Disambiguator.disambiguateGroups.induct with
  | case1 reds =>
    intro reds'
    rw [disambiguateGroups_nil, disambiguateGroups_nil]
  | case2 label pages groups rest reds a b ih1 ih2 ih3 =>
    intro reds'
    rw [disambiguateGroups_cons, disambiguateGroups_cons]
    dsimp only
    have e1 := (processPages_fst_indep pages pages (groups.getD []) reds reds').1
    have e2 := (processPages_fst_indep pages pages (groups.getD []) reds reds').2
    have e4 : (Disambiguator.disambiguateGroups
          (Disambiguator.processPages pages pages (groups.getD []) reds).2.1
          (Disambiguator.processPages pages pages (groups.getD []) reds).2.2).1
        = (Disambiguator.disambiguateGroups
          (Disambiguator.processPages pages pages (groups.getD []) reds').2.1
          (Disambiguator.processPages pages pages (groups.getD []) reds').2.2).1 := by
      rw [← e2]
      exact ih2 _
    have e5 : (Disambiguator.disambiguateGroups rest
          (Disambiguator.disambiguateGroups
            (Disambiguator.processPages pages pages (groups.getD []) reds).2.1
            (Disambiguator.processPages pages pages (groups.getD []) reds).2.2).2).1
        = (Disambiguator.disambiguateGroups rest
          (Disambiguator.disambiguateGroups
            (Disambiguator.processPages pages pages (groups.getD []) reds').2.1
            (Disambiguator.processPages pages pages (groups.getD []) reds').2.2).2).1 := by
      rw [← e2]
      exact ih3 _
    rw [e1, e4, e5]

/-- The tab fold of disambiguateSlugs maps each tab positionally, replacing only
its groups (computed independently of the accumulated redirects). -/
theorem disambigSlugs_fold_tabs : ∀ (tabs : List NavTab) (accT : List NavTab)
    (accR : List Redirect),
    (tabs.foldl
      (fun (acc : List NavTab × List Redirect) tab =>
        let r := Disambiguator.disambiguateGroups tab.groups acc.2
        (acc.1 ++ [{ tab with groups := r.1 }], r.2))
      (accT, accR)).1
      = accT ++ tabs.map (fun tab =>
          { tab with groups := (Disambiguator.disambiguateGroups tab.groups []).1 })
  | [], accT, accR => by simp
  | t :: rest, accT, accR => by
    simp only [List.foldl_cons]
    rw [disambigSlugs_fold_tabs rest _ _]
    rw [disambig_fst_indep t.groups accR []]
    simp

/-- The output tab list of disambiguateSlugs, tab by tab. -/
theorem disambigSlugs_tabs_eq (tabs : List NavTab) :
    (Disambiguator.disambiguateSlugs tabs).tabs
      = tabs.map (fun tab =>
          { tab with groups := (Disambiguator.disambiguateGroups tab.groups []).1 }) := by
  simp only [Disambiguator.disambiguateSlugs]
  rw [disambigSlugs_fold_tabs]
  simp

/-- Redirect emission lifted through the tab fold. -/
theorem disambigSlugs_fold_emits : ∀ (tabs : List NavTab) (accT : List NavTab)
    (accR : List Redirect) (i : Nat) (t : NavTab) (π : List Nat) (Γ : NavGroup)
    (P : NavPage),
    tabs[i]? = some t → navGet π t.groups = some Γ → P ∈ Γ.pages →
    (∃ G ∈ Γ.groups.getD [], strToLower G.label = strToLower P.label) →
    Disambiguator.redirectFor P.path ∈ (tabs.foldl
      (fun (acc : List NavTab × List Redirect) tab =>
        let r := Disambiguator.disambiguateGroups tab.groups acc.2
        (acc.1 ++ [{ tab with groups := r.1 }], r.2))
      (accT, accR)).2
  | [], accT, accR, i, t, π, Γ, P, ht, hnav, hP, hm => by simp at ht
  | tb :: rest, accT, accR, i, t, π, Γ, P, ht, hnav, hP, hm => by
    simp only [List.foldl_cons]
    cases i with
    | zero =>
      simp only [List.getElem?_cons_zero, Option.some.injEq] at ht
      subst ht
      have hmem := disambig_emits tb.groups accR π Γ P hnav hP hm
      exact (disambigSlugs_fold_reds_extend rest _ _).subset hmem
    | succ n =>
      simp only [List.getElem?_cons_succ] at ht
      exact disambigSlugs_fold_emits rest _ _ n t π Γ P ht hnav hP hm

/-- Converts the boolean no-earlier-label-match hypothesis to its index form. -/
theorem take_all_labels {gs : List NavGroup} {k : Nat} {P : NavPage}
    (h : (gs.take k).all
        (fun g => !(strToLower g.label == strToLower P.label)) = true) :
    ∀ (j : Nat) (g : NavGroup), j < k → gs[j]? = some g →
      strToLower g.label ≠ strToLower P.label := by
  intro j g hj hg
  have hmem : g ∈ gs.take k :=
    @List.getElem?_mem _ _ j _ (by rw [List.getElem?_take, if_pos hj]; exact hg)
  have := List.all_eq_true.mp h g hmem
  simpa using this

/-- Converts the boolean matcher-shares-path hypothesis to its element form. -/
theorem pages_all_paths {ps : List NavPage} {P : NavPage}
    (h : ps.all (fun q => !(strToLower q.label == strToLower P.label)
        || (q.path == P.path)) = true) :
    ∀ q ∈ ps, strToLower q.label = strToLower P.label → q.path = P.path := by
  intro q hq hl
  have := List.all_eq_true.mp h q hq
  simp [hl] at this
  exact this

/-- C4 (amended): anywhere in any input forest — tab i, group Γ at index path π,
direct page P of Γ, sub-group G of Γ at index k with
G.label.toLowerCase() == P.label.toLowerCase() — disambiguateSlugs (a) returns a
redirect list containing the redirect whose source is P's original path with a
leading slash forced (not the path verbatim) and whose destination ends in
"/overview"; (b) keeps a tab at position i (label, slug, sourceFile unchanged)
whose group at position π has no direct page label-matching any of Γ's
sub-groups — in particular P is removed from the direct page list; and (c) when
G carries no sub-groups of its own, no sub-group before index k label-matches P,
and every label-matching page of Γ shares P's path, the output sub-group at
index k carries G's label and has the overview page (label "Overview") as its
first entry. -/
theorem disambiguation_primary_rule (tabs : List NavTab) (i : Nat) (t : NavTab)
    (π : List Nat) (Γ G : NavGroup) (k : Nat) (P : NavPage)
    (ht : tabs[i]? = some t)
    (hnav : navGet π t.groups = some Γ)
    (hP : P ∈ Γ.pages)
    (hG : (Γ.groups.getD [])[k]? = some G)
    (hlab : strToLower G.label = strToLower P.label) :
    (Disambiguator.redirectFor P.path ∈ (Disambiguator.disambiguateSlugs tabs).redirects
      ∧ (Disambiguator.redirectFor P.path).source
          = Disambiguator.ensureLeadingSlash P.path
      ∧ strEndsWith (Disambiguator.redirectFor P.path).destination "/overview" = true
      ∧ (Disambiguator.overviewPageFor P.path).label = "Overview") ∧
    (∃ t', (Disambiguator.disambiguateSlugs tabs).tabs[i]? = some t'
      ∧ t'.label = t.label ∧ t'.slug = t.slug ∧ t'.sourceFile = t.sourceFile
      ∧ (∃ Γ', navGet π t'.groups = some Γ'
          ∧ (∀ q ∈ Γ'.pages, ∀ g ∈ Γ.groups.getD [],
              strToLower q.label ≠ strToLower g.label)
          ∧ P ∉ Γ'.pages)
      ∧ (G.groups = none →
          ((Γ.groups.getD []).take k).all
            (fun g => !(strToLower g.label == strToLower P.label)) = true →
          Γ.pages.all (fun q => !(strToLower q.label == strToLower P.label)
            || (q.path == P.path)) = true →
          ∃ Γ' tl, navGet π t'.groups = some Γ'
            ∧ (Γ'.groups.getD [])[k]? = some (NavGroup.mk G.label
                (Disambiguator.overviewPageFor P.path :: tl) none))) := by
  constructor
  · refine ⟨?_, rfl, redirectFor_dest_overview P.path, rfl⟩
    simp only [Disambiguator.disambiguateSlugs]
    exact disambigSlugs_fold_emits tabs [] [] i t π Γ P ht hnav hP
      ⟨G, List.getElem?_mem hG, hlab⟩
  · refine ⟨{ t with groups := (Disambiguator.disambiguateGroups t.groups []).1 },
      ?_, rfl, rfl, rfl, ?_, ?_⟩
    · rw [disambigSlugs_tabs_eq, List.getElem?_map, ht]
      rfl
    · obtain ⟨Γ', hnav', hq⟩ := disambig_kept t.groups [] π Γ hnav
      refine ⟨Γ', hnav', hq, ?_⟩
      intro hPmem
      exact (hq P hPmem G (List.getElem?_mem hG)) hlab.symm
    · intro hGgr htake hall
      obtain ⟨Γ', tl, hnav', hres⟩ := disambig_overview t.groups [] π Γ G k P
        hnav hG hGgr hlab (take_all_labels htake)
        ⟨[], Γ.pages, rfl, hP, pages_all_paths hall⟩
      exact ⟨Γ', tl, hnav', hres⟩

/-- C4 counterexample, refuting the claim in three respects. First, the
redirect's source is not P's original path: a leading slash is forced, so for P
at `"billing.md"` the only emitted redirect has source `"/billing.md"`, and no
redirect with source exactly `"billing.md"` exists. Second, when the
label-matching sub-group G itself carries a sub-group labelled "Overview", the
overview page inserted into G is itself disambiguated away by the recursive
pass, so G's first page entry is `"Plans"`, not the overview page, although P
and G satisfy the claim's premise. Third, two label-matching pages with equal
paths in sibling groups emit two redirects with the same source, so "exactly
one redirect with source P's path" fails even with the slash correction. -/
theorem disambiguation_redirect_source_cex :
    ((Disambiguator.disambiguateSlugs
        [⟨"Docs", "docs", none,
          [NavGroup.mk "G" [⟨"Billing", "billing.md", none⟩]
            (some [NavGroup.mk "Billing" [⟨"Plans", "billing/plans.md", none⟩]
              none])]⟩]).redirects
      = [⟨"/billing.md", "/billing/overview"⟩] ∧
     ("/billing.md" : String) ≠ "billing.md") ∧
    ((Disambiguator.disambiguateSlugs
        [⟨"Docs", "docs", none,
          [NavGroup.mk "G" [⟨"Billing", "billing.md", none⟩]
            (some [NavGroup.mk "Billing" [⟨"Plans", "billing/plans.md", none⟩]
              (some [NavGroup.mk "Overview"
                [⟨"Deep", "billing/overview/deep.md", none⟩] none])])]⟩]).tabs
      = [⟨"Docs", "docs", none,
          [NavGroup.mk "G" []
            (some [NavGroup.mk "Billing" [⟨"Plans", "billing/plans.md", none⟩]
              (some [NavGroup.mk "Overview"
                [⟨"Overview", "billing/overview/overview",
                    some "billing/overview/overview"⟩,
                 ⟨"Deep", "billing/overview/deep.md", none⟩] none])])]⟩] ∧
     (⟨"Plans", "billing/plans.md", none⟩ : NavPage)
        ≠ Disambiguator.overviewPageFor "billing.md") ∧
    ((Disambiguator.disambiguateSlugs
        [⟨"Docs", "docs", none,
          [NavGroup.mk "A" [⟨"X", "x.md", none⟩]
            (some [NavGroup.mk "x" [⟨"Inner", "x/inner.md", none⟩] none]),
           NavGroup.mk "B" [⟨"X", "x.md", none⟩]
            (some [NavGroup.mk "X" [⟨"Inner2", "x/inner2.md", none⟩] none])]⟩]).redirects
      = [⟨"/x.md", "/x/overview"⟩, ⟨"/x.md", "/x/overview"⟩] ∧
     (([⟨"/x.md", "/x/overview"⟩, ⟨"/x.md", "/x/overview"⟩] : List Redirect).filter
        (fun r => r.source == "/x.md")).length ≠ 1) := by
  refine ⟨⟨?_, by decide⟩, ⟨?_, by decide⟩, ⟨?_, by decide⟩⟩
  · simp only [Disambiguator.disambiguateSlugs, List.foldl_cons, List.foldl_nil]
    rw [disambiguateGroups_primary "G" ⟨"Billing", "billing.md", none⟩
      (NavGroup.mk "Billing" [⟨"Plans", "billing/plans.md", none⟩] none) []
      (by decide) rfl]
    decide
  · have hp2 : Disambiguator.processPages
        [⟨"Overview", "billing/overview", some "billing/overview"⟩,
         ⟨"Plans", "billing/plans.md", none⟩]
        [⟨"Overview", "billing/overview", some "billing/overview"⟩,
         ⟨"Plans", "billing/plans.md", none⟩]
        [NavGroup.mk "Overview" [⟨"Deep", "billing/overview/deep.md", none⟩] none]
        [⟨"/billing.md", "/billing/overview"⟩]
      = ([⟨"Plans", "billing/plans.md", none⟩],
         [NavGroup.mk "Overview"
           [⟨"Overview", "billing/overview/overview",
               some "billing/overview/overview"⟩,
            ⟨"Deep", "billing/overview/deep.md", none⟩] none],
         [⟨"/billing.md", "/billing/overview"⟩,
          ⟨"/billing/overview", "/billing/overview/overview"⟩]) := rfl
    have hL2 := disambiguateGroups_leaf "Overview"
      [⟨"Overview", "billing/overview/overview", some "billing/overview/overview"⟩,
       ⟨"Deep", "billing/overview/deep.md", none⟩]
      [⟨"/billing.md", "/billing/overview"⟩,
       ⟨"/billing/overview", "/billing/overview/overview"⟩]
    have hL1 : Disambiguator.disambiguateGroups
        [NavGroup.mk "Billing"
          [⟨"Overview", "billing/overview", some "billing/overview"⟩,
           ⟨"Plans", "billing/plans.md", none⟩]
          (some [NavGroup.mk "Overview"
            [⟨"Deep", "billing/overview/deep.md", none⟩] none])]
        [⟨"/billing.md", "/billing/overview"⟩]
      = ([NavGroup.mk "Billing" [⟨"Plans", "billing/plans.md", none⟩]
            (some [NavGroup.mk "Overview"
              [⟨"Overview", "billing/overview/overview",
                  some "billing/overview/overview"⟩,
               ⟨"Deep", "billing/overview/deep.md", none⟩] none])],
         [⟨"/billing.md", "/billing/overview"⟩,
          ⟨"/billing/overview", "/billing/overview/overview"⟩]) := by
      rw [disambiguateGroups_cons]
      simp only [Option.getD_some]
      rw [hp2, hL2, disambiguateGroups_nil]
      rfl
    have hp1 : Disambiguator.processPages
        [⟨"Billing", "billing.md", none⟩] [⟨"Billing", "billing.md", none⟩]
        [NavGroup.mk "Billing" [⟨"Plans", "billing/plans.md", none⟩]
          (some [NavGroup.mk "Overview"
            [⟨"Deep", "billing/overview/deep.md", none⟩] none])] []
      = ([], [NavGroup.mk "Billing"
            [⟨"Overview", "billing/overview", some "billing/overview"⟩,
             ⟨"Plans", "billing/plans.md", none⟩]
            (some [NavGroup.mk "Overview"
              [⟨"Deep", "billing/overview/deep.md", none⟩] none])],
         [⟨"/billing.md", "/billing/overview"⟩]) := rfl
    simp only [Disambiguator.disambiguateSlugs, List.foldl_cons, List.foldl_nil]
    rw [disambiguateGroups_cons]
    simp only [Option.getD_some]
    rw [hp1, hL1, disambiguateGroups_nil]
    rfl
  · have hp3 : Disambiguator.processPages
        [⟨"X", "x.md", none⟩] [⟨"X", "x.md", none⟩]
        [NavGroup.mk "x" [⟨"Inner", "x/inner.md", none⟩] none] []
      = ([], [NavGroup.mk "x"
            [⟨"Overview", "x/overview", some "x/overview"⟩,
             ⟨"Inner", "x/inner.md", none⟩] none],
         [⟨"/x.md", "/x/overview"⟩]) := rfl
    have hL3 := disambiguateGroups_leaf "x"
      [⟨"Overview", "x/overview", some "x/overview"⟩,
       ⟨"Inner", "x/inner.md", none⟩]
      [⟨"/x.md", "/x/overview"⟩]
    have hB := disambiguateGroups_primary "B" ⟨"X", "x.md", none⟩
      (NavGroup.mk "X" [⟨"Inner2", "x/inner2.md", none⟩] none)
      [⟨"/x.md", "/x/overview"⟩] (by decide) rfl
    simp only [Disambiguator.disambiguateSlugs, List.foldl_cons, List.foldl_nil]
    rw [disambiguateGroups_cons]
    simp only [Option.getD_some]
    rw [hp3, hL3, hB]
    decide

/-- Concrete two-tab input exercising the generalized primary rule at depth. -/
def c4Tabs : List NavTab :=
  [⟨"Intro", "intro", none, [NavGroup.mk "Start" [⟨"Home", "home.md", none⟩] none]⟩,
   ⟨"Docs", "docs", some "SUMMARY.md",
     [NavGroup.mk "Top" [⟨"Other", "other.md", none⟩]
       (some [NavGroup.mk "Sect"
           [⟨"Extra", "sect/extra.md", none⟩, ⟨"Billing", "sect/billing.md", none⟩]
           (some [NavGroup.mk "Misc" [⟨"Note", "sect/note.md", none⟩] none,
                  NavGroup.mk "billing"
                    [⟨"Plans", "sect/billing/plans.md", none⟩] none]),
         NavGroup.mk "Side" [] none])]⟩]

/-- The second tab of the concrete input. -/
def c4Tab : NavTab :=
  ⟨"Docs", "docs", some "SUMMARY.md",
    [NavGroup.mk "Top" [⟨"Other", "other.md", none⟩]
      (some [NavGroup.mk "Sect"
          [⟨"Extra", "sect/extra.md", none⟩, ⟨"Billing", "sect/billing.md", none⟩]
          (some [NavGroup.mk "Misc" [⟨"Note", "sect/note.md", none⟩] none,
                 NavGroup.mk "billing"
                   [⟨"Plans", "sect/billing/plans.md", none⟩] none]),
        NavGroup.mk "Side" [] none])]⟩

/-- The group at index path [0, 0] of the second tab. -/
def c4Gamma : NavGroup :=
  NavGroup.mk "Sect"
    [⟨"Extra", "sect/extra.md", none⟩, ⟨"Billing", "sect/billing.md", none⟩]
    (some [NavGroup.mk "Misc" [⟨"Note", "sect/note.md", none⟩] none,
           NavGroup.mk "billing" [⟨"Plans", "sect/billing/plans.md", none⟩] none])

/-- The label-matching sub-group, at index 1 of the group's sub-list. -/
def c4G : NavGroup :=
  NavGroup.mk "billing" [⟨"Plans", "sect/billing/plans.md", none⟩] none

/-- The parent page being disambiguated. -/
def c4P : NavPage := ⟨"Billing", "sect/billing.md", none⟩

/-- C4 witness: the generalized primary rule applied inside a two-tab tree with
surrounding pages and sub-groups, at tab 1, group position [0, 0], sub-group
index 1. -/
theorem disambiguation_primary_rule_witness :
    (Disambiguator.redirectFor c4P.path
        ∈ (Disambiguator.disambiguateSlugs c4Tabs).redirects
      ∧ (Disambiguator.redirectFor c4P.path).source
          = Disambiguator.ensureLeadingSlash c4P.path
      ∧ strEndsWith (Disambiguator.redirectFor c4P.path).destination "/overview" = true
      ∧ (Disambiguator.overviewPageFor c4P.path).label = "Overview") ∧
    (∃ t', (Disambiguator.disambiguateSlugs c4Tabs).tabs[1]? = some t'
      ∧ t'.label = c4Tab.label ∧ t'.slug = c4Tab.slug
      ∧ t'.sourceFile = c4Tab.sourceFile
      ∧ (∃ Γ', navGet [0, 0] t'.groups = some Γ'
          ∧ (∀ q ∈ Γ'.pages, ∀ g ∈ c4Gamma.groups.getD [],
              strToLower q.label ≠ strToLower g.label)
          ∧ c4P ∉ Γ'.pages)
      ∧ (∃ Γ' tl, navGet [0, 0] t'.groups = some Γ'
          ∧ (Γ'.groups.getD [])[1]? = some (NavGroup.mk c4G.label
              (Disambiguator.overviewPageFor c4P.path :: tl) none))) := by
  obtain ⟨hA, t', ht', h1, h2, h3, hB, hC⟩ :=
    disambiguation_primary_rule c4Tabs 1 c4Tab [0, 0] c4Gamma c4G 1 c4P
      rfl rfl (by decide) rfl (by decide)
  exact ⟨hA, t', ht', h1, h2, h3, hB, hC rfl (by decide) (by decide)⟩
